import Mathlib

/-!
Verification of the movement-correspondence engine of a grid-based puzzle renderer.

The engine compares two per-cell occupancy snapshots (`previousLevelState` and the
current level) and infers, per object type, which old occupied cell corresponds to
which new occupied cell.  It consists of
* `buildObjectPositionMap` — decoding packed bitmask words into per-type position lists,
* a straight-line push heuristic, and
* a maximum-bipartite-matching fallback (Kuhn's augmenting paths) with a
  stay-edge-preferring refinement pass.

JavaScript arrays indexed by naturals are modelled as total functions `Nat → _`
(with `-1` sentinel entries modelled as `Option.none`); out-of-range reads, which
never occur in verified runs, read the function's default.  The unbounded JS
recursion/loops are modelled with an explicit fuel that is provably sufficient.
-/

namespace PS3D

/-- Pointwise update of a total function, modelling a JS array write `f[k] = v`. -/
def upd {α : Type} (f : Nat → α) (k : Nat) (v : α) : Nat → α :=
  fun x => if x = k then v else f x

@[simp] theorem upd_same {α : Type} (f : Nat → α) (k : Nat) (v : α) : upd f k v k = v := by
  simp [upd]

@[simp] theorem upd_other {α : Type} (f : Nat → α) (k x : Nat) (v : α) (h : x ≠ k) :
    upd f k v x = f x := by
  simp [upd, h]

/-- One snapshot of the level: packed occupancy words plus grid dimensions.
Mirrors `previousLevelState = { objects, width, height }` and the corresponding
fields of `curLevel`. -/
structure LevelState where
  objects : List Nat
  width : Nat
  height : Nat
deriving Repr, DecidableEq

/-- One inferred movement record `{ objectIndex, fromPosIndex, toPosIndex }`. -/
structure Movement where
  objectIndex : Nat
  fromPosIndex : Nat
  toPosIndex : Nat
deriving Repr, DecidableEq

/-- Whether the cell at `posIndex` has the bit of `objectIndex` set: the JS test
`objects[posIndex * STRIDE_OBJ + s] & (1 << bit)` with `s = objectIndex / 32`,
`bit = objectIndex % 32`, where `s` ranges over `0 ≤ s < stride`. -/
def cellBit (stride : Nat) (objects : List Nat) (posIndex objectIndex : Nat) : Bool :=
  decide (objectIndex / 32 < stride) &&
    Nat.testBit (objects.getD (posIndex * stride + objectIndex / 32) 0) (objectIndex % 32)

/-- `buildObjectPositionMap(objects, width, height)`: scan every position's bitmask
words and bits, appending `posIndex` to the list of each object type present there.
The JS object-with-integer-keys is modelled as a total function from object index to
position list (absent key = empty list). -/
def buildObjectPositionMap (stride : Nat) (objects : List Nat) (width height : Nat) :
    Nat → List Nat :=
  (List.range (width * height)).foldl
    (fun m posIndex =>
      (List.range (stride * 32)).foldl
        (fun m2 objectIndex =>
          if cellBit stride objects posIndex objectIndex then
            upd m2 objectIndex (m2 objectIndex ++ [posIndex])
          else m2)
        m)
    (fun _ => [])

/-! ### Push heuristic -/

/-- Sign of an integer, as the JS normalisation `d === 0 ? 0 : (d > 0 ? 1 : -1)`. -/
def unitOf (d : Int) : Int :=
  if d = 0 then 0 else if d > 0 then 1 else -1

/-- The unit direction of one (disappeared, appeared) pair, or `none` when the
delta is diagonal or zero (`(dx === 0) === (dy === 0)`). Coordinates are decoded
with `x = pos / height`, `y = pos % height`. -/
def pairUnit (height : Nat) (pr : Nat × Nat) : Option (Int × Int) :=
  let dx : Int := (pr.2 / height : Nat) - (pr.1 / height : Nat)
  let dy : Int := (pr.2 % height : Nat) - (pr.1 % height : Nat)
  if (dx = 0) = (dy = 0) then none
  else some (unitOf dx, unitOf dy)

/-- The common unit direction of all pairs, or `none` when any pair is invalid or
two pairs disagree (the `consistentPush` / `pushDx === null` check). -/
def commonPushDir (height : Nat) : List (Nat × Nat) → Option (Int × Int)
  | [] => none
  | p :: rest =>
    match pairUnit height p with
    | none => none
    | some u => if rest.all (fun q => pairUnit height q = some u) then some u else none

/-- Membership of an integer position in a `Set` of natural positions. -/
def hasPos (l : List Nat) (z : Int) : Bool :=
  l.any (fun p => (p : Int) = z)

/-- The walk of the push emitter for one (disappeared, appeared) pair: step from
`(x, y)` by `(ux, uy)` until `(endX, endY)` is reached, emitting a record whenever
the current cell was occupied in the old map and the next in the new map.  The
fuel equals the number of steps the JS `while` loop performs. -/
def pushWalk (objectIndex : Nat) (height : Nat) (oldPosSet newPosSet : List Nat)
    (ux uy : Int) (endX endY : Int) : Nat → Int → Int → List Movement
  | 0, _, _ => []
  | fuel + 1, x, y =>
    if x = endX ∧ y = endY then []
    else
      let oldPos : Int := y + x * (height : Int)
      let newX : Int := x + ux
      let newY : Int := y + uy
      let newPos : Int := newY + newX * (height : Int)
      let rest := pushWalk objectIndex height oldPosSet newPosSet ux uy endX endY fuel newX newY
      if hasPos oldPosSet oldPos ∧ hasPos newPosSet newPos then
        ⟨objectIndex, oldPos.toNat, newPos.toNat⟩ :: rest
      else rest

/-- Emit the movement records of the push heuristic for one pair. -/
def pushEmitPair (objectIndex : Nat) (height : Nat) (oldPosSet newPosSet : List Nat)
    (ux uy : Int) (pr : Nat × Nat) : List Movement :=
  let startX : Int := (pr.1 / height : Nat)
  let startY : Int := (pr.1 % height : Nat)
  let endX : Int := (pr.2 / height : Nat)
  let endY : Int := (pr.2 % height : Nat)
  pushWalk objectIndex height oldPosSet newPosSet ux uy endX endY
    ((endX - startX).natAbs + (endY - startY).natAbs) startX startY

/-! ### Bipartite matcher -/

/-- Last-occurrence index map `newPosToIdx` (`Map.set` overwrites earlier entries). -/
def posToIdx (newPositions : List Nat) : Nat → Option Nat :=
  fun p => newPositions.enum.foldl
    (fun acc pr => if pr.2 = p then some pr.1 else acc) none

/-- The stay-edge list `adjStay[oldIdx]` and full adjacency list `adj[oldIdx]` for
one old position: the stay edge first (if the exact position is reoccupied), then
the 4 grid neighbours that are occupied in the new map.  Old coordinates are
decoded with the previous snapshot's height; bounds and re-encoding use the
current grid's width/height. -/
def adjOfOldPos (newPositions : List Nat) (width height prevHeight : Nat)
    (oldPos : Nat) : List Nat × List Nat :=
  let oldX : Int := (oldPos / prevHeight : Nat)
  let oldY : Int := (oldPos % prevHeight : Nat)
  let stay : List Nat :=
    if newPositions.contains oldPos then
      match posToIdx newPositions oldPos with
      | some idx => [idx]
      | none => []
    else []
  let offsets : List (Int × Int) := [(-1, 0), (1, 0), (0, -1), (0, 1)]
  let nbrs := offsets.foldl
    (fun acc d =>
      let newX := oldX + d.1
      let newY := oldY + d.2
      if 0 ≤ newX ∧ newX < (width : Int) ∧ 0 ≤ newY ∧ newY < (height : Int) then
        let newPos : Int := newY + newX * (height : Int)
        match posToIdx newPositions newPos.toNat with
        | some idx => if newPositions.contains newPos.toNat then acc ++ [idx] else acc
        | none => acc
      else acc)
    []
  (stay, stay ++ nbrs)

/-- `adjStay` rows for all old positions. -/
def buildAdjStay (oldPositions newPositions : List Nat) (width height prevHeight : Nat) :
    List (List Nat) :=
  oldPositions.map (fun p => (adjOfOldPos newPositions width height prevHeight p).1)

/-- `adj` rows for all old positions. -/
def buildAdj (oldPositions newPositions : List Nat) (width height prevHeight : Nat) :
    List (List Nat) :=
  oldPositions.map (fun p => (adjOfOldPos newPositions width height prevHeight p).2)

/-- State of the augmenting-path search: the visited marks and both matching arrays
(`-1` modelled as `none`). -/
structure AugState where
  vis : Nat → Bool
  mN : Nat → Option Nat
  mO : Nat → Option Nat

/-- `tryAugment`: depth-first search for an augmenting path.  `neighbors` is the
remainder of `adj[r]` still to be scanned for the current node `r`.  Each step of
the JS execution consumes one unit of fuel; the algorithm invokes it with
provably sufficient fuel, so the `0` base case is never reached. -/
def tryAugment (adj : List (List Nat)) : Nat → List Nat → Nat → AugState → Bool × AugState
  | 0, _, _, st => (false, st)
  | _ + 1, [], _, st => (false, st)
  | fuel + 1, j :: rest, r, st =>
    if st.vis j then tryAugment adj fuel rest r st
    else
      let st1 : AugState := { st with vis := upd st.vis j true }
      match st1.mN j with
      | none =>
        (true, { st1 with mN := upd st1.mN j (some r), mO := upd st1.mO r (some j) })
      | some cur =>
        let res := tryAugment adj fuel (adj.getD cur []) cur st1
        if res.1 then
          (true, { res.2 with mN := upd res.2.mN j (some r), mO := upd res.2.mO r (some j) })
        else tryAugment adj fuel rest r res.2

/-- Longest adjacency row, used to size the fuel. -/
def maxAdjLen (adj : List (List Nat)) : Nat :=
  adj.foldr (fun l m => max l.length m) 0

/-- Fuel that provably suffices for every `tryAugment` search on this graph. -/
def augFuel (adj : List (List Nat)) (nNew : Nat) : Nat :=
  (nNew + 1) * (maxAdjLen adj + 2) + 1

/-- Phase 0: mark the first `toDelete` old nodes that have no stay edge as
excluded (rows are scanned in order; a `false` mark means eligible). -/
def excludeMarks : List (List Nat) → Nat → List Bool
  | [], _ => []
  | _ :: rest, 0 => false :: excludeMarks rest 0
  | s :: rest, toDel + 1 =>
    if s.isEmpty then true :: excludeMarks rest toDel
    else false :: excludeMarks rest (toDel + 1)

/-- The matching state carried between phases (visited marks are per-call). -/
structure MatchPair where
  mN : Nat → Option Nat
  mO : Nat → Option Nat

/-- Phase 1: attempt one augmenting path from every non-excluded old node, with a
fresh visited array each time. -/
def phase1 (adj : List (List Nat)) (excluded : List Bool) (fuel nOld : Nat)
    (mp : MatchPair) : MatchPair :=
  (List.range nOld).foldl
    (fun mp r =>
      if excluded.getD r false then mp
      else
        let res := tryAugment adj fuel (adj.getD r []) r ⟨fun _ => false, mp.mN, mp.mO⟩
        ⟨res.2.mN, res.2.mO⟩)
    mp

/-- `countStayEdges()`: number of old nodes currently matched along their stay edge. -/
def countStayEdges (adjStay : List (List Nat)) (nOld : Nat) (mO : Nat → Option Nat) : Nat :=
  (List.range nOld).countP
    (fun i => decide (adjStay.getD i [] ≠ [] ∧ mO i = (adjStay.getD i []).head?))

/-- State of the Phase 2 refinement: matching arrays, the locked stay edges, and
the sweep's `improved` flag. -/
structure P2State where
  mN : Nat → Option Nat
  mO : Nat → Option Nat
  locked : List Nat
  improved : Bool

/-- One iteration of the Phase 2 scan body, for old node `l`. -/
def phase2Body (adj adjStay : List (List Nat)) (fuel nOld : Nat) (st : P2State)
    (l : Nat) : P2State :=
  match (adjStay.getD l []).head? with
  | none => st
  | some rStay =>
    if st.mO l = some rStay then st
    else
      let lPrime := st.mN rStay
      let rPrime := st.mO l
      match lPrime with
      | none =>
        let mN1 := match rPrime with
          | some rp => upd st.mN rp none
          | none => st.mN
        { st with
          mN := upd mN1 rStay (some l),
          mO := upd st.mO l (some rStay),
          locked := rStay :: st.locked,
          improved := true }
      | some lp =>
        let stayBefore := countStayEdges adjStay nOld st.mO
        let mN1 := match rPrime with
          | some rp => upd st.mN rp none
          | none => st.mN
        let mN2 := upd mN1 rStay (some l)
        let mO2 := upd (upd st.mO l (some rStay)) lp none
        let vis0 : Nat → Bool := fun j => st.locked.contains j || j = rStay
        let res := tryAugment adj fuel (adj.getD lp []) lp ⟨vis0, mN2, mO2⟩
        if res.1 then
          if stayBefore < countStayEdges adjStay nOld res.2.mO then
            ⟨res.2.mN, res.2.mO, rStay :: st.locked, true⟩
          else st
        else st

/-- One full scan of Phase 2 over all old nodes, starting with `improved = false`. -/
def phase2Sweep (adj adjStay : List (List Nat)) (fuel nOld : Nat) (st : P2State) : P2State :=
  (List.range nOld).foldl (phase2Body adj adjStay fuel nOld) { st with improved := false }

/-- The Phase 2 `while (improved)` loop.  Each improving sweep strictly increases
the stay-edge count, so `nOld + 1` sweeps of fuel suffice. -/
def phase2Loop (adj adjStay : List (List Nat)) (fuel nOld : Nat) :
    Nat → P2State → P2State
  | 0, st => st
  | sweeps + 1, st =>
    let st1 := phase2Sweep adj adjStay fuel nOld st
    if st1.improved then phase2Loop adj adjStay fuel nOld sweeps st1 else st1

/-- The complete matcher for one object type: Phase 0 exclusion, Phase 1 maximum
matching, Phase 2 stay-edge refinement.  Returns the final matching state. -/
def matcherFinalState (oldPositions newPositions : List Nat)
    (width height prevHeight : Nat) : MatchPair :=
  let adj := buildAdj oldPositions newPositions width height prevHeight
  let adjStay := buildAdjStay oldPositions newPositions width height prevHeight
  let nOld := oldPositions.length
  let nNew := newPositions.length
  let excluded := excludeMarks adjStay (nOld - nNew)
  let fuel := augFuel adj nNew
  let mp1 := phase1 adj excluded fuel nOld ⟨fun _ => none, fun _ => none⟩
  let st2 := phase2Loop adj adjStay fuel nOld (nOld + 1) ⟨mp1.mN, mp1.mO, [], false⟩
  ⟨st2.mN, st2.mO⟩

/-- Extraction: for every new index matched to an old index, emit a record when
the positions differ. -/
def extractMovements (objectIndex : Nat) (oldPositions newPositions : List Nat)
    (mN : Nat → Option Nat) : List Movement :=
  (List.range newPositions.length).foldl
    (fun acc newIdx =>
      match mN newIdx with
      | none => acc
      | some oldIdx =>
        let oldPos := oldPositions.getD oldIdx 0
        let newPos := newPositions.getD newIdx 0
        if oldPos ≠ newPos then acc ++ [⟨objectIndex, oldPos, newPos⟩] else acc)
    []

/-- Movement records of the general matcher for one object type. -/
def matcherMovements (objectIndex : Nat) (oldPositions newPositions : List Nat)
    (width height prevHeight : Nat) : List Movement :=
  extractMovements objectIndex oldPositions newPositions
    (matcherFinalState oldPositions newPositions width height prevHeight).mN

/-- Number of matched pairs the matcher produces for one object type. -/
def matcherMatchedCount (oldPositions newPositions : List Nat)
    (width height prevHeight : Nat) : Nat :=
  ((List.range newPositions.length).filter
    (fun j => ((matcherFinalState oldPositions newPositions width height prevHeight).mN j).isSome)).length

/-- The per-object-type engine: push heuristic first, general matcher otherwise. -/
def detectMovementsForType (objectIndex : Nat) (oldPositions newPositions : List Nat)
    (width height prevHeight : Nat) : List Movement :=
  let disappeared := oldPositions.filter (fun p => !newPositions.contains p)
  let appeared := newPositions.filter (fun p => !oldPositions.contains p)
  let dS := disappeared.insertionSort (· ≤ ·)
  let aS := appeared.insertionSort (· ≤ ·)
  let dir :=
    if 0 < disappeared.length ∧ disappeared.length = appeared.length then
      commonPushDir height (dS.zip aS)
    else none
  match dir with
  | some u =>
    (dS.zip aS).foldl
      (fun acc pr =>
        acc ++ pushEmitPair objectIndex height oldPositions newPositions u.1 u.2 pr)
      []
  | none => matcherMovements objectIndex oldPositions newPositions width height prevHeight

/-- `detectMovements()`: compare the previous and current level states and return
all inferred movement records, iterating object types in ascending index order
(the JS `for...in` order for integer-like keys), skipping types with no old
occupants. -/
def detectMovements (stride : Nat) (prev : Option LevelState) (cur : LevelState) :
    List Movement :=
  match prev with
  | none => []
  | some p =>
    let oldMap := buildObjectPositionMap stride p.objects p.width p.height
    let newMap := buildObjectPositionMap stride cur.objects cur.width cur.height
    (List.range (stride * 32)).foldl
      (fun acc objectIndex =>
        if (newMap objectIndex).isEmpty then acc
        else if (oldMap objectIndex).isEmpty then acc
        else
          acc ++ detectMovementsForType objectIndex (oldMap objectIndex)
            (newMap objectIndex) cur.width cur.height p.height)
      []

/-! ### Characterisation of `buildObjectPositionMap` -/

theorem cellBit_lt {stride : Nat} {objects : List Nat} {posIndex o : Nat}
    (h : cellBit stride objects posIndex o = true) : o < stride * 32 := by
  have h1 : o / 32 < stride := by
    have h2 := (Bool.and_eq_true _ _).mp h
    exact of_decide_eq_true h2.1
  omega

theorem innerFold_apply (stride : Nat) (objects : List Nat) (posIndex : Nat)
    (l : List Nat) (hl : l.Nodup) (m : Nat → List Nat) (o : Nat) :
    (l.foldl
      (fun m2 objectIndex =>
        if cellBit stride objects posIndex objectIndex then
          upd m2 objectIndex (m2 objectIndex ++ [posIndex])
        else m2) m) o
    = if o ∈ l ∧ cellBit stride objects posIndex o then m o ++ [posIndex] else m o := by
  induction l generalizing m with
  | nil => simp
  | cons a l ih =>
    have hal : a ∉ l := (List.nodup_cons.1 hl).1
    rw [List.foldl_cons, ih (List.nodup_cons.1 hl).2]
    by_cases hoa : o = a
    · subst hoa
      simp [hal]
      by_cases hb : cellBit stride objects posIndex o
      · simp [hb]
      · simp [hb]
    · by_cases hol : o ∈ l
      · by_cases hb : cellBit stride objects posIndex o
        · simp [hol, hb, hoa]
          by_cases hba : cellBit stride objects posIndex a <;> simp [hba, upd, hoa]
        · simp [hol, hb, hoa]
          by_cases hba : cellBit stride objects posIndex a <;> simp [hba, upd, hoa]
      · simp [hol, hoa]
        by_cases hba : cellBit stride objects posIndex a <;> simp [hba, upd, hoa]

theorem outerFold_apply (stride : Nat) (objects : List Nat)
    (l : List Nat) (m : Nat → List Nat) (o : Nat) :
    (l.foldl
      (fun m posIndex =>
        (List.range (stride * 32)).foldl
          (fun m2 objectIndex =>
            if cellBit stride objects posIndex objectIndex then
              upd m2 objectIndex (m2 objectIndex ++ [posIndex])
            else m2) m) m) o
    = m o ++ l.filter (fun p => cellBit stride objects p o) := by
  induction l generalizing m with
  | nil => simp
  | cons p l ih =>
    rw [List.foldl_cons, ih]
    rw [innerFold_apply stride objects p _ (List.nodup_range _) m o]
    by_cases hb : cellBit stride objects p o
    · have hmem : o ∈ List.range (stride * 32) := List.mem_range.2 (cellBit_lt hb)
      simp [hb, hmem]
    · simp [hb]

/-- The position list of each object type is exactly the in-order filter of all
positions whose bitmask has that type's bit set. -/
theorem buildObjectPositionMap_eq_filter (stride : Nat) (objects : List Nat)
    (width height : Nat) (o : Nat) :
    buildObjectPositionMap stride objects width height o
    = (List.range (width * height)).filter (fun p => cellBit stride objects p o) := by
  unfold buildObjectPositionMap
  rw [outerFold_apply]
  simp

/-- C10: for every objects array and dimensions, the per-type position list built
by `buildObjectPositionMap` is strictly increasing in position index (hence
duplicate-free), and a type has a nonempty list exactly when some position in
range has its bit set (an object type appears as a key only then). -/
theorem buildObjectPositionMap_sorted_nonempty (stride : Nat) (objects : List Nat)
    (width height o : Nat) :
    (buildObjectPositionMap stride objects width height o).Sorted (· < ·) ∧
      (buildObjectPositionMap stride objects width height o ≠ [] ↔
        ∃ p, p < width * height ∧ cellBit stride objects p o = true) := by
  rw [buildObjectPositionMap_eq_filter]
  constructor
  · exact (List.pairwise_lt_range _).filter _
  · rw [Ne, List.filter_eq_nil_iff]
    push_neg
    constructor
    · rintro ⟨p, hp, hb⟩
      exact ⟨p, List.mem_range.1 hp, hb⟩
    · rintro ⟨p, hp, hb⟩
      exact ⟨p, List.mem_range.2 hp, hb⟩

/-- C9: if no previous snapshot has been captured, `detectMovements` returns the
empty movement list for every current level state. -/
theorem detectMovements_no_previous (stride : Nat) (cur : LevelState) :
    detectMovements stride none cur = [] := rfl

/-! ### Concrete instances for the testable properties -/

/-- Old snapshot of the chained-push scenario: one object type at cells
(2,2) and (3,2) of a 6×6 grid (`pos = y + x*height`: 14 and 20). -/
def chainOld : LevelState :=
  ⟨(List.range 36).map (fun p => if p = 14 || p = 20 then 1 else 0), 6, 6⟩

/-- New snapshot of the chained-push scenario: the same type at (3,2) and (4,2)
(positions 20 and 26). -/
def chainNew : LevelState :=
  ⟨(List.range 36).map (fun p => if p = 20 || p = 26 then 1 else 0), 6, 6⟩

set_option maxRecDepth 10000 in
/-- C3: on the chained push right by one (old `{(2,2),(3,2)}`, new
`{(3,2),(4,2)}`), the engine emits exactly the records `(2,2)→(3,2)` and
`(3,2)→(4,2)`, i.e. `14→20` and `20→26` with `pos = y + x*height`, `height = 6`. -/
theorem detectMovements_chained_push :
    detectMovements 1 (some chainOld) chainNew = [⟨0, 14, 20⟩, ⟨0, 20, 26⟩] := by decide

/-- Old snapshot of the conservation counterexample: a 1×10 column with one type
at cells 0, 1, 2. -/
def colOld : LevelState := ⟨[1, 1, 1, 0, 0, 0, 0, 0, 0, 0], 1, 10⟩

/-- New snapshot of the conservation counterexample: the column slid down two,
occupying cells 2, 3, 4. -/
def colNew : LevelState := ⟨[0, 0, 1, 1, 1, 0, 0, 0, 0, 0], 1, 10⟩

set_option maxRecDepth 10000 in
/-- C1 counterexample: on the column slide `{0,1,2} → {2,3,4}` the push walk
emits 4 movement records (two of them duplicates) although both the old and the
new position lists of the type have only 3 elements, so the emitted count
exceeds `min(|old|, |new|) = 3`. -/
theorem detectMovements_push_exceeds_min :
    (detectMovements 1 (some colOld) colNew).length = 4 ∧
      (buildObjectPositionMap 1 colOld.objects 1 10 0).length = 3 ∧
      (buildObjectPositionMap 1 colNew.objects 1 10 0).length = 3 := by decide

/-- Modelled from the spec: the true maximum bipartite matching size of an
adjacency-list graph, "as computable by exhaustive search" — each left row is
either skipped or matched to any not-yet-used right index, and the best total is
kept.  (The brute-force oracle itself is not part of the repository's code.) -/
def specMaxMatching : List (List Nat) → List Nat → Nat
  | [], _ => 0
  | row :: rest, used =>
    row.foldl
      (fun b j => if used.contains j then b else max b (1 + specMaxMatching rest (j :: used)))
      (specMaxMatching rest used)

set_option maxRecDepth 4000 in
/-- C2 counterexample: old positions `{0, 55}` and new position `{1}` on a 10×10
grid (old `(0,0)` is 4-adjacent to new `(0,1)`; old `(5,5)` is isolated).  The
Phase 0 pre-exclusion removes old node 0 — the only node with an edge — so the
matcher produces 0 matched pairs while the true maximum matching of the
stay/4-neighbour graph has size 1. -/
theorem matcher_count_ne_bruteforce :
    matcherMatchedCount [0, 55] [1] 10 10 10 = 0 ∧
      specMaxMatching (buildAdj [0, 55] [1] 10 10 10) [] = 1 := by decide

/-! ### Master specification of the augmenting-path search -/

/-- Injectivity of the right-to-left matching array. -/
def InjMN (mN : Nat → Option Nat) : Prop :=
  ∀ j1 j2 i, mN j1 = some i → mN j2 = some i → j1 = j2

/-- Everything a successful `tryAugment` call guarantees, relating the entry
state `st` to the exit state `st'` for root `r`. -/
structure AugSuccess (adj : List (List Nat)) (r : Nat) (st st' : AugState) : Prop where
  visMono : ∀ j, st.vis j = true → st'.vis j = true
  visEq : ∀ j, st.vis j = true → st'.mN j = st.mN j
  changedUnvis : ∀ j, st'.mN j ≠ st.mN j → st.vis j = false
  newSlot : ∃ jh, st.vis jh = false ∧ st.mN jh = none ∧
    ∀ j, (st'.mN j).isSome = ((st.mN j).isSome || decide (j = jh))
  changedEdge : ∀ j, st'.mN j ≠ st.mN j →
    ∃ i, st'.mN j = some i ∧ j ∈ adj.getD i [] ∧ (i = r ∨ ∃ j2, st.mN j2 = some i)
  leftSet : ∀ i, (∃ j, st'.mN j = some i) ↔ ((∃ j, st.mN j = some i) ∨ i = r)
  nearInj : ∀ i j1 j2, st'.mN j1 = some i → st'.mN j2 = some i → j1 ≠ j2 →
    i = r ∧ (st.vis j1 = true ∨ st.vis j2 = true)
  rootSlot : ∃ j, st'.mO r = some j ∧ st'.mN j = some r ∧ st.vis j = false
  mOother : ∀ i, i ≠ r →
    st'.mO i = st.mO i ∨ ∃ j2, st'.mO i = some j2 ∧ st'.mN j2 = some i ∧ st.vis j2 = false
  mOfrozen : ∀ i, i ≠ r → (∀ j2, st.mN j2 = some i → st.vis j2 = true) →
    st'.mO i = st.mO i ∧ ∀ j2, st.vis j2 = false → st'.mN j2 ≠ some i
  slotKeep : ∀ i j, st.mN j = some i →
    st'.mN j = some i ∨ ∃ j2, st'.mO i = some j2 ∧ st'.mN j2 = some i
  gainPaired : ∀ i j, st'.mN j = some i → st.mN j = some i ∨ st'.mO i = some j


/-- A successful leaf step: neighbour `j` was unvisited and unmatched, and the
root takes it. -/
theorem augSuccess_leaf (adj : List (List Nat)) (r j : Nat) (st : AugState)
    (hinj : InjMN st.mN) (hroot : ∀ j2, st.mN j2 = some r → st.vis j2 = true)
    (hedge : j ∈ adj.getD r []) (hv : st.vis j = false) (hmn : st.mN j = none) :
    AugSuccess adj r st ⟨upd st.vis j true, upd st.mN j (some r), upd st.mO r (some j)⟩ := by
  constructor
  · intro j2 h2
    by_cases hj : j2 = j <;> simp [upd, hj, h2]
  · intro j2 h2
    have hj : j2 ≠ j := fun he => by rw [he] at h2; rw [h2] at hv; cases hv
    simp [upd, hj]
  · intro j2 h2
    by_cases hj : j2 = j
    · rw [hj]; exact hv
    · simp [upd, hj] at h2
  · refine ⟨j, hv, hmn, fun j2 => ?_⟩
    by_cases hj : j2 = j <;> simp [upd, hj, hmn]
  · intro j2 h2
    by_cases hj : j2 = j
    · subst hj
      exact ⟨r, by simp [upd], hedge, Or.inl rfl⟩
    · simp [upd, hj] at h2
  · intro i
    constructor
    · rintro ⟨j2, h2⟩
      by_cases hj : j2 = j
      · subst hj; simp [upd] at h2; exact Or.inr h2.symm
      · simp [upd, hj] at h2; exact Or.inl ⟨j2, h2⟩
    · rintro (⟨j2, h2⟩ | rfl)
      · have hj : j2 ≠ j := fun he => by rw [he, hmn] at h2; cases h2
        exact ⟨j2, by simp [upd, hj, h2]⟩
      · exact ⟨j, by simp [upd]⟩
  · intro i j1 j2 h1 h2 hne
    by_cases hj1 : j1 = j
    · subst hj1
      simp [upd] at h1
      have hj2 : j2 ≠ j1 := fun he => hne he.symm
      simp [upd, hj2] at h2
      exact ⟨h1.symm ▸ rfl, Or.inr (hroot j2 (h1 ▸ h2))⟩
    · simp [upd, hj1] at h1
      by_cases hj2 : j2 = j
      · subst hj2
        simp [upd] at h2
        refine ⟨h2.symm ▸ rfl, Or.inl (hroot j1 (h2 ▸ h1))⟩
      · simp [upd, hj2] at h2
        exact absurd (hinj j1 j2 i h1 h2) hne
  · exact ⟨j, by simp [upd], by simp [upd], hv⟩
  · intro i hir
    left
    simp [upd, hir]
  · intro i hir hall
    refine ⟨by simp [upd, hir], fun j2 hv2 he => ?_⟩
    by_cases hj : j2 = j
    · subst hj
      simp [upd] at he
      exact hir he.symm
    · simp [upd, hj] at he
      have := hall j2 he
      rw [this] at hv2; cases hv2
  · intro i j2 h2
    left
    have hj : j2 ≠ j := fun he => by rw [he, hmn] at h2; cases h2
    simp [upd, hj, h2]
  · intro i j2 h2
    by_cases hj : j2 = j
    · subst hj
      simp [upd] at h2
      right
      simp [upd, ← h2]
    · simp [upd, hj] at h2
      exact Or.inl h2


/-- Transport an `AugSuccess` along a preceding failed search, which changed
only the visited set (monotonically). -/
theorem augSuccess_after_fail (adj : List (List Nat)) (r : Nat) (st stf st2 : AugState)
    (hmN : stf.mN = st.mN) (hmO : stf.mO = st.mO)
    (hvis : ∀ j, st.vis j = true → stf.vis j = true)
    (hroot : ∀ j2, st.mN j2 = some r → st.vis j2 = true)
    (hf : AugSuccess adj r stf st2) :
    AugSuccess adj r st st2 := by
  have hvisn : ∀ j, stf.vis j = false → st.vis j = false := by
    intro j h
    cases hs : st.vis j
    · rfl
    · rw [hvis j hs] at h; cases h
  constructor
  · intro j h; exact hf.visMono j (hvis j h)
  · intro j h; rw [hf.visEq j (hvis j h), hmN]
  · intro j h
    rw [← hmN] at h
    exact hvisn j (hf.changedUnvis j h)
  · obtain ⟨jh, h1, h2, h3⟩ := hf.newSlot
    exact ⟨jh, hvisn jh h1, hmN ▸ h2, fun j => by rw [h3 j, hmN]⟩
  · intro j h
    rw [← hmN] at h
    obtain ⟨i, h1, h2, h3⟩ := hf.changedEdge j h
    exact ⟨i, h1, h2, by rwa [hmN] at h3⟩
  · intro i
    rw [hf.leftSet i, hmN]
  · intro i j1 j2 h1 h2 hne
    obtain ⟨hir, hv12⟩ := hf.nearInj i j1 j2 h1 h2 hne
    subst hir
    refine ⟨rfl, ?_⟩
    rcases hv12 with hv1 | hv2
    · left
      have := hf.visEq j1 hv1
      rw [this, hmN] at h1
      exact hroot j1 h1
    · right
      have := hf.visEq j2 hv2
      rw [this, hmN] at h2
      exact hroot j2 h2
  · obtain ⟨j, h1, h2, h3⟩ := hf.rootSlot
    exact ⟨j, h1, h2, hvisn j h3⟩
  · intro i hir
    rcases hf.mOother i hir with h | ⟨j2, h1, h2, h3⟩
    · left; rw [h, hmO]
    · right; exact ⟨j2, h1, h2, hvisn j2 h3⟩
  · intro i hir hall
    have hallf : ∀ j2, stf.mN j2 = some i → stf.vis j2 = true := by
      intro j2 h2
      rw [hmN] at h2
      exact hvis j2 (hall j2 h2)
    obtain ⟨h1, h2⟩ := hf.mOfrozen i hir hallf
    refine ⟨by rw [h1, hmO], fun j2 hv2 => ?_⟩
    cases hvf : stf.vis j2
    · exact h2 j2 hvf
    · intro he
      rw [hf.visEq j2 hvf, hmN] at he
      rw [hall j2 he] at hv2; cases hv2
  · intro i j h
    rw [← hmN] at h
    exact hf.slotKeep i j h
  · intro i j h
    rcases hf.gainPaired i j h with h1 | h1
    · left; rwa [hmN] at h1
    · right; exact h1


/-- Compose a successful recursive search from the displaced occupant `cur` with
the final reassignment of neighbour `j` to the root `r`. -/
theorem augSuccess_dive (adj : List (List Nat)) (r j cur : Nat) (st res2 : AugState)
    (hinj : InjMN st.mN) (hroot : ∀ j2, st.mN j2 = some r → st.vis j2 = true)
    (hedge : j ∈ adj.getD r []) (hv : st.vis j = false) (hmn : st.mN j = some cur)
    (hdive : AugSuccess adj cur ⟨upd st.vis j true, st.mN, st.mO⟩ res2) :
    AugSuccess adj r st ⟨res2.vis, upd res2.mN j (some r), upd res2.mO r (some j)⟩ := by
  have hcurr : cur ≠ r := by
    intro he
    rw [he] at hmn
    rw [hroot j hmn] at hv; cases hv
  have hjvis1 : (upd st.vis j true) j = true := by simp [upd]
  have hres2j : res2.mN j = some cur := by
    have := hdive.visEq j hjvis1
    simpa [hmn] using this
  obtain ⟨jc, hjc1, hjc2, hjc3⟩ := hdive.rootSlot
  have hjcj : jc ≠ j := by
    intro he
    rw [he] at hjc3
    simp [upd] at hjc3
  have hjcst : st.vis jc = false := by
    have h4 := hjc3
    simpa [upd, hjcj] using h4
  have hvisn1 : ∀ j2, (upd st.vis j true) j2 = false → st.vis j2 = false ∧ j2 ≠ j := by
    intro j2 h2
    by_cases hj2 : j2 = j
    · rw [hj2] at h2; rw [hjvis1] at h2; cases h2
    · exact ⟨by simpa [upd, hj2] using h2, hj2⟩
  have hcurslots : ∀ j2, st.mN j2 = some cur → j2 = j := fun j2 h2 => hinj j2 j cur h2 hmn
  have hrootfrozen := hdive.mOfrozen r (fun he => hcurr he.symm)
    (fun j2 h2 => by
      by_cases hj2 : j2 = j
      · simp [upd, hj2]
      · simp [upd, hj2]; exact hroot j2 h2)
  constructor
  · intro j2 h2
    exact hdive.visMono j2 (by by_cases hj2 : j2 = j <;> simp [upd, hj2, h2])
  · intro j2 h2
    have hj2 : j2 ≠ j := fun he => by rw [he] at h2; rw [h2] at hv; cases hv
    have := hdive.visEq j2 (by simp [upd, hj2, h2])
    simpa [upd, hj2] using this
  · intro j2 h2
    by_cases hj2 : j2 = j
    · rw [hj2]; exact hv
    · simp [upd, hj2] at h2
      exact (hvisn1 j2 (hdive.changedUnvis j2 h2)).1
  · obtain ⟨jh, hh1, hh2, hh3⟩ := hdive.newSlot
    obtain ⟨hh1a, hh1b⟩ := hvisn1 jh hh1
    refine ⟨jh, hh1a, hh2, fun j2 => ?_⟩
    by_cases hj2 : j2 = j
    · subst hj2
      simp [upd, hmn]
    · simp only [upd, if_neg hj2]
      exact hh3 j2
  · intro j2 h2
    by_cases hj2 : j2 = j
    · subst hj2
      exact ⟨r, by simp [upd], hedge, Or.inl rfl⟩
    · simp [upd, hj2] at h2
      obtain ⟨i, hi1, hi2, hi3⟩ := hdive.changedEdge j2 h2
      refine ⟨i, by simp [upd, hj2, hi1], hi2, ?_⟩
      rcases hi3 with rfl | ⟨j3, hj3⟩
      · exact Or.inr ⟨j, hmn⟩
      · exact Or.inr ⟨j3, hj3⟩
  · intro i
    constructor
    · rintro ⟨j2, h2⟩
      by_cases hj2 : j2 = j
      · subst hj2
        simp [upd] at h2
        exact Or.inr h2.symm
      · simp [upd, hj2] at h2
        rcases (hdive.leftSet i).mp ⟨j2, h2⟩ with ⟨j3, hj3⟩ | rfl
        · exact Or.inl ⟨j3, hj3⟩
        · exact Or.inl ⟨j, hmn⟩
    · rintro (⟨j2, h2⟩ | rfl)
      · rcases (hdive.leftSet i).mpr (Or.inl ⟨j2, h2⟩) with ⟨j3, hj3⟩
        by_cases hj3j : j3 = j
        · rw [hj3j, hres2j] at hj3
          refine ⟨jc, ?_⟩
          simp [upd, hjcj]
          rw [hjc2, hj3]
        · exact ⟨j3, by simp [upd, hj3j, hj3]⟩
      · exact ⟨j, by simp [upd]⟩
  · intro i j1 j2 h1 h2 hne
    by_cases hj1 : j1 = j
    · subst hj1
      simp [upd] at h1
      subst h1
      have hj2 : j2 ≠ j1 := fun he => hne he.symm
      simp [upd, hj2] at h2
      by_cases hv2 : (upd st.vis j1 true) j2 = true
      · have := hdive.visEq j2 hv2
        rw [this] at h2
        refine ⟨rfl, Or.inr (hroot j2 h2)⟩
      · exact absurd h2 (hrootfrozen.2 j2 (by cases hvv : (upd st.vis j1 true) j2 <;> simp_all))
    · by_cases hj2 : j2 = j
      · subst hj2
        simp [upd] at h2
        subst h2
        simp [upd, hj1] at h1
        by_cases hv1 : (upd st.vis j2 true) j1 = true
        · have := hdive.visEq j1 hv1
          rw [this] at h1
          refine ⟨rfl, Or.inl (hroot j1 h1)⟩
        · exact absurd h1 (hrootfrozen.2 j1 (by cases hvv : (upd st.vis j2 true) j1 <;> simp_all))
      · simp [upd, hj1] at h1
        simp [upd, hj2] at h2
        obtain ⟨hicur, hd⟩ := hdive.nearInj i j1 j2 h1 h2 hne
        subst hicur
        exfalso
        rcases hd with hd | hd
        · have := hdive.visEq j1 hd
          rw [this] at h1
          exact hj1 (hcurslots j1 h1)
        · have := hdive.visEq j2 hd
          rw [this] at h2
          exact hj2 (hcurslots j2 h2)
  · exact ⟨j, by simp [upd], by simp [upd], hv⟩
  · intro i hir
    by_cases hicur : i = cur
    · subst hicur
      right
      exact ⟨jc, by simp [upd, hir, hjc1], by simp [upd, hjcj, hjc2], hjcst⟩
    · rcases hdive.mOother i hicur with h | ⟨j2, h1, h2, h3⟩
      · left; simpa [upd, hir] using h
      · right
        obtain ⟨h3a, h3b⟩ := hvisn1 j2 h3
        exact ⟨j2, by simp [upd, hir, h1], by simp [upd, h3b, h2], h3a⟩
  · intro i hir hall
    have hicur : i ≠ cur := by
      intro he
      rw [he] at hall
      rw [hall j hmn] at hv; cases hv
    obtain ⟨hf1, hf2⟩ := hdive.mOfrozen i hicur
      (fun j2 h2 => by
        by_cases hj2 : j2 = j
        · simp [upd, hj2]
        · simp [upd, hj2]; exact hall j2 h2)
    refine ⟨by simpa [upd, hir] using hf1, fun j2 hv2 => ?_⟩
    by_cases hj2 : j2 = j
    · subst hj2
      simp [upd]
      intro he
      exact hir he.symm
    · simp [upd, hj2]
      exact hf2 j2 (by simp [upd, hj2, hv2])
  · intro i j2 h2
    by_cases hj2 : j2 = j
    · rw [hj2, hmn] at h2
      injection h2 with h2
      subst h2
      right
      exact ⟨jc, by simp [upd, hcurr, hjc1], by simp [upd, hjcj, hjc2]⟩
    · rcases hdive.slotKeep i j2 h2 with h | ⟨j3, h3a, h3b⟩
      · left; simp [upd, hj2, h]
      · by_cases hir : i = r
        · subst hir
          right
          exact ⟨j, by simp [upd], by simp [upd]⟩
        · right
          have hj3j : j3 ≠ j := by
            intro he
            rw [he, hres2j] at h3b
            injection h3b with h3b
            subst h3b
            exact (hj2 (hcurslots j2 h2)).elim
          exact ⟨j3, by simp [upd, hir, h3a], by simp [upd, hj3j, h3b]⟩
  · intro i j2 h2
    by_cases hj2 : j2 = j
    · subst hj2
      simp [upd] at h2
      subst h2
      right
      simp [upd]
    · simp [upd, hj2] at h2
      rcases hdive.gainPaired i j2 h2 with h | h
      · exact Or.inl h
      · by_cases hir : i = r
        · subst hir
          by_cases hv2 : (upd st.vis j true) j2 = true
          · have := hdive.visEq j2 hv2
            rw [this] at h2
            exact Or.inl h2
          · exact absurd h2 (hrootfrozen.2 j2 (by cases hvv : (upd st.vis j true) j2 <;> simp_all))
        · right
          simp [upd, hir, h]

/-- Master specification of `tryAugment`: on failure the matching arrays are
untouched and the visited set only grows; on success `AugSuccess` holds. -/
theorem tryAugment_spec (adj : List (List Nat)) :
    ∀ (fuel : Nat) (neighbors : List Nat) (r : Nat) (st : AugState),
      InjMN st.mN →
      (∀ j, st.mN j = some r → st.vis j = true) →
      (∀ j, j ∈ neighbors → j ∈ adj.getD r []) →
      ((tryAugment adj fuel neighbors r st).1 = false →
        (tryAugment adj fuel neighbors r st).2.mN = st.mN ∧
        (tryAugment adj fuel neighbors r st).2.mO = st.mO ∧
        (∀ j, st.vis j = true → (tryAugment adj fuel neighbors r st).2.vis j = true)) ∧
      ((tryAugment adj fuel neighbors r st).1 = true →
        AugSuccess adj r st (tryAugment adj fuel neighbors r st).2) := by
  intro fuel
  induction fuel with
  | zero =>
    intro neighbors r st _ _ _
    exact ⟨fun _ => ⟨rfl, rfl, fun j h => h⟩, fun h => by simp [tryAugment] at h⟩
  | succ fuel ih =>
    intro neighbors r st hinj hroot hneigh
    match neighbors with
    | [] =>
      exact ⟨fun _ => ⟨rfl, rfl, fun j h => h⟩, fun h => by simp [tryAugment] at h⟩
    | j :: rest =>
      by_cases hv : st.vis j = true
      · -- skip already-visited neighbour
        have heq : tryAugment adj (fuel + 1) (j :: rest) r st = tryAugment adj fuel rest r st := by
          simp [tryAugment, hv]
        rw [heq]
        exact ih rest r st hinj hroot (fun j2 h2 => hneigh j2 (List.mem_cons_of_mem _ h2))
      · have hvf : st.vis j = false := by simpa using hv
        have hedge : j ∈ adj.getD r [] := hneigh j (List.mem_cons_self _ _)
        cases hmn : st.mN j with
        | none =>
          have heq : tryAugment adj (fuel + 1) (j :: rest) r st
              = (true, ⟨upd st.vis j true, upd st.mN j (some r), upd st.mO r (some j)⟩) := by
            simp [tryAugment, hvf, hmn]
          rw [heq]
          exact ⟨fun h => Bool.noConfusion h,
            fun _ => augSuccess_leaf adj r j st hinj hroot hedge hvf hmn⟩
        | some cur =>
          have hroot1 : ∀ j2, st.mN j2 = some cur → (upd st.vis j true) j2 = true := by
            intro j2 h2
            have : j2 = j := hinj j2 j cur h2 hmn
            simp [upd, this]
          have ihd := ih (adj.getD cur []) cur ⟨upd st.vis j true, st.mN, st.mO⟩ hinj hroot1
            (fun _ h => h)
          cases hres : (tryAugment adj fuel (adj.getD cur []) cur
              ⟨upd st.vis j true, st.mN, st.mO⟩).1 with
          | true =>
            have hres2 : (tryAugment adj fuel (adj[cur]?.getD []) cur
                ⟨upd st.vis j true, st.mN, st.mO⟩).1 = true := by simpa using hres
            have heq : tryAugment adj (fuel + 1) (j :: rest) r st
                = (true,
                  ⟨(tryAugment adj fuel (adj.getD cur []) cur ⟨upd st.vis j true, st.mN, st.mO⟩).2.vis,
                   upd (tryAugment adj fuel (adj.getD cur []) cur ⟨upd st.vis j true, st.mN, st.mO⟩).2.mN j (some r),
                   upd (tryAugment adj fuel (adj.getD cur []) cur ⟨upd st.vis j true, st.mN, st.mO⟩).2.mO r (some j)⟩) := by
              simp [tryAugment, hvf, hmn, hres2]
            rw [heq]
            refine ⟨fun h => Bool.noConfusion h, fun _ => ?_⟩
            exact augSuccess_dive adj r j cur st _ hinj hroot hedge hvf hmn (ihd.2 hres)
          | false =>
            have hres2 : (tryAugment adj fuel (adj[cur]?.getD []) cur
                ⟨upd st.vis j true, st.mN, st.mO⟩).1 = false := by simpa using hres
            have heq : tryAugment adj (fuel + 1) (j :: rest) r st
                = tryAugment adj fuel rest r
                  (tryAugment adj fuel (adj.getD cur []) cur ⟨upd st.vis j true, st.mN, st.mO⟩).2 := by
              simp [tryAugment, hvf, hmn, hres2]
            obtain ⟨hfN, hfO, hfV⟩ := ihd.1 hres
            have hvis2 : ∀ j2, st.vis j2 = true →
                (tryAugment adj fuel (adj.getD cur []) cur ⟨upd st.vis j true, st.mN, st.mO⟩).2.vis j2 = true := by
              intro j2 h2
              exact hfV j2 (by by_cases hj2 : j2 = j <;> simp [upd, hj2, h2])
            have hroot2 : ∀ j2,
                (tryAugment adj fuel (adj.getD cur []) cur ⟨upd st.vis j true, st.mN, st.mO⟩).2.mN j2 = some r →
                (tryAugment adj fuel (adj.getD cur []) cur ⟨upd st.vis j true, st.mN, st.mO⟩).2.vis j2 = true := by
              intro j2 h2
              rw [hfN] at h2
              exact hvis2 j2 (hroot j2 h2)
            have iht := ih rest r
              (tryAugment adj fuel (adj.getD cur []) cur ⟨upd st.vis j true, st.mN, st.mO⟩).2
              (by rw [hfN]; exact hinj) hroot2
              (fun j2 h2 => hneigh j2 (List.mem_cons_of_mem _ h2))
            rw [heq]
            constructor
            · intro hfail
              obtain ⟨h1, h2, h3⟩ := iht.1 hfail
              exact ⟨by rw [h1, hfN], by rw [h2, hfO], fun j2 hj2 => h3 j2 (hvis2 j2 hj2)⟩
            · intro hsucc
              exact augSuccess_after_fail adj r st _ _ hfN hfO hvis2 hroot (iht.2 hsucc)


/-- Number of not-yet-visited right-side indices. -/
def unvisCount (nNew : Nat) (vis : Nat → Bool) : Nat :=
  ((List.range nNew).filter (fun j => !vis j)).length

/-- All adjacency entries are valid right-side indices. -/
def AdjWF (adj : List (List Nat)) (nNew : Nat) : Prop :=
  ∀ row ∈ adj, ∀ j ∈ row, j < nNew

theorem countP_le_countP_of_imp {α : Type} {l : List α} {p q : α → Bool}
    (h : ∀ a ∈ l, p a = true → q a = true) : l.countP p ≤ l.countP q := by
  induction l with
  | nil => simp
  | cons a t ih =>
    have ht := ih (fun b hb => h b (List.mem_cons_of_mem _ hb))
    by_cases hpa : p a = true
    · rw [List.countP_cons_of_pos _ _ hpa, List.countP_cons_of_pos _ _ (h a (List.mem_cons_self _ _) hpa)]
      omega
    · rw [List.countP_cons_of_neg _ _ hpa]
      by_cases hqa : q a = true
      · rw [List.countP_cons_of_pos _ _ hqa]; omega
      · rw [List.countP_cons_of_neg _ _ hqa]; exact ht

theorem countP_lt_countP_of_flip {α : Type} [DecidableEq α] {l : List α} {p q : α → Bool}
    (h : ∀ a ∈ l, p a = true → q a = true) (j : α) (hj : j ∈ l)
    (hpj : p j = false) (hqj : q j = true) : l.countP p < l.countP q := by
  induction l with
  | nil => cases hj
  | cons a t ih =>
    have hmono := countP_le_countP_of_imp (fun b hb => h b (List.mem_cons_of_mem _ hb))
    by_cases haj : a = j
    · subst haj
      rw [List.countP_cons_of_neg _ _ (by simp [hpj]), List.countP_cons_of_pos _ _ hqj]
      omega
    · have hjt : j ∈ t := by
        rcases List.mem_cons.1 hj with h1 | h1
        · exact absurd h1.symm haj
        · exact h1
      have ht := ih (fun b hb => h b (List.mem_cons_of_mem _ hb)) hjt
      by_cases hpa : p a = true
      · rw [List.countP_cons_of_pos _ _ hpa, List.countP_cons_of_pos _ _ (h a (List.mem_cons_self _ _) hpa)]
        omega
      · rw [List.countP_cons_of_neg _ _ hpa]
        by_cases hqa : q a = true
        · rw [List.countP_cons_of_pos _ _ hqa]; omega
        · rw [List.countP_cons_of_neg _ _ hqa]; exact ht

theorem unvisCount_le_of_mono {nNew : Nat} {vis vis' : Nat → Bool}
    (h : ∀ j, vis j = true → vis' j = true) : unvisCount nNew vis' ≤ unvisCount nNew vis := by
  unfold unvisCount
  rw [← List.countP_eq_length_filter, ← List.countP_eq_length_filter]
  refine countP_le_countP_of_imp (fun a _ ha => ?_)
  cases hv : vis a
  · simp
  · rw [h a hv] at ha; cases ha

theorem unvisCount_lt_upd {nNew : Nat} {vis : Nat → Bool} {j : Nat}
    (hj : j < nNew) (hv : vis j = false) :
    unvisCount nNew (upd vis j true) < unvisCount nNew vis := by
  unfold unvisCount
  rw [← List.countP_eq_length_filter, ← List.countP_eq_length_filter]
  refine countP_lt_countP_of_flip (p := fun x => !(upd vis j true) x) (q := fun x => !vis x)
    (fun a _ ha => ?_) j (List.mem_range.2 hj) (by simp [upd]) (by simp [hv])
  by_cases haj : a = j
  · subst haj; simp [upd] at ha
  · simpa [upd, haj] using ha

theorem getD_length_le_maxAdjLen (adj : List (List Nat)) (cur : Nat) :
    (adj.getD cur []).length ≤ maxAdjLen adj := by
  induction adj generalizing cur with
  | nil => simp [List.getD]
  | cons row t ih =>
    match cur with
    | 0 => simp [List.getD, maxAdjLen]
    | cur + 1 =>
      have := ih cur
      simp only [maxAdjLen, List.foldr_cons] at *
      calc (t.getD cur []).length ≤ t.foldr (fun l m => max l.length m) 0 := this
      _ ≤ max row.length (t.foldr (fun l m => max l.length m) 0) := le_max_right _ _


/-- The visited set only ever grows during `tryAugment`. -/
theorem tryAugment_vis_mono (adj : List (List Nat)) :
    ∀ (fuel : Nat) (neighbors : List Nat) (r : Nat) (st : AugState) (j : Nat),
      st.vis j = true → (tryAugment adj fuel neighbors r st).2.vis j = true := by
  intro fuel
  induction fuel with
  | zero => intro neighbors r st j h; simpa [tryAugment] using h
  | succ fuel ih =>
    intro neighbors r st j h
    match neighbors with
    | [] => simpa [tryAugment] using h
    | j2 :: rest =>
      by_cases hv : st.vis j2 = true
      · have heq : tryAugment adj (fuel + 1) (j2 :: rest) r st = tryAugment adj fuel rest r st := by
          simp [tryAugment, hv]
        rw [heq]
        exact ih rest r st j h
      · have hvf : st.vis j2 = false := by simpa using hv
        have hup : (upd st.vis j2 true) j = true := by
          by_cases hjj : j = j2 <;> simp [upd, hjj, h]
        cases hmn : st.mN j2 with
        | none =>
          have heq : tryAugment adj (fuel + 1) (j2 :: rest) r st
              = (true, ⟨upd st.vis j2 true, upd st.mN j2 (some r), upd st.mO r (some j2)⟩) := by
            simp [tryAugment, hvf, hmn]
          rw [heq]
          exact hup
        | some cur =>
          have hd := ih (adj.getD cur []) cur ⟨upd st.vis j2 true, st.mN, st.mO⟩ j hup
          cases hres : (tryAugment adj fuel (adj.getD cur []) cur
              ⟨upd st.vis j2 true, st.mN, st.mO⟩).1 with
          | true =>
            have hres2 : (tryAugment adj fuel (adj[cur]?.getD []) cur
                ⟨upd st.vis j2 true, st.mN, st.mO⟩).1 = true := by simpa using hres
            have heq : tryAugment adj (fuel + 1) (j2 :: rest) r st
                = (true,
                  ⟨(tryAugment adj fuel (adj.getD cur []) cur ⟨upd st.vis j2 true, st.mN, st.mO⟩).2.vis,
                   upd (tryAugment adj fuel (adj.getD cur []) cur ⟨upd st.vis j2 true, st.mN, st.mO⟩).2.mN j2 (some r),
                   upd (tryAugment adj fuel (adj.getD cur []) cur ⟨upd st.vis j2 true, st.mN, st.mO⟩).2.mO r (some j2)⟩) := by
              simp [tryAugment, hvf, hmn, hres2]
            rw [heq]
            exact hd
          | false =>
            have hres2 : (tryAugment adj fuel (adj[cur]?.getD []) cur
                ⟨upd st.vis j2 true, st.mN, st.mO⟩).1 = false := by simpa using hres
            have heq : tryAugment adj (fuel + 1) (j2 :: rest) r st
                = tryAugment adj fuel rest r
                  (tryAugment adj fuel (adj.getD cur []) cur ⟨upd st.vis j2 true, st.mN, st.mO⟩).2 := by
              simp [tryAugment, hvf, hmn, hres2]
            rw [heq]
            exact ih rest r _ j hd


/-- A failed `tryAugment` never writes the matching arrays. -/
theorem tryAugment_fail_state (adj : List (List Nat)) :
    ∀ (fuel : Nat) (neighbors : List Nat) (r : Nat) (st : AugState),
      (tryAugment adj fuel neighbors r st).1 = false →
      (tryAugment adj fuel neighbors r st).2.mN = st.mN ∧
      (tryAugment adj fuel neighbors r st).2.mO = st.mO := by
  intro fuel
  induction fuel with
  | zero => intro neighbors r st _; simp [tryAugment]
  | succ fuel ih =>
    intro neighbors r st hfail
    match neighbors with
    | [] => simp [tryAugment]
    | j :: rest =>
      by_cases hv : st.vis j = true
      · have heq : tryAugment adj (fuel + 1) (j :: rest) r st = tryAugment adj fuel rest r st := by
          simp [tryAugment, hv]
        rw [heq] at hfail ⊢
        exact ih rest r st hfail
      · have hvf : st.vis j = false := by simpa using hv
        cases hmn : st.mN j with
        | none =>
          have heq : (tryAugment adj (fuel + 1) (j :: rest) r st).1 = true := by
            simp [tryAugment, hvf, hmn]
          rw [heq] at hfail; cases hfail
        | some cur =>
          cases hres : (tryAugment adj fuel (adj.getD cur []) cur
              ⟨upd st.vis j true, st.mN, st.mO⟩).1 with
          | true =>
            have hres2 : (tryAugment adj fuel (adj[cur]?.getD []) cur
                ⟨upd st.vis j true, st.mN, st.mO⟩).1 = true := by simpa using hres
            have heq : (tryAugment adj (fuel + 1) (j :: rest) r st).1 = true := by
              simp [tryAugment, hvf, hmn, hres2]
            rw [heq] at hfail; cases hfail
          | false =>
            have hres2 : (tryAugment adj fuel (adj[cur]?.getD []) cur
                ⟨upd st.vis j true, st.mN, st.mO⟩).1 = false := by simpa using hres
            have heq : tryAugment adj (fuel + 1) (j :: rest) r st
                = tryAugment adj fuel rest r
                  (tryAugment adj fuel (adj.getD cur []) cur ⟨upd st.vis j true, st.mN, st.mO⟩).2 := by
              simp [tryAugment, hvf, hmn, hres2]
            rw [heq] at hfail ⊢
            obtain ⟨hd1, hd2⟩ := ih (adj.getD cur []) cur ⟨upd st.vis j true, st.mN, st.mO⟩ hres
            obtain ⟨ht1, ht2⟩ := ih rest r _ hfail
            exact ⟨by rw [ht1, hd1], by rw [ht2, hd2]⟩

/-- With sufficient fuel, a failed `tryAugment` leaves every scanned neighbour
visited, and every newly visited right index is matched with its owner's whole
adjacency row visited: the visited set is an alternating-reachability closure
witnessing that no augmenting path exists. -/
theorem tryAugment_fail_closure (adj : List (List Nat)) (nNew : Nat) (hwf : AdjWF adj nNew) :
    ∀ (fuel : Nat) (neighbors : List Nat) (r : Nat) (st : AugState),
      (∀ j, j ∈ neighbors → j ∈ adj.getD r []) →
      neighbors.length + (unvisCount nNew st.vis) * (maxAdjLen adj + 2) < fuel →
      (tryAugment adj fuel neighbors r st).1 = false →
      (∀ j ∈ neighbors, (tryAugment adj fuel neighbors r st).2.vis j = true) ∧
      (∀ j, (tryAugment adj fuel neighbors r st).2.vis j = true → st.vis j = true ∨
        ∃ i, st.mN j = some i ∧
          ∀ j2 ∈ adj.getD i [], (tryAugment adj fuel neighbors r st).2.vis j2 = true) := by
  intro fuel
  induction fuel with
  | zero =>
    intro neighbors r st _ hfuel _
    omega
  | succ fuel ih =>
    intro neighbors r st hneigh hfuel hfail
    match neighbors with
    | [] =>
      refine ⟨fun j hj => absurd hj (List.not_mem_nil j), fun j hj => Or.inl ?_⟩
      simpa [tryAugment] using hj
    | j :: rest =>
      have hjnew : j < nNew := by
        have hj := hneigh j (List.mem_cons_self _ _)
        rcases Nat.lt_or_ge r adj.length with hr | hr
        · have : adj.getD r [] ∈ adj := by
            rw [List.getD_eq_getElem _ _ hr]
            exact List.getElem_mem _
          exact hwf _ this j hj
        · rw [List.getD_eq_default _ _ hr] at hj
          cases hj
      by_cases hv : st.vis j = true
      · -- skip
        have heq : tryAugment adj (fuel + 1) (j :: rest) r st = tryAugment adj fuel rest r st := by
          simp [tryAugment, hv]
        rw [heq] at hfail ⊢
        have hrec := ih rest r st (fun j2 h2 => hneigh j2 (List.mem_cons_of_mem _ h2))
          (by simp at hfuel ⊢; omega) hfail
        refine ⟨fun j2 hj2 => ?_, hrec.2⟩
        rcases List.mem_cons.1 hj2 with heq2 | h2
        · exact heq2 ▸ tryAugment_vis_mono adj fuel rest r st j hv
        · exact hrec.1 j2 h2
      · have hvf : st.vis j = false := by simpa using hv
        cases hmn : st.mN j with
        | none =>
          have heq : (tryAugment adj (fuel + 1) (j :: rest) r st).1 = true := by
            simp [tryAugment, hvf, hmn]
          rw [heq] at hfail; cases hfail
        | some cur =>
          cases hres : (tryAugment adj fuel (adj.getD cur []) cur
              ⟨upd st.vis j true, st.mN, st.mO⟩).1 with
          | true =>
            have hres2 : (tryAugment adj fuel (adj[cur]?.getD []) cur
                ⟨upd st.vis j true, st.mN, st.mO⟩).1 = true := by simpa using hres
            have heq : (tryAugment adj (fuel + 1) (j :: rest) r st).1 = true := by
              simp [tryAugment, hvf, hmn, hres2]
            rw [heq] at hfail; cases hfail
          | false =>
            have hres2 : (tryAugment adj fuel (adj[cur]?.getD []) cur
                ⟨upd st.vis j true, st.mN, st.mO⟩).1 = false := by simpa using hres
            have heq : tryAugment adj (fuel + 1) (j :: rest) r st
                = tryAugment adj fuel rest r
                  (tryAugment adj fuel (adj.getD cur []) cur ⟨upd st.vis j true, st.mN, st.mO⟩).2 := by
              simp [tryAugment, hvf, hmn, hres2]
            rw [heq] at hfail ⊢
            -- abbreviations
            have hulen := getD_length_le_maxAdjLen adj cur
            have huless := @unvisCount_lt_upd nNew st.vis _ hjnew hvf
            have hfdive : (adj.getD cur []).length +
                unvisCount nNew (upd st.vis j true) * (maxAdjLen adj + 2) < fuel := by
              simp only [List.length_cons] at hfuel
              have h1 : 1 ≤ unvisCount nNew st.vis := by omega
              nlinarith [huless, hulen, hfuel]
            have hdive := ih (adj.getD cur []) cur ⟨upd st.vis j true, st.mN, st.mO⟩
              (fun _ h => h) hfdive hres
            have hdmono : ∀ j2, (upd st.vis j true) j2 = true →
                (tryAugment adj fuel (adj.getD cur []) cur ⟨upd st.vis j true, st.mN, st.mO⟩).2.vis j2 = true :=
              fun j2 h2 => tryAugment_vis_mono adj fuel _ cur _ j2 h2
            have hdunvis : unvisCount nNew
                (tryAugment adj fuel (adj.getD cur []) cur ⟨upd st.vis j true, st.mN, st.mO⟩).2.vis
                ≤ unvisCount nNew (upd st.vis j true) := unvisCount_le_of_mono hdmono
            have hftail : rest.length +
                unvisCount nNew
                  (tryAugment adj fuel (adj.getD cur []) cur ⟨upd st.vis j true, st.mN, st.mO⟩).2.vis
                  * (maxAdjLen adj + 2) < fuel := by
              simp only [List.length_cons] at hfuel
              nlinarith [hdunvis, huless, hfuel]
            obtain ⟨hdN, hdO⟩ := tryAugment_fail_state adj fuel (adj.getD cur []) cur
              ⟨upd st.vis j true, st.mN, st.mO⟩ hres
            have htail := ih rest r _ (fun j2 h2 => hneigh j2 (List.mem_cons_of_mem _ h2)) hftail hfail
            have htmono : ∀ j2,
                (tryAugment adj fuel (adj.getD cur []) cur ⟨upd st.vis j true, st.mN, st.mO⟩).2.vis j2 = true →
                (tryAugment adj fuel rest r
                  (tryAugment adj fuel (adj.getD cur []) cur ⟨upd st.vis j true, st.mN, st.mO⟩).2).2.vis j2 = true :=
              fun j2 h2 => tryAugment_vis_mono adj fuel _ r _ j2 h2
            constructor
            · intro j2 hj2
              rcases List.mem_cons.1 hj2 with heq2 | h2
              · subst heq2
                exact htmono j2 (hdmono j2 (by simp [upd]))
              · exact htail.1 j2 h2
            · intro j2 hj2
              rcases htail.2 j2 hj2 with hin | ⟨i, hi1, hi2⟩
              · -- visited before the tail: analyse the dive closure
                rcases hdive.2 j2 hin with hin1 | ⟨i, hi1, hi2⟩
                · by_cases hjj : j2 = j
                  · subst hjj
                    refine Or.inr ⟨cur, hmn, fun j3 h3 => ?_⟩
                    exact htmono j3 (hdive.1 j3 h3)
                  · left
                    simpa [upd, hjj] using hin1
                · refine Or.inr ⟨i, hi1, fun j3 h3 => htmono j3 (hi2 j3 h3)⟩
              · rw [hdN] at hi1
                exact Or.inr ⟨i, hi1, hi2⟩


/-- Right-side vertices reachable from root `v` by an alternating path:
non-matching edges go left-to-right, matching edges right-to-left. -/
inductive ReachR (adj : List (List Nat)) (mN : Nat → Option Nat) (v : Nat) : Nat → Prop
  | base (j : Nat) : j ∈ adj.getD v [] → ReachR adj mN v j
  | step (j2 i j : Nat) : ReachR adj mN v j2 → mN j2 = some i → j ∈ adj.getD i [] →
      ReachR adj mN v j

/-- A failed top-level augmenting search (fresh visited array) witnesses that
every reachable right vertex is matched: no augmenting path from `r` exists. -/
theorem tryAugment_fail_noAugPath (adj : List (List Nat)) (nNew : Nat) (hwf : AdjWF adj nNew)
    (r : Nat) (mN mO : Nat → Option Nat) (fuel : Nat)
    (hfuel : (adj.getD r []).length + nNew * (maxAdjLen adj + 2) < fuel)
    (hfail : (tryAugment adj fuel (adj.getD r []) r ⟨fun _ => false, mN, mO⟩).1 = false) :
    ∀ j, ReachR adj mN r j → mN j ≠ none := by
  have hcnt : unvisCount nNew (fun _ => false) = nNew := by
    simp [unvisCount]
  have hcl := tryAugment_fail_closure adj nNew hwf fuel (adj.getD r []) r
    ⟨fun _ => false, mN, mO⟩ (fun _ h => h) (by rw [hcnt]; exact hfuel) hfail
  set stf := (tryAugment adj fuel (adj.getD r []) r ⟨fun _ => false, mN, mO⟩).2 with hstf
  -- every visited vertex is matched with its owner's row visited
  have hvismatch : ∀ j, stf.vis j = true →
      ∃ i, mN j = some i ∧ ∀ j2 ∈ adj.getD i [], stf.vis j2 = true := by
    intro j hj
    rcases hcl.2 j hj with h | h
    · cases h
    · exact h
  have hreach : ∀ j, ReachR adj mN r j → stf.vis j = true := by
    intro j hj
    induction hj with
    | base j hjr => exact hcl.1 j hjr
    | step j2 i j hr2 hown hedge ihr =>
      obtain ⟨i2, hi2, hrow⟩ := hvismatch j2 ihr
      rw [hown] at hi2
      injection hi2 with hi2
      subst hi2
      exact hrow j hedge
  intro j hj
  obtain ⟨i, hi, -⟩ := hvismatch j (hreach j hj)
  rw [hi]
  exact fun h => Option.noConfusion h

/-- One alternating step: the owner of right vertex `j` has an edge to `j2`. -/
def linkStep (adj : List (List Nat)) (mN : Nat → Option Nat) (j j2 : Nat) : Prop :=
  ∃ i, mN j = some i ∧ j2 ∈ adj.getD i []

/-- A duplicate-free alternating path from root `v`, recorded as the sequence of
right vertices it visits. -/
def IsAPath (adj : List (List Nat)) (mN : Nat → Option Nat) (v : Nat) : List Nat → Prop
  | [] => False
  | j :: rest => j ∈ adj.getD v [] ∧ List.Chain' (linkStep adj mN) (j :: rest) ∧
      (j :: rest).Nodup

theorem chain'_congr_on {α : Type} {R S : α → α → Prop} :
    ∀ {l : List α}, (∀ a ∈ l, ∀ b, R a b → S a b) → List.Chain' R l → List.Chain' S l := by
  intro l
  induction l with
  | nil => intro _ _; exact List.chain'_nil
  | cons a t ih =>
    intro h hc
    match t, hc with
    | [], _ => exact List.chain'_singleton a
    | b :: t2, hc =>
      rw [List.chain'_cons] at hc ⊢
      exact ⟨h a (List.mem_cons_self _ _) b hc.1,
        ih (fun x hx => h x (List.mem_cons_of_mem _ hx)) hc.2⟩

/-- Dropping the last vertex of an alternating path of length at least two
leaves an alternating path. -/
theorem apath_dropLast (adj : List (List Nat)) (mN : Nat → Option Nat) (v : Nat)
    (p : List Nat) (hp : IsAPath adj mN v p) (hlen : 2 ≤ p.length) :
    IsAPath adj mN v p.dropLast := by
  match p, hp, hlen with
  | j0 :: r :: t, hp, _ =>
    refine ⟨hp.1, ?_, ?_⟩
    · have hpre : (j0 :: r :: t).dropLast <+: (j0 :: r :: t) := List.dropLast_prefix _
      have := List.Chain'.prefix hp.2.1 hpre
      simpa using this
    · have hsub : List.Sublist ((j0 :: r :: t).dropLast) (j0 :: r :: t) := (List.dropLast_prefix _).sublist
      have := hp.2.2.sublist hsub
      simpa using this

/-- A member of an alternating path is the endpoint of one of its prefixes. -/
theorem apath_truncate (adj : List (List Nat)) (mN : Nat → Option Nat) (v : Nat) :
    ∀ (n : Nat) (p : List Nat), p.length ≤ n → IsAPath adj mN v p → ∀ j ∈ p,
      ∃ q, IsAPath adj mN v q ∧ q.getLast? = some j := by
  intro n
  induction n with
  | zero =>
    intro p hlen hp j hj
    match p, hp with
    | [], hp => cases hp
  | succ n ih =>
    intro p hlen hp j hj
    have hne : p ≠ [] := by
      intro he; rw [he] at hp; cases hp
    have hsplit : p.dropLast ++ [p.getLast hne] = p := List.dropLast_append_getLast hne
    rw [← hsplit] at hj
    rcases List.mem_append.1 hj with hjd | hjl
    · have hlen2 : 2 ≤ p.length := by
        rcases p with _ | ⟨a, _ | ⟨b, t⟩⟩
        · cases hp
        · cases hjd
        · simp
      have hd := apath_dropLast adj mN v p hp hlen2
      have : p.dropLast.length ≤ n := by
        rw [List.length_dropLast]
        omega
      exact ih p.dropLast this hd j hjd
    · simp at hjl
      subst hjl
      exact ⟨p, hp, List.getLast?_eq_getLast p hne ▸ rfl⟩

/-- Every reachable right vertex is the endpoint of a duplicate-free alternating
path. -/
theorem reach_to_path (adj : List (List Nat)) (mN : Nat → Option Nat) (v : Nat) :
    ∀ j, ReachR adj mN v j → ∃ p, IsAPath adj mN v p ∧ p.getLast? = some j := by
  intro j hj
  induction hj with
  | base j hjr =>
    exact ⟨[j], ⟨hjr, List.chain'_singleton j, List.nodup_singleton j⟩, rfl⟩
  | step j2 i j hr2 hown hedge ihr =>
    obtain ⟨p, hp, hlast⟩ := ihr
    by_cases hmem : j ∈ p
    · exact apath_truncate adj mN v p.length p le_rfl hp j hmem
    · refine ⟨p ++ [j], ?_, by simp⟩
      match p, hp with
      | j0 :: rest, hp =>
        refine ⟨hp.1, ?_, ?_⟩
        · have hc : List.Chain' (linkStep adj mN) ((j0 :: rest) ++ [j]) := by
            rw [List.chain'_append]
            refine ⟨hp.2.1, List.chain'_singleton j, fun x hx y hy => ?_⟩
            rw [hlast] at hx
            simp at hx hy
            subst hx; subst hy
            exact ⟨i, hown, hedge⟩
          simpa using hc
        · have hn : ((j0 :: rest) ++ [j]).Nodup := by
            rw [List.nodup_append]
            exact ⟨hp.2.2, List.nodup_singleton j, by simpa using hmem⟩
          simpa using hn

/-- Flip an alternating path: the root `w` takes the first right vertex, whose
owner takes the next one, and so on; the final (unmatched) vertex absorbs the
last displaced owner. -/
def flipPath : (Nat → Option Nat) → Nat → List Nat → Nat → Option Nat
  | mN, _, [] => mN
  | mN, w, [j] => upd mN j (some w)
  | mN, w, j :: j2 :: rest =>
    match mN j with
    | some i => flipPath (upd mN j (some w)) i (j2 :: rest)
    | none => upd mN j (some w)

/-- Specification of `flipPath`: flipping a duplicate-free alternating path that
ends in an unmatched vertex yields an injective, edge-respecting matching that
keeps every old owner matched and additionally matches the root. -/
theorem flipPath_spec (adj : List (List Nat)) :
    ∀ (p : List Nat) (mN : Nat → Option Nat) (w : Nat),
      List.Chain' (linkStep adj mN) p → p.Nodup →
      (∀ hne : p ≠ [], mN (p.getLast hne) = none) →
      (∀ j2, mN j2 ≠ some w) →
      InjMN mN →
      (∀ j2 i, mN j2 = some i → j2 ∈ adj.getD i []) →
      (∀ j0 ∈ p.head?, j0 ∈ adj.getD w []) →
      p ≠ [] →
      InjMN (flipPath mN w p) ∧
      (∀ j2 i, flipPath mN w p j2 = some i → j2 ∈ adj.getD i []) ∧
      (∀ i, (∃ j2, mN j2 = some i) → ∃ j2, flipPath mN w p j2 = some i) ∧
      (∃ j2, flipPath mN w p j2 = some w) := by
  intro p
  induction p with
  | nil => intro mN w _ _ _ _ _ _ _ hne; exact absurd rfl hne
  | cons j tail ih =>
    intro mN w hchain hnodup hlast hw hinj hvalid hhead _
    have hheadj : j ∈ adj.getD w [] := hhead j rfl
    match tail, hchain, hnodup with
    | [], _, _ =>
      have hjnone : mN j = none := hlast (by simp)
      refine ⟨?_, ?_, ?_, ⟨j, by simp [flipPath, upd]⟩⟩
      · intro j1 j2 i h1 h2
        by_cases hj1 : j1 = j <;> by_cases hj2 : j2 = j
        · rw [hj1, hj2]
        · simp [flipPath, upd, hj1] at h1
          simp [flipPath, upd, hj2] at h2
          exact absurd (h1 ▸ h2) (hw j2)
        · simp [flipPath, upd, hj1] at h1
          simp [flipPath, upd, hj2] at h2
          exact absurd (h2 ▸ h1) (hw j1)
        · simp [flipPath, upd, hj1] at h1
          simp [flipPath, upd, hj2] at h2
          exact hinj j1 j2 i h1 h2
      · intro j2 i h2
        by_cases hj2 : j2 = j
        · subst hj2
          simp [flipPath, upd] at h2
          rw [← h2]
          exact hheadj
        · simp [flipPath, upd, hj2] at h2
          exact hvalid j2 i h2
      · intro i ⟨j2, h2⟩
        have hj2 : j2 ≠ j := by
          intro he; rw [he, hjnone] at h2; cases h2
        exact ⟨j2, by simp [flipPath, upd, hj2, h2]⟩
    | j2 :: rest, hchain, hnodup =>
      obtain ⟨hlink, hchainT⟩ := List.chain'_cons.1 hchain
      obtain ⟨i, hji, hj2row⟩ := hlink
      have hiw : i ≠ w := by
        intro he; rw [he] at hji; exact hw j hji
      have hjnot : j ∉ j2 :: rest := (List.nodup_cons.1 hnodup).1
      have heq : flipPath mN w (j :: j2 :: rest)
          = flipPath (upd mN j (some w)) i (j2 :: rest) := by
        simp [flipPath, hji]
      rw [heq]
      have hch1 : List.Chain' (linkStep adj (upd mN j (some w))) (j2 :: rest) := by
        refine chain'_congr_on (fun a ha b hab => ?_) hchainT
        obtain ⟨ia, hia, hrb⟩ := hab
        have haj : a ≠ j := fun he => hjnot (he ▸ ha)
        exact ⟨ia, by simp [upd, haj, hia], hrb⟩
      have hnd1 : (j2 :: rest).Nodup := (List.nodup_cons.1 hnodup).2
      have hlast1 : ∀ hne : (j2 :: rest) ≠ [], (upd mN j (some w)) ((j2 :: rest).getLast hne) = none := by
        intro hne
        have hmem : (j2 :: rest).getLast hne ∈ j2 :: rest := List.getLast_mem hne
        have hlj : (j2 :: rest).getLast hne ≠ j := fun he => hjnot (he ▸ hmem)
        have hsame : (j :: j2 :: rest).getLast (by simp) = (j2 :: rest).getLast hne :=
          List.getLast_cons hne
        rw [upd_other _ _ _ _ hlj, ← hsame]
        exact hlast _
      have hw1 : ∀ j3, (upd mN j (some w)) j3 ≠ some i := by
        intro j3
        by_cases hj3 : j3 = j
        · subst hj3
          simp [upd]
          exact fun he => hiw he.symm
        · simp [upd, hj3]
          intro he
          exact hj3 (hinj j3 j i he hji)
      have hinj1 : InjMN (upd mN j (some w)) := by
        intro j3 j4 x h3 h4
        by_cases hj3 : j3 = j <;> by_cases hj4 : j4 = j
        · rw [hj3, hj4]
        · simp [upd, hj3] at h3
          simp [upd, hj4] at h4
          exact absurd (h3 ▸ h4) (hw j4)
        · simp [upd, hj3] at h3
          simp [upd, hj4] at h4
          exact absurd (h4 ▸ h3) (hw j3)
        · simp [upd, hj3] at h3
          simp [upd, hj4] at h4
          exact hinj j3 j4 x h3 h4
      have hvalid1 : ∀ j3 x, (upd mN j (some w)) j3 = some x → j3 ∈ adj.getD x [] := by
        intro j3 x h3
        by_cases hj3 : j3 = j
        · subst hj3
          simp [upd] at h3
          rw [← h3]
          exact hheadj
        · simp [upd, hj3] at h3
          exact hvalid j3 x h3
      have hhead1 : ∀ j0 ∈ (j2 :: rest).head?, j0 ∈ adj.getD i [] := by
        intro j0 h0
        simp at h0
        subst h0
        exact hj2row
      obtain ⟨c1, c2, c3, c4⟩ := ih (upd mN j (some w)) i hch1 hnd1 hlast1 hw1 hinj1 hvalid1
        hhead1 (by simp)
      refine ⟨c1, c2, ?_, ?_⟩
      · intro i0 ⟨j3, h3⟩
        by_cases hj3 : j3 = j
        · subst hj3
          rw [hji] at h3
          injection h3 with h3
          subst h3
          exact c4
        · exact c3 i0 ⟨j3, by simp [upd, hj3, h3]⟩
      · exact c3 w ⟨j, by simp [upd]⟩

/-- Reachable right vertices are valid indices. -/
theorem reach_lt_nNew (adj : List (List Nat)) (nNew : Nat) (hwf : AdjWF adj nNew)
    (mN : Nat → Option Nat) (v : Nat) :
    ∀ j, ReachR adj mN v j → j < nNew := by
  have hrow : ∀ i j, j ∈ adj.getD i [] → j < nNew := by
    intro i j hj
    rcases Nat.lt_or_ge i adj.length with hr | hr
    · have hmem : adj.getD i [] ∈ adj := by
        rw [List.getD_eq_getElem _ _ hr]
        exact List.getElem_mem _
      exact hwf _ hmem j hj
    · rw [List.getD_eq_default _ _ hr] at hj
      cases hj
  intro j hj
  induction hj with
  | base j hjr => exact hrow _ j hjr
  | step j2 i j _ _ hedge _ => exact hrow i j hedge

open Classical in
/-- König-style deficiency certificate: if no augmenting path from the unmatched
root `v` exists in `mN`, then no matching `m2` (on the same edges) can both keep
every owner of a reachable vertex matched and also match `v`. -/
theorem no_aug_cert (adj : List (List Nat)) (nNew : Nat) (hwf : AdjWF adj nNew)
    (mN : Nat → Option Nat) (v : Nat)
    (hinj : InjMN mN)
    (hvun : ∀ j, mN j ≠ some v)
    (hclosed : ∀ j, ReachR adj mN v j → mN j ≠ none)
    (m2 : Nat → Option Nat)
    (h2valid : ∀ j i, m2 j = some i → j ∈ adj.getD i [])
    (h2v : ∃ j, m2 j = some v)
    (h2keep : ∀ i, (∃ j, ReachR adj mN v j ∧ mN j = some i) → ∃ j, m2 j = some i) :
    False := by
  have hreachlt := reach_lt_nNew adj nNew hwf mN v
  set B : Finset Nat := (Finset.range nNew).filter (fun j => ReachR adj mN v j) with hBdef
  have hBmem : ∀ j, ReachR adj mN v j ↔ j ∈ B := by
    intro j
    rw [hBdef, Finset.mem_filter, Finset.mem_range]
    exact ⟨fun h => ⟨hreachlt j h, h⟩, fun h => h.2⟩
  set owners : Nat → Nat := fun j => (mN j).getD 0 with howndef
  have howners : ∀ j ∈ B, mN j = some (owners j) := by
    intro j hj
    have hr := (hBmem j).mpr hj
    have := hclosed j hr
    cases hm : mN j
    · exact absurd hm this
    · simp [howndef, hm]
  set S : Finset Nat := B.image owners with hSdef
  have hvS : v ∉ S := by
    rw [hSdef]
    intro hv
    obtain ⟨j, hj, hje⟩ := Finset.mem_image.1 hv
    exact hvun j (hje ▸ howners j hj)
  have hcardS : S.card = B.card := by
    rw [hSdef]
    refine Finset.card_image_of_injOn (fun j1 h1 j2 h2 he => ?_)
    exact hinj j1 j2 (owners j1) (howners j1 h1) (he ▸ howners j2 h2)
  set A : Finset Nat := insert v S with hAdef
  have hslot : ∀ i ∈ A, ∃ j, m2 j = some i := by
    intro i hi
    rw [hAdef, Finset.mem_insert] at hi
    rcases hi with rfl | hi
    · exact h2v
    · obtain ⟨j, hj, hje⟩ := Finset.mem_image.1 hi
      exact h2keep i ⟨j, (hBmem j).mpr hj, hje ▸ howners j hj⟩
  have hφ : ∀ i ∈ A, m2 ((fun i => if h : ∃ j, m2 j = some i then choose h else 0) i) = some i := by
    intro i hi
    obtain hs := hslot i hi
    simp only [dif_pos hs]
    exact choose_spec hs
  have hAB : A.card ≤ B.card := by
    refine Finset.card_le_card_of_injOn
      (fun i => if h : ∃ j, m2 j = some i then choose h else 0)
      (fun i hi => ?_) (fun i1 h1 i2 h2 he => ?_)
    · have h2i := hφ i hi
      have hedge := h2valid _ _ h2i
      rw [hAdef, Finset.mem_insert] at hi
      refine (hBmem _).mp ?_
      rcases hi with rfl | hi
      · exact ReachR.base _ hedge
      · obtain ⟨j, hj, hje⟩ := Finset.mem_image.1 hi
        exact ReachR.step j i _ ((hBmem j).mpr hj) (hje ▸ howners j hj) hedge
    · exact Option.some.inj ((hφ i1 h1).symm.trans (he ▸ hφ i2 h2))
  rw [hAdef] at hAB
  rw [Finset.card_insert_of_not_mem hvS, hcardS] at hAB
  omega

/-- Persistence of "no augmenting path": if the unmatched root `v` had no
augmenting path in `mN`, and `mN2` is an injective edge-respecting matching that
keeps every owner of `mN` matched and still leaves `v` unmatched, then `v` has
no augmenting path in `mN2` either. -/
theorem closed_persists (adj : List (List Nat)) (nNew : Nat) (hwf : AdjWF adj nNew)
    (mN mN2 : Nat → Option Nat) (v : Nat)
    (hinj : InjMN mN)
    (hvun : ∀ j, mN j ≠ some v)
    (hclosed : ∀ j, ReachR adj mN v j → mN j ≠ none)
    (hinj2 : InjMN mN2)
    (hvalid2 : ∀ j i, mN2 j = some i → j ∈ adj.getD i [])
    (hvun2 : ∀ j, mN2 j ≠ some v)
    (hkeep : ∀ i, (∃ j, mN j = some i) → ∃ j, mN2 j = some i) :
    ∀ j, ReachR adj mN2 v j → mN2 j ≠ none := by
  intro jstar hreach hnone
  obtain ⟨p, hp, hlast⟩ := reach_to_path adj mN2 v jstar hreach
  have hpne : p ≠ [] := by
    intro he; rw [he] at hp; cases hp
  have hlastv : ∀ hne : p ≠ [], mN2 (p.getLast hne) = none := by
    intro hne
    rw [List.getLast?_eq_getLast p hne] at hlast
    injection hlast with hlast
    rw [hlast]
    exact hnone
  have hhead : ∀ j0 ∈ p.head?, j0 ∈ adj.getD v [] := by
    intro j0 h0
    match p, hp with
    | j1 :: rest, hp =>
      simp at h0
      subst h0
      exact hp.1
  have hchain : List.Chain' (linkStep adj mN2) p := by
    match p, hp with
    | j1 :: rest, hp => exact hp.2.1
  have hnodup : p.Nodup := by
    match p, hp with
    | j1 :: rest, hp => exact hp.2.2
  obtain ⟨c1, c2, c3, c4⟩ := flipPath_spec adj p mN2 v hchain hnodup hlastv hvun2 hinj2
    hvalid2 hhead hpne
  exact no_aug_cert adj nNew hwf mN v hinj hvun hclosed (flipPath mN2 v p) c2 c4
    (fun i ⟨j, _, hji⟩ => c3 i (hkeep i ⟨j, hji⟩))

/-- The inverse-pairing invariant forces injectivity of `matchNew`. -/
theorem inverse_inj {mN mO : Nat → Option Nat}
    (hinv : ∀ i j, mO i = some j ↔ mN j = some i) : InjMN mN := by
  intro j1 j2 i h1 h2
  have e1 := (hinv i j1).mpr h1
  have e2 := (hinv i j2).mpr h2
  rw [e1] at e2
  exact Option.some.inj e2

/-- After a successful augmentation from an unmatched root, `matchNew` is again
injective. -/
theorem augSuccess_inj (adj : List (List Nat)) (r : Nat) (st st2 : AugState)
    (hnoslot : ∀ j, st.mN j ≠ some r)
    (hs : AugSuccess adj r st st2) : InjMN st2.mN := by
  intro j1 j2 i h1 h2
  by_contra hne
  obtain ⟨hir, hd⟩ := hs.nearInj i j1 j2 h1 h2 hne
  subst hir
  rcases hd with hv | hv
  · rw [hs.visEq j1 hv] at h1
    exact hnoslot j1 h1
  · rw [hs.visEq j2 hv] at h2
    exact hnoslot j2 h2

/-- After a successful augmentation from an unmatched root, the matching arrays
are again mutually inverse. -/
theorem augSuccess_inverse (adj : List (List Nat)) (r : Nat) (st st2 : AugState)
    (hinv : ∀ i j, st.mO i = some j ↔ st.mN j = some i)
    (hnoslot : ∀ j, st.mN j ≠ some r)
    (hs : AugSuccess adj r st st2) :
    ∀ i j, st2.mO i = some j ↔ st2.mN j = some i := by
  intro i j
  constructor
  · intro h
    by_cases hir : i = r
    · subst hir
      obtain ⟨js, hs1, hs2, -⟩ := hs.rootSlot
      rw [h] at hs1
      injection hs1 with hs1
      rw [← hs1] at hs2
      exact hs2
    · rcases hs.mOother i hir with he | ⟨j2, he1, he2, -⟩
      · have hO : st.mO i = some j := by rw [← he]; exact h
        have hN := (hinv i j).mp hO
        rcases hs.slotKeep i j hN with h2 | ⟨j3, hf1, hf2⟩
        · exact h2
        · have hjj : j3 = j := by
            rw [h] at hf1
            exact (Option.some.inj hf1).symm
          rw [← hjj]
          exact hf2
      · have hjj : j2 = j := by
          rw [h] at he1
          exact (Option.some.inj he1).symm
        rw [← hjj]
        exact he2
  · intro h
    rcases hs.gainPaired i j h with h2 | h2
    · have hir : i ≠ r := fun he => hnoslot j (he ▸ h2)
      have hO := (hinv i j).mpr h2
      rcases hs.mOother i hir with he | ⟨j2, he1, he2, -⟩
      · rw [he]; exact hO
      · by_cases hjj : j2 = j
        · rw [← hjj]; exact he1
        · exact absurd ((hs.nearInj i j2 j he2 h hjj).1) hir
    · exact h2

/-- One Phase 1 iteration: attempt an augmenting path from root `r` with a
fresh visited array, skipping excluded roots. -/
def p1step (adj : List (List Nat)) (excluded : List Bool) (fuel : Nat)
    (mp : MatchPair) (r : Nat) : MatchPair :=
  if excluded.getD r false then mp
  else
    let res := tryAugment adj fuel (adj.getD r []) r ⟨fun _ => false, mp.mN, mp.mO⟩
    ⟨res.2.mN, res.2.mO⟩

theorem phase1_eq_foldl (adj : List (List Nat)) (excluded : List Bool) (fuel nOld : Nat)
    (mp : MatchPair) :
    phase1 adj excluded fuel nOld mp = (List.range nOld).foldl (p1step adj excluded fuel) mp := rfl

/-- The invariant carried through Phase 1: matching arrays mutually inverse and
edge/exclusion-valid, and every root in the failed set `F` is unmatched with no
augmenting path. -/
structure P1Inv (adj : List (List Nat)) (excluded : List Bool) (mp : MatchPair)
    (F : Nat → Prop) : Prop where
  inverse : ∀ i j, mp.mO i = some j ↔ mp.mN j = some i
  valid : ∀ j i, mp.mN j = some i → j ∈ adj.getD i [] ∧ excluded.getD i false = false
  failUnmatched : ∀ v, F v → ∀ j, mp.mN j ≠ some v
  failClosed : ∀ v, F v → ∀ j, ReachR adj mp.mN v j → mp.mN j ≠ none

theorem augFuel_sufficient (adj : List (List Nat)) (nNew r : Nat) :
    (adj.getD r []).length + nNew * (maxAdjLen adj + 2) < augFuel adj nNew := by
  have := getD_length_le_maxAdjLen adj r
  unfold augFuel
  nlinarith [this]

/-- Processing a list of fresh distinct roots preserves the Phase 1 invariant;
every non-excluded processed root ends up matched or failed, matched left
vertices stay matched, and the failed set only grows. -/
theorem p1fold_inv (adj : List (List Nat)) (excluded : List Bool) (nNew fuel : Nat)
    (hwf : AdjWF adj nNew)
    (hfuel : ∀ r, (adj.getD r []).length + nNew * (maxAdjLen adj + 2) < fuel) :
    ∀ (roots : List Nat) (mp : MatchPair) (F : Nat → Prop),
      P1Inv adj excluded mp F →
      roots.Nodup →
      (∀ v, F v → v ∉ roots) →
      (∀ v ∈ roots, ∀ j, mp.mN j ≠ some v) →
      ∃ F2 : Nat → Prop,
        P1Inv adj excluded (roots.foldl (p1step adj excluded fuel) mp) F2 ∧
        (∀ v, F v → F2 v) ∧
        (∀ r ∈ roots, excluded.getD r false = false →
          (∃ j, (roots.foldl (p1step adj excluded fuel) mp).mN j = some r) ∨ F2 r) ∧
        (∀ i, (∃ j, mp.mN j = some i) →
          ∃ j, (roots.foldl (p1step adj excluded fuel) mp).mN j = some i) := by
  intro roots
  induction roots with
  | nil =>
    intro mp F hinv _ _ _
    exact ⟨F, hinv, fun v h => h, fun r hr => absurd hr (List.not_mem_nil r), fun i h => h⟩
  | cons r rest ih =>
    intro mp F hinv hnodup hFfresh hunm
    rw [List.foldl_cons]
    by_cases hexc : excluded.getD r false = true
    · -- excluded root: state unchanged
      have hexc2 : excluded[r]?.getD false = true := by simpa using hexc
      have hstep : p1step adj excluded fuel mp r = mp := by
        simp [p1step, hexc2]
      rw [hstep]
      obtain ⟨F2, h1, h2, h3, h4⟩ := ih mp F hinv (List.nodup_cons.1 hnodup).2
        (fun v hv hm => hFfresh v hv (List.mem_cons_of_mem _ hm))
        (fun v hv => hunm v (List.mem_cons_of_mem _ hv))
      refine ⟨F2, h1, h2, fun r2 hr2 hx2 => ?_, h4⟩
      rcases List.mem_cons.1 hr2 with heq | hm
      · rw [heq] at hx2
        rw [hx2] at hexc; cases hexc
      · exact h3 r2 hm hx2
    · have hexcf : excluded.getD r false = false := by simpa using hexc
      have hexc2 : excluded[r]?.getD false = false := by simpa using hexcf
      have hstep : p1step adj excluded fuel mp r
          = ⟨(tryAugment adj fuel (adj.getD r []) r ⟨fun _ => false, mp.mN, mp.mO⟩).2.mN,
             (tryAugment adj fuel (adj.getD r []) r ⟨fun _ => false, mp.mN, mp.mO⟩).2.mO⟩ := by
        simp [p1step, hexc2]
      have hinjN : InjMN mp.mN := inverse_inj hinv.inverse
      have hrslot : ∀ j, mp.mN j ≠ some r := hunm r (List.mem_cons_self _ _)
      cases hres : (tryAugment adj fuel (adj.getD r []) r ⟨fun _ => false, mp.mN, mp.mO⟩).1 with
      | false =>
        obtain ⟨hfN, hfO⟩ := tryAugment_fail_state adj fuel (adj.getD r []) r
          ⟨fun _ => false, mp.mN, mp.mO⟩ hres
        have hstep2 : p1step adj excluded fuel mp r = mp := by
          rw [hstep]
          cases mp
          simp only at hfN hfO ⊢
          rw [hfN, hfO]
        rw [hstep2]
        have hclosedr : ∀ j, ReachR adj mp.mN r j → mp.mN j ≠ none :=
          tryAugment_fail_noAugPath adj nNew hwf r mp.mN mp.mO fuel (hfuel r) hres
        have hinv2 : P1Inv adj excluded mp (fun v => F v ∨ v = r) := by
          refine ⟨hinv.inverse, hinv.valid, fun v hv j => ?_, fun v hv => ?_⟩
          · rcases hv with hv | rfl
            · exact hinv.failUnmatched v hv j
            · exact hrslot j
          · rcases hv with hv | rfl
            · exact hinv.failClosed v hv
            · exact hclosedr
        obtain ⟨F2, h1, h2, h3, h4⟩ := ih mp (fun v => F v ∨ v = r) hinv2
          (List.nodup_cons.1 hnodup).2
          (fun v hv hm => by
            rcases hv with hv | rfl
            · exact hFfresh v hv (List.mem_cons_of_mem _ hm)
            · exact (List.nodup_cons.1 hnodup).1 hm)
          (fun v hv => hunm v (List.mem_cons_of_mem _ hv))
        refine ⟨F2, h1, fun v hv => h2 v (Or.inl hv), fun r2 hr2 hx2 => ?_, h4⟩
        rcases List.mem_cons.1 hr2 with heq | hm
        · subst heq
          exact Or.inr (h2 r2 (Or.inr rfl))
        · exact h3 r2 hm hx2
      | true =>
        have hsucc := ((tryAugment_spec adj fuel (adj.getD r []) r
          ⟨fun _ => false, mp.mN, mp.mO⟩ hinjN (fun j hj => absurd hj (hrslot j))
          (fun _ h => h)).2) hres
        rw [hstep]
        set res2 := (tryAugment adj fuel (adj.getD r []) r ⟨fun _ => false, mp.mN, mp.mO⟩).2
          with hres2def
        have hinv2 : ∀ i j, res2.mO i = some j ↔ res2.mN j = some i :=
          augSuccess_inverse adj r ⟨fun _ => false, mp.mN, mp.mO⟩ res2 hinv.inverse hrslot hsucc
        have hvalid2 : ∀ j i, res2.mN j = some i →
            j ∈ adj.getD i [] ∧ excluded.getD i false = false := by
          intro j i h2
          by_cases hch : res2.mN j = mp.mN j
          · rw [hch] at h2
            exact hinv.valid j i h2
          · obtain ⟨i2, he1, he2, he3⟩ := hsucc.changedEdge j hch
            rw [h2] at he1
            injection he1 with he1
            subst he1
            refine ⟨he2, ?_⟩
            rcases he3 with rfl | ⟨j2, hj2⟩
            · exact hexcf
            · exact (hinv.valid j2 i hj2).2
        have hleftSet := hsucc.leftSet
        have hunm2 : ∀ v, v ≠ r → (∀ j, mp.mN j ≠ some v) → ∀ j, res2.mN j ≠ some v := by
          intro v hvr hvm j h2
          rcases (hleftSet v).mp ⟨j, h2⟩ with ⟨j2, hj2⟩ | heq
          · exact hvm j2 hj2
          · exact hvr heq
        have hkeep2 : ∀ i, (∃ j, mp.mN j = some i) → ∃ j, res2.mN j = some i :=
          fun i h => (hleftSet i).mpr (Or.inl h)
        have hinj2 : InjMN res2.mN :=
          augSuccess_inj adj r ⟨fun _ => false, mp.mN, mp.mO⟩ res2 hrslot hsucc
        have hpinv2 : P1Inv adj excluded ⟨res2.mN, res2.mO⟩ F := by
          refine ⟨hinv2, hvalid2, ?_, ?_⟩
          · intro v hv j
            have hvr : v ≠ r := by
              intro he
              exact hFfresh v hv (he ▸ List.mem_cons_self _ _)
            exact hunm2 v hvr (hinv.failUnmatched v hv) j
          · intro v hv
            have hvr : v ≠ r := by
              intro he
              exact hFfresh v hv (he ▸ List.mem_cons_self _ _)
            exact closed_persists adj nNew hwf mp.mN res2.mN v hinjN
              (hinv.failUnmatched v hv) (hinv.failClosed v hv) hinj2
              (fun j i h => (hvalid2 j i h).1)
              (hunm2 v hvr (hinv.failUnmatched v hv)) hkeep2
        obtain ⟨F2, h1, h2, h3, h4⟩ := ih ⟨res2.mN, res2.mO⟩ F hpinv2
          (List.nodup_cons.1 hnodup).2
          (fun v hv hm => hFfresh v hv (List.mem_cons_of_mem _ hm))
          (fun v hv j => by
            have hvr : v ≠ r := by
              intro he
              exact (List.nodup_cons.1 hnodup).1 (he ▸ hv)
            exact hunm2 v hvr (hunm v (List.mem_cons_of_mem _ hv)) j)
        refine ⟨F2, h1, h2, fun r2 hr2 hx2 => ?_, fun i hi => h4 i (hkeep2 i hi)⟩
        rcases List.mem_cons.1 hr2 with heq | hm
        · subst heq
          obtain ⟨js, -, hjs2, -⟩ := hsucc.rootSlot
          exact Or.inl (h4 r2 ⟨js, hjs2⟩)
        · exact h3 r2 hm hx2


/-- Number of matched pairs: right vertices holding a `some` entry. -/
def countMatched (nNew : Nat) (mN : Nat → Option Nat) : Nat :=
  ((List.range nNew).filter (fun j => (mN j).isSome)).length

/-- A matching of the per-type correspondence graph: every pair joins a
non-excluded old index to one of its adjacent new indices, and no index is used
twice on either side. -/
def IsGraphMatching (adj : List (List Nat)) (excluded : List Bool)
    (M : List (Nat × Nat)) : Prop :=
  (∀ pr ∈ M, pr.2 ∈ adj.getD pr.1 [] ∧ excluded.getD pr.1 false = false) ∧
  (M.map Prod.fst).Nodup ∧ (M.map Prod.snd).Nodup

open Classical in
/-- König-style counting: a matching in which no non-excluded unmatched left
vertex admits an augmenting path is at least as large as every matching of the
graph. -/
theorem cover_counting (adj : List (List Nat)) (excluded : List Bool) (nNew : Nat)
    (hwf : AdjWF adj nNew) (mN : Nat → Option Nat)
    (hvalid : ∀ j i, mN j = some i → j ∈ adj.getD i [] ∧ excluded.getD i false = false)
    (hNAP : ∀ v, excluded.getD v false = false → (∀ j, mN j ≠ some v) →
      ∀ j, ReachR adj mN v j → mN j ≠ none)
    (M : List (Nat × Nat)) (hM : IsGraphMatching adj excluded M) :
    M.length ≤ countMatched nNew mN := by
  obtain ⟨hMedge, hMfst, hMsnd⟩ := hM
  have hrow : ∀ i j, j ∈ adj.getD i [] → j < nNew := by
    intro i j hj
    rcases Nat.lt_or_ge i adj.length with hr | hr
    · have hmem : adj.getD i [] ∈ adj := by
        rw [List.getD_eq_getElem _ _ hr]
        exact List.getElem_mem _
      exact hwf _ hmem j hj
    · rw [List.getD_eq_default _ _ hr] at hj
      cases hj
  -- the left vertices reachable in the alternating forest of the final matching
  set ZL : Nat → Prop := fun i => excluded.getD i false = false ∧
    ((∀ j, mN j ≠ some i) ∨ ∃ t v, excluded.getD v false = false ∧ (∀ j2, mN j2 ≠ some v) ∧
      ReachR adj mN v t ∧ mN t = some i) with hZLdef
  have hZL_reach : ∀ i, ZL i → ∀ j, j ∈ adj.getD i [] →
      ∃ v, excluded.getD v false = false ∧ (∀ j2, mN j2 ≠ some v) ∧ ReachR adj mN v j := by
    intro i hi j hj
    rcases hi.2 with hun | ⟨t, v, hv1, hv2, hv3, hv4⟩
    · exact ⟨i, hi.1, hun, ReachR.base j hj⟩
    · exact ⟨v, hv1, hv2, ReachR.step t i j hv3 hv4 hj⟩
  have hMnodup : M.Nodup := hMfst.of_map
  have hcard : M.length = M.toFinset.card := (List.toFinset_card_of_nodup hMnodup).symm
  have hfsteq : ∀ pr1 ∈ M, ∀ pr2 ∈ M, pr1.1 = pr2.1 → pr1 = pr2 :=
    fun pr1 h1 pr2 h2 he => List.inj_on_of_nodup_map hMfst h1 h2 he
  have hsndeq : ∀ pr1 ∈ M, ∀ pr2 ∈ M, pr1.2 = pr2.2 → pr1 = pr2 :=
    fun pr1 h1 pr2 h2 he => List.inj_on_of_nodup_map hMsnd h1 h2 he
  set φ : Nat × Nat → Nat := fun pr =>
    if ZL pr.1 then pr.2
    else if h : ∃ j2, mN j2 = some pr.1 then choose h else 0
    with hφdef
  have hφ_matched : ∀ pr ∈ M, (mN (φ pr)).isSome = true ∧ φ pr < nNew ∧
      (¬ ZL pr.1 → mN (φ pr) = some pr.1) ∧ (ZL pr.1 → φ pr = pr.2) := by
    intro pr hpr
    obtain ⟨hedge, hallow⟩ := hMedge pr hpr
    by_cases hz : ZL pr.1
    · obtain ⟨v, hv1, hv2, hv3⟩ := hZL_reach pr.1 hz pr.2 hedge
      have hm := hNAP v hv1 hv2 pr.2 hv3
      have hφval : φ pr = pr.2 := by
        rw [hφdef]
        exact if_pos hz
      have h1 : (mN (φ pr)).isSome = true := by
        rw [hφval]
        cases hmm : mN pr.2
        · exact absurd hmm hm
        · rfl
      exact ⟨h1, by rw [hφval]; exact hrow _ _ hedge, fun hc => absurd hz hc, fun _ => hφval⟩
    · have hmat : ∃ j2, mN j2 = some pr.1 := by
        by_contra hcon
        push_neg at hcon
        exact hz ⟨hallow, Or.inl (fun j he => hcon j he)⟩
      have hφval : φ pr = choose hmat := by
        rw [hφdef]
        show (if ZL pr.1 then pr.2
          else if h : ∃ j2, mN j2 = some pr.1 then choose h else 0) = choose hmat
        rw [if_neg hz, dif_pos hmat]
      have hsp := choose_spec hmat
      have h3 : mN (φ pr) = some pr.1 := by rw [hφval]; exact hsp
      exact ⟨by rw [h3]; rfl, by rw [hφval]; exact hrow _ _ (hvalid _ _ hsp).1,
        fun _ => h3, fun hc => absurd hc hz⟩
  have hinjφ : ∀ pr1 ∈ M.toFinset, ∀ pr2 ∈ M.toFinset, φ pr1 = φ pr2 → pr1 = pr2 := by
    intro pr1 h1 pr2 h2 he
    rw [List.mem_toFinset] at h1 h2
    obtain ⟨hm1, -, hn1, hy1⟩ := hφ_matched pr1 h1
    obtain ⟨hm2, -, hn2, hy2⟩ := hφ_matched pr2 h2
    by_cases hz1 : ZL pr1.1 <;> by_cases hz2 : ZL pr2.1
    · exact hsndeq pr1 h1 pr2 h2 ((hy1 hz1) ▸ (hy2 hz2) ▸ he)
    · -- pr1 reach-side, pr2 slot-side: slot of pr2.1 equals reachable pr1.2
      exfalso
      obtain ⟨hedge1, -⟩ := hMedge pr1 h1
      obtain ⟨-, hallow2⟩ := hMedge pr2 h2
      obtain ⟨v, hv1, hv2, hv3⟩ := hZL_reach pr1.1 hz1 pr1.2 hedge1
      have hslot2 := hn2 hz2
      rw [← he, hy1 hz1] at hslot2
      exact hz2 ⟨hallow2, Or.inr ⟨pr1.2, v, hv1, hv2, hv3, hslot2⟩⟩
    · exfalso
      obtain ⟨hedge2, -⟩ := hMedge pr2 h2
      obtain ⟨-, hallow1⟩ := hMedge pr1 h1
      obtain ⟨v, hv1, hv2, hv3⟩ := hZL_reach pr2.1 hz2 pr2.2 hedge2
      have hslot1 := hn1 hz1
      rw [he, hy2 hz2] at hslot1
      exact hz1 ⟨hallow1, Or.inr ⟨pr2.2, v, hv1, hv2, hv3, hslot1⟩⟩
    · have hs1 := hn1 hz1
      have hs2 := hn2 hz2
      rw [he] at hs1
      rw [hs2] at hs1
      exact hfsteq pr1 h1 pr2 h2 (Option.some.inj hs1).symm
  have hmaps : ∀ pr ∈ M.toFinset,
      φ pr ∈ ((List.range nNew).filter (fun j => (mN j).isSome)).toFinset := by
    intro pr hpr
    rw [List.mem_toFinset] at hpr
    obtain ⟨hm, hlt, -, -⟩ := hφ_matched pr hpr
    rw [List.mem_toFinset, List.mem_filter, List.mem_range]
    exact ⟨hlt, hm⟩
  have hle := Finset.card_le_card_of_injOn φ hmaps hinjφ
  rw [hcard]
  refine le_trans hle (le_of_eq ?_)
  unfold countMatched
  exact List.toFinset_card_of_nodup ((List.nodup_range nNew).filter _)

theorem posToIdx_fold_chara (p : Nat) :
    ∀ (es : List (Nat × Nat)) (acc : Option Nat) (idx : Nat),
      es.foldl (fun acc pr => if pr.2 = p then some pr.1 else acc) acc = some idx →
      acc = some idx ∨ ∃ pr ∈ es, pr.1 = idx ∧ pr.2 = p := by
  intro es
  induction es with
  | nil => intro acc idx h; exact Or.inl h
  | cons e t ih =>
    intro acc idx h
    rw [List.foldl_cons] at h
    rcases ih _ idx h with hacc | ⟨pr, hm, h1, h2⟩
    · by_cases he : e.2 = p
      · rw [if_pos he] at hacc
        exact Or.inr ⟨e, List.mem_cons_self _ _, Option.some.inj hacc.symm ▸ rfl, he⟩
      · rw [if_neg he] at hacc
        exact Or.inl hacc
    · exact Or.inr ⟨pr, List.mem_cons_of_mem _ hm, h1, h2⟩

theorem posToIdx_lt {l : List Nat} {p idx : Nat} (h : posToIdx l p = some idx) :
    idx < l.length := by
  unfold posToIdx at h
  rcases posToIdx_fold_chara p l.enum none idx h with hacc | ⟨pr, hm, h1, h2⟩
  · cases hacc
  · have := List.mem_enum_iff_getElem?.1 hm
    have hlt := List.getElem?_eq_some.1 this
    rw [← h1]
    exact hlt.1

theorem foldl_bound {β : Type} (P : Nat → Prop) (f : List Nat → β → List Nat)
    (hf : ∀ acc d, (∀ x ∈ acc, P x) → ∀ x ∈ f acc d, P x) :
    ∀ (l : List β) (acc : List Nat), (∀ x ∈ acc, P x) → ∀ x ∈ l.foldl f acc, P x := by
  intro l
  induction l with
  | nil => intro acc h x hx; exact h x hx
  | cons d t ih =>
    intro acc h x hx
    rw [List.foldl_cons] at hx
    exact ih _ (hf acc d h) x hx

theorem adjOfOldPos_mem_lt (newPositions : List Nat) (width height prevHeight q : Nat) :
    ∀ x ∈ (adjOfOldPos newPositions width height prevHeight q).2, x < newPositions.length := by
  intro x hx
  unfold adjOfOldPos at hx
  simp only at hx
  rcases List.mem_append.1 hx with hx | hx
  · split at hx
    · split at hx
      next idx hpi =>
        rcases List.mem_singleton.1 hx with rfl
        exact posToIdx_lt hpi
      next => cases hx
    · cases hx
  · refine foldl_bound (fun y => y < newPositions.length) _ ?_ _ [] (fun y hy => absurd hy (List.not_mem_nil y)) x hx
    intro acc d hacc y hy
    simp only at hy
    split at hy
    · split at hy
      next idx hpi =>
        split at hy
        · rcases List.mem_append.1 hy with hy | hy
          · exact hacc y hy
          · rcases List.mem_singleton.1 hy with rfl
            exact posToIdx_lt hpi
        · exact hacc y hy
      next => exact hacc y hy
    · exact hacc y hy

theorem buildAdj_wf (oldPositions newPositions : List Nat) (width height prevHeight : Nat) :
    AdjWF (buildAdj oldPositions newPositions width height prevHeight)
      newPositions.length := by
  intro row hrow j hj
  unfold buildAdj at hrow
  obtain ⟨q, hq, hqe⟩ := List.mem_map.1 hrow
  rw [← hqe] at hj
  exact adjOfOldPos_mem_lt newPositions width height prevHeight q j hj

/-- The matching state at the end of Phase 1 for one object type. -/
def phase1State (oldPositions newPositions : List Nat)
    (width height prevHeight : Nat) : MatchPair :=
  let adj := buildAdj oldPositions newPositions width height prevHeight
  let adjStay := buildAdjStay oldPositions newPositions width height prevHeight
  phase1 adj (excludeMarks adjStay (oldPositions.length - newPositions.length))
    (augFuel adj newPositions.length) oldPositions.length ⟨fun _ => none, fun _ => none⟩

theorem reach_empty_row (adj : List (List Nat)) (mN : Nat → Option Nat) (v : Nat)
    (hrow : adj.getD v [] = []) : ∀ j, ¬ ReachR adj mN v j := by
  intro j hj
  induction hj with
  | base j hjr => rw [hrow] at hjr; cases hjr
  | step j2 i j hr2 hown hedge ihr => exact ihr

/-- The full Phase 1 invariant holds at the end of Phase 1, together with the
no-augmenting-path property for every non-excluded unmatched left node. -/
theorem phase1State_spec (oldPositions newPositions : List Nat)
    (width height prevHeight : Nat) :
    let adj := buildAdj oldPositions newPositions width height prevHeight
    let excluded := excludeMarks
      (buildAdjStay oldPositions newPositions width height prevHeight)
      (oldPositions.length - newPositions.length)
    let mp := phase1State oldPositions newPositions width height prevHeight
    (∀ i j, mp.mO i = some j ↔ mp.mN j = some i) ∧
    (∀ j i, mp.mN j = some i → j ∈ adj.getD i [] ∧ excluded.getD i false = false) ∧
    (∀ v, excluded.getD v false = false → (∀ j, mp.mN j ≠ some v) →
      ∀ j, ReachR adj mp.mN v j → mp.mN j ≠ none) := by
  intro adj excluded mp
  have hwf := buildAdj_wf oldPositions newPositions width height prevHeight
  have hlen : adj.length = oldPositions.length := by
    show (buildAdj oldPositions newPositions width height prevHeight).length = oldPositions.length
    unfold buildAdj
    rw [List.length_map]
  have hinv0 : P1Inv adj excluded ⟨fun _ => none, fun _ => none⟩ (fun _ => False) := by
    refine ⟨fun i j => ⟨fun h => Option.noConfusion h, fun h => Option.noConfusion h⟩,
      fun j i h => Option.noConfusion h, fun v hv => hv.elim, fun v hv => hv.elim⟩
  obtain ⟨F2, hP, -, hroots, -⟩ := p1fold_inv adj excluded newPositions.length
    (augFuel adj newPositions.length) hwf
    (fun r => augFuel_sufficient adj newPositions.length r)
    (List.range oldPositions.length) ⟨fun _ => none, fun _ => none⟩ (fun _ => False)
    hinv0 (List.nodup_range _) (fun v hv => hv.elim) (fun v _ j h => Option.noConfusion h)
  have hmp : mp = (List.range oldPositions.length).foldl
      (p1step adj excluded (augFuel adj newPositions.length)) ⟨fun _ => none, fun _ => none⟩ := by
    show phase1State oldPositions newPositions width height prevHeight = _
    unfold phase1State
    rw [phase1_eq_foldl]
  refine ⟨?_, ?_, ?_⟩
  · rw [hmp]; exact hP.inverse
  · rw [hmp]; exact hP.valid
  · intro v hallow hunm
    rcases Nat.lt_or_ge v oldPositions.length with hv | hv
    · rcases hroots v (List.mem_range.2 hv) hallow with ⟨j, hj⟩ | hF
      · rw [hmp] at hunm
        exact absurd hj (hunm j)
      · rw [hmp]
        exact hP.failClosed v hF
    · have hrow : adj.getD v [] = [] := by
        apply List.getD_eq_default
        omega
      intro j hj
      exact absurd hj (reach_empty_row adj _ v hrow j)

/-- C5: the matching produced by Phase 1 has maximum cardinality among all
matchings of the graph whose left nodes are the non-excluded old positions,
right nodes the new positions, and edges the stay and 4-neighbour edges: no
such matching connects more pairs. -/
theorem phase1_matching_maximum (oldPositions newPositions : List Nat)
    (width height prevHeight : Nat) (M : List (Nat × Nat))
    (hM : IsGraphMatching (buildAdj oldPositions newPositions width height prevHeight)
      (excludeMarks (buildAdjStay oldPositions newPositions width height prevHeight)
        (oldPositions.length - newPositions.length)) M) :
    M.length ≤ countMatched newPositions.length
      (phase1State oldPositions newPositions width height prevHeight).mN := by
  obtain ⟨hinv, hvalid, hNAP⟩ :=
    phase1State_spec oldPositions newPositions width height prevHeight
  exact cover_counting _ _ newPositions.length
    (buildAdj_wf oldPositions newPositions width height prevHeight) _ hvalid hNAP M hM

/-- Witness for C5 at a concrete instance: a 1×1 grid with the single cell
occupied before and after; the one-pair matching is not larger than Phase 1's. -/
theorem phase1_matching_maximum_witness :
    IsGraphMatching (buildAdj [0] [0] 1 1 1)
      (excludeMarks (buildAdjStay [0] [0] 1 1 1) (([0] : List Nat).length - ([0] : List Nat).length))
      [(0, 0)] ∧
    ([(0, 0)] : List (Nat × Nat)).length ≤ countMatched ([0] : List Nat).length
      (phase1State [0] [0] 1 1 1).mN := by
  constructor
  · refine ⟨?_, by decide, by decide⟩
    intro pr hpr
    rcases List.mem_singleton.1 hpr with rfl
    exact ⟨by decide, by decide⟩
  · exact phase1_matching_maximum [0] [0] 1 1 1 [(0, 0)]
      ⟨fun pr hpr => by rcases List.mem_singleton.1 hpr with rfl; exact ⟨by decide, by decide⟩,
       by decide, by decide⟩


theorem countP_congr_mem {α : Type} :
    ∀ (l : List α) (p q : α → Bool), (∀ x ∈ l, p x = q x) → l.countP p = l.countP q := by
  intro l
  induction l with
  | nil => intro p q h; rfl
  | cons a t ih =>
    intro p q h
    have ht := ih p q (fun x hx => h x (List.mem_cons_of_mem _ hx))
    have ha := h a (List.mem_cons_self _ _)
    by_cases hp : p a = true
    · rw [List.countP_cons_of_pos _ _ hp, List.countP_cons_of_pos _ _ (ha ▸ hp), ht]
    · have hq : ¬ q a = true := fun hq => hp (ha ▸ hq)
      rw [List.countP_cons_of_neg _ _ hp, List.countP_cons_of_neg _ _ hq, ht]

theorem countP_flip_one {α : Type} [DecidableEq α] :
    ∀ (l : List α), l.Nodup → ∀ j ∈ l, ∀ (p q : α → Bool),
      (∀ x ∈ l, x ≠ j → p x = q x) →
      l.countP q + (if p j then 1 else 0) = l.countP p + (if q j then 1 else 0) := by
  intro l
  induction l with
  | nil => intro _ j hj; cases hj
  | cons a t ih =>
    intro hnd j hj p q h
    rcases List.mem_cons.1 hj with rfl | hjt
    · have haj : ∀ x ∈ t, p x = q x := by
        intro x hx
        exact h x (List.mem_cons_of_mem _ hx) (fun he => (List.nodup_cons.1 hnd).1 (he ▸ hx))
      have ht := countP_congr_mem t p q haj
      by_cases hp : p j = true <;> by_cases hq : q j = true <;>
        simp [List.countP_cons, hp, hq, ht] <;> omega
    · have haj : a ≠ j := by
        intro he
        exact (List.nodup_cons.1 hnd).1 (he ▸ hjt)
      have hpa := h a (List.mem_cons_self _ _) haj
      have ht := ih (List.nodup_cons.1 hnd).2 j hjt p q
        (fun x hx hxj => h x (List.mem_cons_of_mem _ hx) hxj)
      by_cases hp : p a = true
      · rw [List.countP_cons_of_pos _ _ hp, List.countP_cons_of_pos _ _ (hpa ▸ hp)]
        omega
      · have hqa : ¬ q a = true := fun hqa => hp (hpa ▸ hqa)
        rw [List.countP_cons_of_neg _ _ hp, List.countP_cons_of_neg _ _ hqa]
        omega

/-- Change of `countMatched` under one slot update. -/
theorem countMatched_upd (nNew : Nat) (mN : Nat → Option Nat) (j : Nat) (v : Option Nat)
    (hj : j < nNew) :
    countMatched nNew (upd mN j v) + (if (mN j).isSome then 1 else 0)
      = countMatched nNew mN + (if v.isSome then 1 else 0) := by
  unfold countMatched
  rw [← List.countP_eq_length_filter, ← List.countP_eq_length_filter]
  have := countP_flip_one (List.range nNew) (List.nodup_range _) j (List.mem_range.2 hj)
    (fun x => (mN x).isSome) (fun x => ((upd mN j v) x).isSome)
    (fun x _ hxj => by simp [upd, hxj])
  have hupj : ((upd mN j v) j).isSome = v.isSome := by simp [upd]
  by_cases h1 : (mN j).isSome = true <;> by_cases h2 : v.isSome = true <;>
    simp [h1, h2, hupj] at this ⊢ <;> omega

/-- Change of `countStayEdges` under one `matchOld` update. -/
theorem countStayEdges_upd (adjStay : List (List Nat)) (nOld : Nat)
    (mO : Nat → Option Nat) (l : Nat) (v : Option Nat) (hl : l < nOld) :
    countStayEdges adjStay nOld (upd mO l v)
        + (if adjStay.getD l [] ≠ [] ∧ mO l = (adjStay.getD l []).head? then 1 else 0)
      = countStayEdges adjStay nOld mO
        + (if adjStay.getD l [] ≠ [] ∧ v = (adjStay.getD l []).head? then 1 else 0) := by
  unfold countStayEdges
  have := countP_flip_one (List.range nOld) (List.nodup_range _) l (List.mem_range.2 hl)
    (fun i => decide (adjStay.getD i [] ≠ [] ∧ mO i = (adjStay.getD i []).head?))
    (fun i => decide (adjStay.getD i [] ≠ [] ∧ (upd mO l v) i = (adjStay.getD i []).head?))
    (fun x _ hxj => by simp [upd, hxj])
  simp only [upd_same] at this
  by_cases h1 : adjStay.getD l [] ≠ [] ∧ mO l = (adjStay.getD l []).head? <;>
    by_cases h2 : adjStay.getD l [] ≠ [] ∧ v = (adjStay.getD l []).head? <;>
      simp [h1, h2] at this ⊢ <;> omega

/-- `countStayEdges` only depends on `matchOld`. -/
theorem countStayEdges_congr (adjStay : List (List Nat)) (nOld : Nat)
    (mO mO2 : Nat → Option Nat) (h : ∀ i, i < nOld → mO i = mO2 i) :
    countStayEdges adjStay nOld mO = countStayEdges adjStay nOld mO2 := by
  unfold countStayEdges
  refine countP_congr_mem _ _ _ (fun x hx => ?_)
  rw [h x (List.mem_range.1 hx)]

/-- The matched pairs of a matching function, as a pair list. -/
def matchingPairs (nNew : Nat) (mN : Nat → Option Nat) : List (Nat × Nat) :=
  (List.range nNew).filterMap (fun j => (mN j).map (fun i => (i, j)))

theorem matchingPairs_length (nNew : Nat) (mN : Nat → Option Nat) :
    (matchingPairs nNew mN).length = countMatched nNew mN := by
  unfold matchingPairs countMatched
  induction nNew with
  | zero => rfl
  | succ n ih =>
    rw [List.range_succ, List.filterMap_append, List.filter_append,
      List.length_append, List.length_append, ih]
    cases h : mN n <;> simp [h]

theorem matchingPairs_mem (nNew : Nat) (mN : Nat → Option Nat) (pr : Nat × Nat) :
    pr ∈ matchingPairs nNew mN ↔ pr.2 < nNew ∧ mN pr.2 = some pr.1 := by
  unfold matchingPairs
  rw [List.mem_filterMap]
  constructor
  · rintro ⟨j, hj, hm⟩
    cases h : mN j with
    | none => rw [h] at hm; cases hm
    | some i =>
      rw [h] at hm
      injection hm with hm
      rw [← hm]
      exact ⟨List.mem_range.1 hj, h⟩
  · rintro ⟨hlt, hm⟩
    exact ⟨pr.2, List.mem_range.2 hlt, by rw [hm]; rfl⟩

theorem matchingPairs_nodup (nNew : Nat) (mN : Nat → Option Nat) :
    (matchingPairs nNew mN).Nodup := by
  unfold matchingPairs
  refine List.Nodup.filterMap ?_ (List.nodup_range nNew)
  intro j1 j2 pr h1 h2
  have e1 : pr.2 = j1 := by
    cases hm : mN j1 <;> rw [hm] at h1
    · cases h1
    · rcases h1 with ⟨⟩; rfl
  have e2 : pr.2 = j2 := by
    cases hm : mN j2 <;> rw [hm] at h2
    · cases h2
    · rcases h2 with ⟨⟩; rfl
  rw [← e1, ← e2]

/-- The algorithm's own matching is a matching of the graph. -/
theorem matchingPairs_isGraphMatching (adj : List (List Nat)) (excluded : List Bool)
    (nNew : Nat) (mN : Nat → Option Nat)
    (hvalid : ∀ j i, mN j = some i → j ∈ adj.getD i [] ∧ excluded.getD i false = false)
    (hinj : InjMN mN) :
    IsGraphMatching adj excluded (matchingPairs nNew mN) := by
  refine ⟨fun pr hpr => ?_, ?_, ?_⟩
  · obtain ⟨-, hm⟩ := (matchingPairs_mem nNew mN pr).1 hpr
    exact hvalid _ _ hm
  · refine List.Nodup.map_on ?_ (matchingPairs_nodup nNew mN)
    intro pr1 h1 pr2 h2 he
    obtain ⟨-, hm1⟩ := (matchingPairs_mem nNew mN pr1).1 h1
    obtain ⟨-, hm2⟩ := (matchingPairs_mem nNew mN pr2).1 h2
    have hj := hinj pr1.2 pr2.2 pr1.1 hm1 (he ▸ hm2)
    exact Prod.ext he hj
  · refine List.Nodup.map_on ?_ (matchingPairs_nodup nNew mN)
    intro pr1 h1 pr2 h2 he
    obtain ⟨-, hm1⟩ := (matchingPairs_mem nNew mN pr1).1 h1
    obtain ⟨-, hm2⟩ := (matchingPairs_mem nNew mN pr2).1 h2
    rw [he] at hm1
    rw [hm2] at hm1
    exact Prod.ext (Option.some.inj hm1).symm he

theorem adjWF_getD {adj : List (List Nat)} {nNew : Nat} (hwf : AdjWF adj nNew) :
    ∀ i j, j ∈ adj.getD i [] → j < nNew := by
  intro i j hj
  rcases Nat.lt_or_ge i adj.length with hr | hr
  · have hmem : adj.getD i [] ∈ adj := by
      rw [List.getD_eq_getElem _ _ hr]
      exact List.getElem_mem _
    exact hwf _ hmem j hj
  · rw [List.getD_eq_default _ _ hr] at hj
    cases hj

/-- Phase 0 only excludes rows with no stay edge. -/
theorem excludeMarks_spec :
    ∀ (rows : List (List Nat)) (k i : Nat),
      (excludeMarks rows k).getD i false = true → rows.getD i [] = [] := by
  intro rows
  induction rows with
  | nil => intro k i h; simp [excludeMarks] at h
  | cons row t ih =>
    intro k i h
    match k with
    | 0 =>
      match i with
      | 0 => simp [excludeMarks, List.getD] at h
      | i + 1 =>
        simp only [excludeMarks, List.getD_cons_succ] at h ⊢
        exact ih 0 i h
    | k + 1 =>
      by_cases hrow : row.isEmpty
      · match i with
        | 0 =>
          simp [List.getD_cons_zero] at hrow ⊢
          exact hrow
        | i + 1 =>
          simp only [excludeMarks, if_pos hrow, List.getD_cons_succ] at h ⊢
          exact ih k i h
      · match i with
        | 0 =>
          simp only [excludeMarks, if_neg hrow, List.getD_cons_zero] at h
          cases h
        | i + 1 =>
          simp only [excludeMarks, if_neg hrow, List.getD_cons_succ] at h ⊢
          exact ih (k + 1) i h

/-- Each stay row is a prefix of the corresponding full adjacency row. -/
theorem adjStay_sub_adj (oldPositions newPositions : List Nat)
    (width height prevHeight : Nat) (i : Nat) :
    ∀ x ∈ (buildAdjStay oldPositions newPositions width height prevHeight).getD i [],
      x ∈ (buildAdj oldPositions newPositions width height prevHeight).getD i [] := by
  intro x hx
  rcases Nat.lt_or_ge i oldPositions.length with hr | hr
  · have h1 : (buildAdjStay oldPositions newPositions width height prevHeight).getD i []
        = (adjOfOldPos newPositions width height prevHeight (oldPositions.getD i 0)).1 := by
      unfold buildAdjStay
      rw [List.getD_eq_getElem _ _ (by rw [List.length_map]; exact hr), List.getElem_map]
      rw [List.getD_eq_getElem _ _ hr]
    have h2 : (buildAdj oldPositions newPositions width height prevHeight).getD i []
        = (adjOfOldPos newPositions width height prevHeight (oldPositions.getD i 0)).2 := by
      unfold buildAdj
      rw [List.getD_eq_getElem _ _ (by rw [List.length_map]; exact hr), List.getElem_map]
      rw [List.getD_eq_getElem _ _ hr]
    rw [h1] at hx
    rw [h2]
    unfold adjOfOldPos
    simp only
    unfold adjOfOldPos at hx
    simp only at hx
    exact List.mem_append_left _ hx
  · rw [List.getD_eq_default _ _ (by unfold buildAdjStay; rw [List.length_map]; exact hr)] at hx
    cases hx

/-- Common consequences of a successful Phase 2 augmentation from the displaced
node `lp`, starting from a state whose arrays are mutually inverse and valid. -/
theorem augment_core (adj : List (List Nat)) (excluded : List Bool) (nNew fuel lp : Nat)
    (vis0 : Nat → Bool) (mN2 mO2 : Nat → Option Nat)
    (hwf : AdjWF adj nNew)
    (hlpallow : excluded.getD lp false = false)
    (hinv2 : ∀ i j, mO2 i = some j ↔ mN2 j = some i)
    (hlpnone : mO2 lp = none)
    (hvalid2 : ∀ j i, mN2 j = some i → j ∈ adj.getD i [] ∧ excluded.getD i false = false)
    (hres : (tryAugment adj fuel (adj.getD lp []) lp ⟨vis0, mN2, mO2⟩).1 = true) :
    (∀ i j, (tryAugment adj fuel (adj.getD lp []) lp ⟨vis0, mN2, mO2⟩).2.mO i = some j ↔
      (tryAugment adj fuel (adj.getD lp []) lp ⟨vis0, mN2, mO2⟩).2.mN j = some i) ∧
    (∀ j i, (tryAugment adj fuel (adj.getD lp []) lp ⟨vis0, mN2, mO2⟩).2.mN j = some i →
      j ∈ adj.getD i [] ∧ excluded.getD i false = false) ∧
    countMatched nNew (tryAugment adj fuel (adj.getD lp []) lp ⟨vis0, mN2, mO2⟩).2.mN
      = countMatched nNew mN2 + 1 := by
  have hnoslot : ∀ j, mN2 j ≠ some lp := by
    intro j hj
    have h2 := (hinv2 lp j).mpr hj
    rw [hlpnone] at h2
    cases h2
  have hinj2 : InjMN mN2 := inverse_inj hinv2
  have hsucc := ((tryAugment_spec adj fuel (adj.getD lp []) lp ⟨vis0, mN2, mO2⟩ hinj2
    (fun j hj => absurd hj (hnoslot j)) (fun _ h => h)).2) hres
  refine ⟨augSuccess_inverse adj lp ⟨vis0, mN2, mO2⟩ _ hinv2 hnoslot hsucc, ?_, ?_⟩
  · intro j i h
    by_cases hch : (tryAugment adj fuel (adj.getD lp []) lp ⟨vis0, mN2, mO2⟩).2.mN j = mN2 j
    · rw [hch] at h
      exact hvalid2 j i h
    · obtain ⟨i2, he1, he2, he3⟩ := hsucc.changedEdge j hch
      rw [h] at he1
      injection he1 with he1
      subst he1
      refine ⟨he2, ?_⟩
      rcases he3 with heq | ⟨j2, hj2⟩
      · rw [heq]; exact hlpallow
      · exact (hvalid2 j2 i hj2).2
  · obtain ⟨jh, -, hjh2, hjh3⟩ := hsucc.newSlot
    dsimp only at hjh2 hjh3
    have hchj : (tryAugment adj fuel (adj.getD lp []) lp ⟨vis0, mN2, mO2⟩).2.mN jh ≠ mN2 jh := by
      intro he
      have h2 := hjh3 jh
      rw [he, hjh2] at h2
      simp at h2
    obtain ⟨i2, -, he2, -⟩ := hsucc.changedEdge jh hchj
    have hjhlt : jh < nNew := adjWF_getD hwf i2 jh he2
    have hcgr : countMatched nNew (tryAugment adj fuel (adj.getD lp []) lp ⟨vis0, mN2, mO2⟩).2.mN
        = countMatched nNew (upd mN2 jh (some 0)) := by
      unfold countMatched
      rw [← List.countP_eq_length_filter, ← List.countP_eq_length_filter]
      refine countP_congr_mem _ _ _ (fun x _ => ?_)
      rw [hjh3 x]
      by_cases hxj : x = jh
      · simp [upd, hxj, hjh2]
      · simp [upd, hxj]
    have hupd := countMatched_upd nNew mN2 jh (some 0) hjhlt
    rw [hjh2] at hupd
    simp at hupd
    rw [hcgr, hupd]


/-- Specification of one Phase 2 scan-body execution: under the matcher
invariants, the step either leaves both matching arrays exactly unchanged, or
strictly increases the stay-edge count while preserving the number of matched
pairs; the inverse and validity invariants are preserved either way. -/
theorem phase2Body_spec (adj adjStay : List (List Nat)) (excluded : List Bool)
    (fuel nOld nNew : Nat)
    (hwf : AdjWF adj nNew)
    (hsub : ∀ i x, x ∈ adjStay.getD i [] → x ∈ adj.getD i [])
    (hexc : ∀ i, excluded.getD i false = true → adjStay.getD i [] = [])
    (st : P2State) (l : Nat) (hl : l < nOld)
    (hinv : ∀ i j, st.mO i = some j ↔ st.mN j = some i)
    (hvalid : ∀ j i, st.mN j = some i → j ∈ adj.getD i [] ∧ excluded.getD i false = false)
    (hmax : ∀ M, IsGraphMatching adj excluded M → M.length ≤ countMatched nNew st.mN) :
    ((phase2Body adj adjStay fuel nOld st l).mN = st.mN ∧
      (phase2Body adj adjStay fuel nOld st l).mO = st.mO) ∨
    (countStayEdges adjStay nOld st.mO
        < countStayEdges adjStay nOld (phase2Body adj adjStay fuel nOld st l).mO ∧
      countMatched nNew (phase2Body adj adjStay fuel nOld st l).mN
        = countMatched nNew st.mN ∧
      (∀ i j, (phase2Body adj adjStay fuel nOld st l).mO i = some j ↔
        (phase2Body adj adjStay fuel nOld st l).mN j = some i) ∧
      (∀ j i, (phase2Body adj adjStay fuel nOld st l).mN j = some i →
        j ∈ adj.getD i [] ∧ excluded.getD i false = false)) := by
  cases hhd : (adjStay.getD l []).head? with
  | none =>
    have hhd2 : (adjStay[l]?.getD []).head? = none := by simpa using hhd
    have heq : phase2Body adj adjStay fuel nOld st l = st := by
      simp [phase2Body, hhd2]
    rw [heq]
    exact Or.inl ⟨rfl, rfl⟩
  | some rStay =>
    have hhd2 : (adjStay[l]?.getD []).head? = some rStay := by simpa using hhd
    by_cases hol : st.mO l = some rStay
    · have heq : phase2Body adj adjStay fuel nOld st l = st := by
        simp [phase2Body, hhd2, hol]
      rw [heq]
      exact Or.inl ⟨rfl, rfl⟩
    · have hstayne : adjStay.getD l [] ≠ [] := by
        intro he
        rw [he] at hhd
        cases hhd
      have hrowl : rStay ∈ adj.getD l [] := by
        refine hsub l rStay ?_
        cases hrow2 : adjStay.getD l [] with
        | nil => rw [hrow2] at hhd; cases hhd
        | cons a t =>
          rw [hrow2] at hhd
          injection hhd with hhd
          rw [hhd]
          exact List.mem_cons_self _ _
      have hallow : excluded.getD l false = false := by
        cases hal : excluded.getD l false
        · rfl
        · exact absurd (hexc l hal) (fun he => hstayne he)
      have hrlt : rStay < nNew := adjWF_getD hwf l rStay hrowl
      have hheadeq : (adjStay.getD l []).head? = some rStay := hhd
      cases hlp : st.mN rStay with
      | none =>
        cases hrp : st.mO l with
        | none =>
          exfalso
          have hpairs := matchingPairs_isGraphMatching adj excluded nNew st.mN hvalid
            (inverse_inj hinv)
          have hlnm : ∀ j, st.mN j ≠ some l := by
            intro j hj
            have h2 := (hinv l j).mpr hj
            rw [hrp] at h2
            cases h2
          have hMbig : IsGraphMatching adj excluded
              ((l, rStay) :: matchingPairs nNew st.mN) := by
            obtain ⟨he, hf, hs⟩ := hpairs
            refine ⟨?_, ?_, ?_⟩
            · intro pr hpr
              rcases List.mem_cons.1 hpr with heq | hm
              · rw [heq]; exact ⟨hrowl, hallow⟩
              · exact he pr hm
            · rw [List.map_cons, List.nodup_cons]
              refine ⟨?_, hf⟩
              intro hmem
              obtain ⟨pr, hpr, hpre⟩ := List.mem_map.1 hmem
              obtain ⟨-, hm⟩ := (matchingPairs_mem _ _ pr).1 hpr
              rw [hpre] at hm
              exact hlnm pr.2 hm
            · rw [List.map_cons, List.nodup_cons]
              refine ⟨?_, hs⟩
              intro hmem
              obtain ⟨pr, hpr, hpre⟩ := List.mem_map.1 hmem
              obtain ⟨-, hm⟩ := (matchingPairs_mem _ _ pr).1 hpr
              rw [hpre] at hm
              rw [hlp] at hm
              cases hm
          have hle := hmax _ hMbig
          rw [List.length_cons, matchingPairs_length] at hle
          omega
        | some rp =>
          have hmNrp : st.mN rp = some l := (hinv l rp).mp hrp
          have hrpne : rp ≠ rStay := by
            intro he
            rw [he, hlp] at hmNrp
            cases hmNrp
          have hrplt : rp < nNew := adjWF_getD hwf l rp (hvalid rp l hmNrp).1
          have heq : phase2Body adj adjStay fuel nOld st l
              = ⟨upd (upd st.mN rp none) rStay (some l), upd st.mO l (some rStay),
                 rStay :: st.locked, true⟩ := by
            have hlp2 : st.mN rStay = none := hlp
            have hrp2 : st.mO l = some rp := hrp
            simp [phase2Body, hhd2, hol, hlp2, hrp2, hrpne]
          have hc1 := countMatched_upd nNew st.mN rp none hrplt
          rw [hmNrp] at hc1
          have hrs1 : (upd st.mN rp none) rStay = none := by
            rw [upd_other _ _ _ _ hrpne.symm, hlp]
          have hc2 := countMatched_upd nNew (upd st.mN rp none) rStay (some l) hrlt
          rw [hrs1] at hc2
          have hstay := countStayEdges_upd adjStay nOld st.mO l (some rStay) hl
          rw [hheadeq] at hstay
          have hstayno : ¬ (adjStay.getD l [] ≠ [] ∧ st.mO l = some rStay) :=
            fun hc => hol hc.2
          have hstayyes : adjStay.getD l [] ≠ [] ∧ (some rStay : Option Nat) = some rStay :=
            ⟨hstayne, rfl⟩
          rw [if_neg (fun hc => hol hc.2)] at hstay
          rw [if_pos hstayyes] at hstay
          have hinv2 : ∀ i j, (upd st.mO l (some rStay)) i = some j ↔
              (upd (upd st.mN rp none) rStay (some l)) j = some i := by
            intro i j
            by_cases hil : i = l
            · subst hil
              rw [upd_same]
              constructor
              · intro h
                injection h with h
                subst h
                rw [upd_same]
              · intro h
                by_cases hjr : j = rStay
                · rw [hjr]
                · rw [upd_other _ _ _ _ hjr] at h
                  by_cases hjp : j = rp
                  · rw [hjp, upd_same] at h; cases h
                  · rw [upd_other _ _ _ _ hjp] at h
                    have h2 := (hinv i j).mpr h
                    rw [hrp] at h2
                    injection h2 with h2
                    exact absurd h2.symm hjp
            · rw [upd_other _ _ _ _ hil]
              constructor
              · intro h
                have hN := (hinv i j).mp h
                by_cases hjr : j = rStay
                · rw [hjr, hlp] at hN; cases hN
                · rw [upd_other _ _ _ _ hjr]
                  by_cases hjp : j = rp
                  · rw [hjp] at hN
                    rw [hmNrp] at hN
                    injection hN with hN
                    exact absurd hN.symm hil
                  · rw [upd_other _ _ _ _ hjp]
                    exact hN
              · intro h
                by_cases hjr : j = rStay
                · rw [hjr, upd_same] at h
                  injection h with h
                  exact absurd h.symm hil
                · rw [upd_other _ _ _ _ hjr] at h
                  by_cases hjp : j = rp
                  · rw [hjp, upd_same] at h; cases h
                  · rw [upd_other _ _ _ _ hjp] at h
                    exact (hinv i j).mpr h
          have hvalid2 : ∀ j i, (upd (upd st.mN rp none) rStay (some l)) j = some i →
              j ∈ adj.getD i [] ∧ excluded.getD i false = false := by
            intro j i h
            by_cases hjr : j = rStay
            · rw [hjr, upd_same] at h
              injection h with h
              rw [← h, hjr]
              exact ⟨hrowl, hallow⟩
            · rw [upd_other _ _ _ _ hjr] at h
              by_cases hjp : j = rp
              · rw [hjp, upd_same] at h; cases h
              · rw [upd_other _ _ _ _ hjp] at h
                exact hvalid j i h
          rw [heq]
          refine Or.inr ⟨?_, ?_, hinv2, hvalid2⟩
          · simp only
            omega
          · simp only
            omega
      | some lp =>
        have hlpne : lp ≠ l := by
          intro he
          rw [he] at hlp
          exact hol ((hinv l rStay).mpr hlp)
        have hlpallow := (hvalid rStay lp hlp).2
        cases hrp : st.mO l with
        | none =>
          have hinv2 : ∀ i j, (upd (upd st.mO l (some rStay)) lp none) i = some j ↔
              (upd st.mN rStay (some l)) j = some i := by
            intro i j
            by_cases hilp : i = lp
            · subst hilp
              rw [upd_same]
              constructor
              · intro h; cases h
              · intro h
                by_cases hjr : j = rStay
                · rw [hjr, upd_same] at h
                  injection h with h
                  exact absurd h.symm hlpne
                · rw [upd_other _ _ _ _ hjr] at h
                  have h2 := (hinv i j).mpr h
                  have h3 := (hinv i rStay).mpr hlp
                  rw [h2] at h3
                  injection h3 with h3
                  exact absurd h3 hjr
            · rw [upd_other _ _ _ _ hilp]
              by_cases hil : i = l
              · subst hil
                rw [upd_same]
                constructor
                · intro h
                  injection h with h
                  subst h
                  rw [upd_same]
                · intro h
                  by_cases hjr : j = rStay
                  · rw [hjr]
                  · rw [upd_other _ _ _ _ hjr] at h
                    have h2 := (hinv i j).mpr h
                    rw [hrp] at h2
                    cases h2
              · rw [upd_other _ _ _ _ hil]
                constructor
                · intro h
                  have hN := (hinv i j).mp h
                  by_cases hjr : j = rStay
                  · rw [hjr] at hN
                    rw [hlp] at hN
                    injection hN with hN
                    exact absurd hN.symm hilp
                  · rw [upd_other _ _ _ _ hjr]
                    exact hN
                · intro h
                  by_cases hjr : j = rStay
                  · rw [hjr, upd_same] at h
                    injection h with h
                    exact absurd h.symm hil
                  · rw [upd_other _ _ _ _ hjr] at h
                    exact (hinv i j).mpr h
          have hvalid2 : ∀ j i, (upd st.mN rStay (some l)) j = some i →
              j ∈ adj.getD i [] ∧ excluded.getD i false = false := by
            intro j i h
            by_cases hjr : j = rStay
            · rw [hjr, upd_same] at h
              injection h with h
              rw [← h, hjr]
              exact ⟨hrowl, hallow⟩
            · rw [upd_other _ _ _ _ hjr] at h
              exact hvalid j i h
          have hcnt2 : countMatched nNew (upd st.mN rStay (some l))
              = countMatched nNew st.mN := by
            have h2 := countMatched_upd nNew st.mN rStay (some l) hrlt
            rw [hlp] at h2
            simp at h2
            exact h2
          have heq : phase2Body adj adjStay fuel nOld st l
              = (if (tryAugment adj fuel (adj.getD lp []) lp
                    ⟨fun j => st.locked.contains j || j = rStay,
                     upd st.mN rStay (some l),
                     upd (upd st.mO l (some rStay)) lp none⟩).1 = true then
                  (if countStayEdges adjStay nOld st.mO < countStayEdges adjStay nOld
                      (tryAugment adj fuel (adj.getD lp []) lp
                        ⟨fun j => st.locked.contains j || j = rStay,
                         upd st.mN rStay (some l),
                         upd (upd st.mO l (some rStay)) lp none⟩).2.mO then
                    ⟨(tryAugment adj fuel (adj.getD lp []) lp
                        ⟨fun j => st.locked.contains j || j = rStay,
                         upd st.mN rStay (some l),
                         upd (upd st.mO l (some rStay)) lp none⟩).2.mN,
                     (tryAugment adj fuel (adj.getD lp []) lp
                        ⟨fun j => st.locked.contains j || j = rStay,
                         upd st.mN rStay (some l),
                         upd (upd st.mO l (some rStay)) lp none⟩).2.mO,
                     rStay :: st.locked, true⟩
                  else st)
                else st) := by
            simp [phase2Body, hhd2, hol, hlp, hrp]
          rw [heq]
          cases hres : (tryAugment adj fuel (adj.getD lp []) lp
              ⟨fun j => st.locked.contains j || j = rStay,
               upd st.mN rStay (some l),
               upd (upd st.mO l (some rStay)) lp none⟩).1 with
          | false =>
            rw [if_neg Bool.false_ne_true]
            exact Or.inl ⟨rfl, rfl⟩
          | true =>
            exfalso
            obtain ⟨hinvr, hvalidr, hcntr⟩ := augment_core adj excluded nNew fuel lp
              (fun j => st.locked.contains j || j = rStay)
              (upd st.mN rStay (some l)) (upd (upd st.mO l (some rStay)) lp none)
              hwf hlpallow hinv2 (upd_same _ _ _) hvalid2 hres
            have hpairs := matchingPairs_isGraphMatching adj excluded nNew _ hvalidr
              (inverse_inj hinvr)
            have hle := hmax _ hpairs
            rw [matchingPairs_length, hcntr, hcnt2] at hle
            omega
        | some rp =>
          have hmNrp : st.mN rp = some l := (hinv l rp).mp hrp
          have hrpne : rp ≠ rStay := by
            intro he
            rw [he] at hrp
            exact hol hrp
          have hrplt : rp < nNew := adjWF_getD hwf l rp (hvalid rp l hmNrp).1
          have hinv2 : ∀ i j, (upd (upd st.mO l (some rStay)) lp none) i = some j ↔
              (upd (upd st.mN rp none) rStay (some l)) j = some i := by
            intro i j
            by_cases hilp : i = lp
            · subst hilp
              rw [upd_same]
              constructor
              · intro h; cases h
              · intro h
                by_cases hjr : j = rStay
                · rw [hjr, upd_same] at h
                  injection h with h
                  exact absurd h.symm hlpne
                · rw [upd_other _ _ _ _ hjr] at h
                  by_cases hjrp : j = rp
                  · rw [hjrp, upd_same] at h
                    cases h
                  · rw [upd_other _ _ _ _ hjrp] at h
                    have h2 := (hinv i j).mpr h
                    have h3 := (hinv i rStay).mpr hlp
                    rw [h2] at h3
                    injection h3 with h3
                    exact absurd h3 hjr
            · rw [upd_other _ _ _ _ hilp]
              by_cases hil : i = l
              · subst hil
                rw [upd_same]
                constructor
                · intro h
                  injection h with h
                  subst h
                  rw [upd_same]
                · intro h
                  by_cases hjr : j = rStay
                  · rw [hjr]
                  · rw [upd_other _ _ _ _ hjr] at h
                    by_cases hjrp : j = rp
                    · rw [hjrp, upd_same] at h
                      cases h
                    · rw [upd_other _ _ _ _ hjrp] at h
                      have h2 := (hinv i j).mpr h
                      rw [hrp] at h2
                      injection h2 with h2
                      exact absurd h2.symm hjrp
              · rw [upd_other _ _ _ _ hil]
                constructor
                · intro h
                  have hN := (hinv i j).mp h
                  by_cases hjr : j = rStay
                  · rw [hjr] at hN
                    rw [hlp] at hN
                    injection hN with hN
                    exact absurd hN.symm hilp
                  · rw [upd_other _ _ _ _ hjr]
                    by_cases hjrp : j = rp
                    · rw [hjrp] at hN
                      rw [hmNrp] at hN
                      injection hN with hN
                      exact absurd hN.symm hil
                    · rw [upd_other _ _ _ _ hjrp]
                      exact hN
                · intro h
                  by_cases hjr : j = rStay
                  · rw [hjr, upd_same] at h
                    injection h with h
                    exact absurd h.symm hil
                  · rw [upd_other _ _ _ _ hjr] at h
                    by_cases hjrp : j = rp
                    · rw [hjrp, upd_same] at h
                      cases h
                    · rw [upd_other _ _ _ _ hjrp] at h
                      exact (hinv i j).mpr h
          have hvalid2 : ∀ j i, (upd (upd st.mN rp none) rStay (some l)) j = some i →
              j ∈ adj.getD i [] ∧ excluded.getD i false = false := by
            intro j i h
            by_cases hjr : j = rStay
            · rw [hjr, upd_same] at h
              injection h with h
              rw [← h, hjr]
              exact ⟨hrowl, hallow⟩
            · rw [upd_other _ _ _ _ hjr] at h
              by_cases hjrp : j = rp
              · rw [hjrp, upd_same] at h
                cases h
              · rw [upd_other _ _ _ _ hjrp] at h
                exact hvalid j i h
          have hupne : (upd st.mN rp none) rStay = some lp := by
            rw [upd_other _ _ _ _ (fun he => hrpne he.symm)]
            exact hlp
          have hc1 := countMatched_upd nNew st.mN rp none hrplt
          rw [hmNrp] at hc1
          simp at hc1
          have hc2 := countMatched_upd nNew (upd st.mN rp none) rStay (some l) hrlt
          rw [hupne] at hc2
          simp at hc2
          have heq : phase2Body adj adjStay fuel nOld st l
              = (if (tryAugment adj fuel (adj.getD lp []) lp
                    ⟨fun j => st.locked.contains j || j = rStay,
                     upd (upd st.mN rp none) rStay (some l),
                     upd (upd st.mO l (some rStay)) lp none⟩).1 = true then
                  (if countStayEdges adjStay nOld st.mO < countStayEdges adjStay nOld
                      (tryAugment adj fuel (adj.getD lp []) lp
                        ⟨fun j => st.locked.contains j || j = rStay,
                         upd (upd st.mN rp none) rStay (some l),
                         upd (upd st.mO l (some rStay)) lp none⟩).2.mO then
                    ⟨(tryAugment adj fuel (adj.getD lp []) lp
                        ⟨fun j => st.locked.contains j || j = rStay,
                         upd (upd st.mN rp none) rStay (some l),
                         upd (upd st.mO l (some rStay)) lp none⟩).2.mN,
                     (tryAugment adj fuel (adj.getD lp []) lp
                        ⟨fun j => st.locked.contains j || j = rStay,
                         upd (upd st.mN rp none) rStay (some l),
                         upd (upd st.mO l (some rStay)) lp none⟩).2.mO,
                     rStay :: st.locked, true⟩
                  else st)
                else st) := by
            simp [phase2Body, hhd2, hol, hlp, hrp, hrpne]
          rw [heq]
          cases hres : (tryAugment adj fuel (adj.getD lp []) lp
              ⟨fun j => st.locked.contains j || j = rStay,
               upd (upd st.mN rp none) rStay (some l),
               upd (upd st.mO l (some rStay)) lp none⟩).1 with
          | false =>
            rw [if_neg Bool.false_ne_true]
            exact Or.inl ⟨rfl, rfl⟩
          | true =>
            rw [if_pos rfl]
            obtain ⟨hinvr, hvalidr, hcntr⟩ := augment_core adj excluded nNew fuel lp
              (fun j => st.locked.contains j || j = rStay)
              (upd (upd st.mN rp none) rStay (some l))
              (upd (upd st.mO l (some rStay)) lp none)
              hwf hlpallow hinv2 (upd_same _ _ _) hvalid2 hres
            by_cases hguard : countStayEdges adjStay nOld st.mO < countStayEdges adjStay nOld
                (tryAugment adj fuel (adj.getD lp []) lp
                  ⟨fun j => st.locked.contains j || j = rStay,
                   upd (upd st.mN rp none) rStay (some l),
                   upd (upd st.mO l (some rStay)) lp none⟩).2.mO
            · rw [if_pos hguard]
              refine Or.inr ⟨hguard, ?_, hinvr, hvalidr⟩
              dsimp only
              omega
            · rw [if_neg hguard]
              exact Or.inl ⟨rfl, rfl⟩

/-- The invariant carried through Phase 2: the matching arrays are mutually
inverse, every matched edge is a real non-excluded edge, and the matching is
maximum among all matchings of the graph. -/
def P2Inv (adj : List (List Nat)) (excluded : List Bool) (nNew : Nat)
    (st : P2State) : Prop :=
  (∀ i j, st.mO i = some j ↔ st.mN j = some i) ∧
  (∀ j i, st.mN j = some i → j ∈ adj.getD i [] ∧ excluded.getD i false = false) ∧
  (∀ M, IsGraphMatching adj excluded M → M.length ≤ countMatched nNew st.mN)

theorem phase2Body_inv (adj adjStay : List (List Nat)) (excluded : List Bool)
    (fuel nOld nNew : Nat)
    (hwf : AdjWF adj nNew)
    (hsub : ∀ i x, x ∈ adjStay.getD i [] → x ∈ adj.getD i [])
    (hexc : ∀ i, excluded.getD i false = true → adjStay.getD i [] = [])
    (st : P2State) (l : Nat) (hl : l < nOld)
    (h : P2Inv adj excluded nNew st) :
    P2Inv adj excluded nNew (phase2Body adj adjStay fuel nOld st l) ∧
    countMatched nNew (phase2Body adj adjStay fuel nOld st l).mN
      = countMatched nNew st.mN ∧
    countStayEdges adjStay nOld st.mO
      ≤ countStayEdges adjStay nOld (phase2Body adj adjStay fuel nOld st l).mO := by
  obtain ⟨hinv, hvalid, hmax⟩ := h
  rcases phase2Body_spec adj adjStay excluded fuel nOld nNew hwf hsub hexc st l hl
      hinv hvalid hmax with ⟨hN, hO⟩ | ⟨hst, hcnt, hinv2, hvalid2⟩
  · refine ⟨⟨fun i j => ?_, fun j i hh => ?_, fun M hM => ?_⟩, ?_, ?_⟩
    · rw [hN, hO]; exact hinv i j
    · rw [hN] at hh; exact hvalid j i hh
    · rw [hN]; exact hmax M hM
    · rw [hN]
    · rw [hO]
  · refine ⟨⟨hinv2, hvalid2, ?_⟩, hcnt, Nat.le_of_lt hst⟩
    intro M hM
    rw [hcnt]
    exact hmax M hM

theorem phase2Fold_inv (adj adjStay : List (List Nat)) (excluded : List Bool)
    (fuel nOld nNew : Nat)
    (hwf : AdjWF adj nNew)
    (hsub : ∀ i x, x ∈ adjStay.getD i [] → x ∈ adj.getD i [])
    (hexc : ∀ i, excluded.getD i false = true → adjStay.getD i [] = []) :
    ∀ (ls : List Nat) (st : P2State), (∀ l ∈ ls, l < nOld) →
      P2Inv adj excluded nNew st →
      P2Inv adj excluded nNew (ls.foldl (phase2Body adj adjStay fuel nOld) st) ∧
      countMatched nNew (ls.foldl (phase2Body adj adjStay fuel nOld) st).mN
        = countMatched nNew st.mN ∧
      countStayEdges adjStay nOld st.mO
        ≤ countStayEdges adjStay nOld
            (ls.foldl (phase2Body adj adjStay fuel nOld) st).mO := by
  intro ls
  induction ls with
  | nil => intro st _ h; exact ⟨h, rfl, Nat.le_refl _⟩
  | cons a t ih =>
    intro st hls h
    obtain ⟨h1, hc1, hs1⟩ := phase2Body_inv adj adjStay excluded fuel nOld nNew
      hwf hsub hexc st a (hls a (List.mem_cons_self a t)) h
    obtain ⟨h2, hc2, hs2⟩ := ih (phase2Body adj adjStay fuel nOld st a)
      (fun l hl => hls l (List.mem_cons_of_mem a hl)) h1
    refine ⟨h2, ?_, ?_⟩
    · rw [List.foldl_cons, hc2, hc1]
    · rw [List.foldl_cons]
      exact Nat.le_trans hs1 hs2

theorem phase2Sweep_inv (adj adjStay : List (List Nat)) (excluded : List Bool)
    (fuel nOld nNew : Nat)
    (hwf : AdjWF adj nNew)
    (hsub : ∀ i x, x ∈ adjStay.getD i [] → x ∈ adj.getD i [])
    (hexc : ∀ i, excluded.getD i false = true → adjStay.getD i [] = [])
    (st : P2State) (h : P2Inv adj excluded nNew st) :
    P2Inv adj excluded nNew (phase2Sweep adj adjStay fuel nOld st) ∧
    countMatched nNew (phase2Sweep adj adjStay fuel nOld st).mN
      = countMatched nNew st.mN ∧
    countStayEdges adjStay nOld st.mO
      ≤ countStayEdges adjStay nOld (phase2Sweep adj adjStay fuel nOld st).mO := by
  have h0 : P2Inv adj excluded nNew { st with improved := false } := h
  exact phase2Fold_inv adj adjStay excluded fuel nOld nNew hwf hsub hexc
    (List.range nOld) { st with improved := false }
    (fun l hl => List.mem_range.1 hl) h0

theorem phase2Loop_inv (adj adjStay : List (List Nat)) (excluded : List Bool)
    (fuel nOld nNew : Nat)
    (hwf : AdjWF adj nNew)
    (hsub : ∀ i x, x ∈ adjStay.getD i [] → x ∈ adj.getD i [])
    (hexc : ∀ i, excluded.getD i false = true → adjStay.getD i [] = []) :
    ∀ (sweeps : Nat) (st : P2State), P2Inv adj excluded nNew st →
      P2Inv adj excluded nNew (phase2Loop adj adjStay fuel nOld sweeps st) ∧
      countMatched nNew (phase2Loop adj adjStay fuel nOld sweeps st).mN
        = countMatched nNew st.mN ∧
      countStayEdges adjStay nOld st.mO
        ≤ countStayEdges adjStay nOld
            (phase2Loop adj adjStay fuel nOld sweeps st).mO := by
  intro sweeps
  induction sweeps with
  | zero => intro st h; exact ⟨h, rfl, Nat.le_refl _⟩
  | succ sweeps ih =>
    intro st h
    obtain ⟨h1, hc1, hs1⟩ := phase2Sweep_inv adj adjStay excluded fuel nOld nNew
      hwf hsub hexc st h
    have heq : phase2Loop adj adjStay fuel nOld (sweeps + 1) st
        = (if (phase2Sweep adj adjStay fuel nOld st).improved then
            phase2Loop adj adjStay fuel nOld sweeps (phase2Sweep adj adjStay fuel nOld st)
          else phase2Sweep adj adjStay fuel nOld st) := rfl
    rw [heq]
    by_cases himp : (phase2Sweep adj adjStay fuel nOld st).improved = true
    · rw [if_pos himp]
      obtain ⟨h2, hc2, hs2⟩ := ih (phase2Sweep adj adjStay fuel nOld st) h1
      exact ⟨h2, by rw [hc2, hc1], Nat.le_trans hs1 hs2⟩
    · rw [if_neg himp]
      exact ⟨h1, hc1, hs1⟩

/-- The matching state of the full matcher pipeline: the final arrays are
mutually inverse and valid, Phase 2 preserves the Phase 1 match count exactly,
and never decreases the stay-pair count. -/
theorem matcherFinalState_spec (oldPositions newPositions : List Nat)
    (width height prevHeight : Nat) :
    let adj := buildAdj oldPositions newPositions width height prevHeight
    let adjStay := buildAdjStay oldPositions newPositions width height prevHeight
    let excluded := excludeMarks adjStay (oldPositions.length - newPositions.length)
    let mp := matcherFinalState oldPositions newPositions width height prevHeight
    let mp1 := phase1State oldPositions newPositions width height prevHeight
    (∀ i j, mp.mO i = some j ↔ mp.mN j = some i) ∧
    (∀ j i, mp.mN j = some i → j ∈ adj.getD i [] ∧ excluded.getD i false = false) ∧
    countMatched newPositions.length mp.mN
      = countMatched newPositions.length mp1.mN ∧
    countStayEdges adjStay oldPositions.length mp1.mO
      ≤ countStayEdges adjStay oldPositions.length mp.mO ∧
    (∀ M, IsGraphMatching adj excluded M →
      M.length ≤ countMatched newPositions.length mp.mN) := by
  intro adj adjStay excluded mp mp1
  obtain ⟨hinv1, hvalid1, hNAP1⟩ :=
    phase1State_spec oldPositions newPositions width height prevHeight
  have hwf := buildAdj_wf oldPositions newPositions width height prevHeight
  have hmax1 : ∀ M, IsGraphMatching adj excluded M →
      M.length ≤ countMatched newPositions.length mp1.mN :=
    fun M hM => cover_counting adj excluded newPositions.length hwf mp1.mN
      hvalid1 hNAP1 M hM
  have hsub : ∀ i x, x ∈ adjStay.getD i [] → x ∈ adj.getD i [] :=
    fun i => adjStay_sub_adj oldPositions newPositions width height prevHeight i
  have hexc : ∀ i, excluded.getD i false = true → adjStay.getD i [] = [] :=
    fun i h => excludeMarks_spec adjStay (oldPositions.length - newPositions.length) i h
  have hentry : P2Inv adj excluded newPositions.length
      ⟨mp1.mN, mp1.mO, [], false⟩ := ⟨hinv1, hvalid1, hmax1⟩
  obtain ⟨⟨hinvF, hvalidF, hmaxF⟩, hcF, hsF⟩ :=
    phase2Loop_inv adj adjStay excluded (augFuel adj newPositions.length)
      oldPositions.length newPositions.length hwf hsub hexc
      (oldPositions.length + 1) ⟨mp1.mN, mp1.mO, [], false⟩ hentry
  have hmp : mp = ⟨(phase2Loop adj adjStay (augFuel adj newPositions.length)
      oldPositions.length (oldPositions.length + 1) ⟨mp1.mN, mp1.mO, [], false⟩).mN,
      (phase2Loop adj adjStay (augFuel adj newPositions.length)
      oldPositions.length (oldPositions.length + 1) ⟨mp1.mN, mp1.mO, [], false⟩).mO⟩ := rfl
  rw [hmp]
  exact ⟨hinvF, hvalidF, hcF, hsF, fun M hM => Nat.le_trans (hmax1 M hM) (Nat.le_of_eq hcF.symm)⟩

/-- The matching state after the first `k` Phase 1 augmentation attempts
(attempt `r` processes old node `r`; the JS loop runs `k = nOld` of them). -/
def phase1Partial (adj : List (List Nat)) (excluded : List Bool) (fuel k : Nat) :
    MatchPair :=
  (List.range k).foldl (p1step adj excluded fuel) ⟨fun _ => none, fun _ => none⟩

/-- One completed Phase 2 step: either a full swap attempt on old node `l`
(kept or reverted, as `phase2Body` performs it), or the sweep-entry reset of
the `improved` flag. -/
inductive P2Step (adj adjStay : List (List Nat)) (fuel nOld : Nat) :
    P2State → P2State → Prop
  | body (st : P2State) (l : Nat) (hl : l < nOld) :
      P2Step adj adjStay fuel nOld st (phase2Body adj adjStay fuel nOld st l)
  | reset (st : P2State) :
      P2Step adj adjStay fuel nOld st { st with improved := false }

/-- All states the Phase 2 refinement can pass through, starting from its
entry state: the entry itself and everything one more completed step reaches.
Every intermediate state of `phase2Sweep` / `phase2Loop` is of this form. -/
inductive P2Reached (adj adjStay : List (List Nat)) (fuel nOld : Nat)
    (entry : P2State) : P2State → Prop
  | entry : P2Reached adj adjStay fuel nOld entry entry
  | step {st st2 : P2State} : P2Reached adj adjStay fuel nOld entry st →
      P2Step adj adjStay fuel nOld st st2 → P2Reached adj adjStay fuel nOld entry st2

theorem p2Reached_inv (adj adjStay : List (List Nat)) (excluded : List Bool)
    (fuel nOld nNew : Nat)
    (hwf : AdjWF adj nNew)
    (hsub : ∀ i x, x ∈ adjStay.getD i [] → x ∈ adj.getD i [])
    (hexc : ∀ i, excluded.getD i false = true → adjStay.getD i [] = [])
    (entry : P2State) (hent : P2Inv adj excluded nNew entry) :
    ∀ st, P2Reached adj adjStay fuel nOld entry st → P2Inv adj excluded nNew st := by
  intro st h
  induction h with
  | entry => exact hent
  | step hreach hstep ih =>
    cases hstep with
    | body l hl =>
      exact (phase2Body_inv adj adjStay excluded fuel nOld nNew hwf hsub hexc
        _ l hl ih).1
    | reset => exact ih

/-- The Phase 1 invariant (inverse matching arrays and edge-validity) holds
after every number `k` of completed augmentation attempts. -/
theorem phase1Partial_inv (adj : List (List Nat)) (excluded : List Bool)
    (nNew : Nat) (hwf : AdjWF adj nNew) (k : Nat) :
    (∀ i j, (phase1Partial adj excluded (augFuel adj nNew) k).mO i = some j ↔
      (phase1Partial adj excluded (augFuel adj nNew) k).mN j = some i) ∧
    (∀ j i, (phase1Partial adj excluded (augFuel adj nNew) k).mN j = some i →
      j ∈ adj.getD i [] ∧ excluded.getD i false = false) := by
  have hinv0 : P1Inv adj excluded ⟨fun _ => none, fun _ => none⟩ (fun _ => False) := by
    refine ⟨fun i j => ⟨fun h => Option.noConfusion h, fun h => Option.noConfusion h⟩,
      fun j i h => Option.noConfusion h, fun v hv => hv.elim, fun v hv => hv.elim⟩
  obtain ⟨F2, hP, -, -, -⟩ := p1fold_inv adj excluded nNew (augFuel adj nNew) hwf
    (fun r => augFuel_sufficient adj nNew r)
    (List.range k) ⟨fun _ => none, fun _ => none⟩ (fun _ => False)
    hinv0 (List.nodup_range _) (fun v hv => hv.elim) (fun v _ j h => Option.noConfusion h)
  exact ⟨hP.inverse, hP.valid⟩

/-- C8: the matching arrays are mutually inverse — `matchOld[i] = j` iff
`matchNew[j] = i`, with `-1` modelled as `none` — after every completed Phase 1
augmentation attempt, after every completed Phase 2 swap attempt (kept or
reverted, including sweep resets), and in particular at extraction time. -/
theorem matchArrays_mutually_inverse (oldPositions newPositions : List Nat)
    (width height prevHeight : Nat) :
    (∀ k i j,
      (phase1Partial (buildAdj oldPositions newPositions width height prevHeight)
        (excludeMarks (buildAdjStay oldPositions newPositions width height prevHeight)
          (oldPositions.length - newPositions.length))
        (augFuel (buildAdj oldPositions newPositions width height prevHeight)
          newPositions.length) k).mO i = some j ↔
      (phase1Partial (buildAdj oldPositions newPositions width height prevHeight)
        (excludeMarks (buildAdjStay oldPositions newPositions width height prevHeight)
          (oldPositions.length - newPositions.length))
        (augFuel (buildAdj oldPositions newPositions width height prevHeight)
          newPositions.length) k).mN j = some i) ∧
    (∀ st, P2Reached (buildAdj oldPositions newPositions width height prevHeight)
        (buildAdjStay oldPositions newPositions width height prevHeight)
        (augFuel (buildAdj oldPositions newPositions width height prevHeight)
          newPositions.length) oldPositions.length
        ⟨(phase1State oldPositions newPositions width height prevHeight).mN,
         (phase1State oldPositions newPositions width height prevHeight).mO, [], false⟩ st →
      ∀ i j, st.mO i = some j ↔ st.mN j = some i) ∧
    (∀ i j,
      (matcherFinalState oldPositions newPositions width height prevHeight).mO i = some j ↔
      (matcherFinalState oldPositions newPositions width height prevHeight).mN j = some i) := by
  set adj := buildAdj oldPositions newPositions width height prevHeight with hadj
  set adjStay := buildAdjStay oldPositions newPositions width height prevHeight with hadjStay
  set excluded := excludeMarks adjStay (oldPositions.length - newPositions.length) with hexcluded
  set fuel := augFuel adj newPositions.length with hfuel
  set mp1 := phase1State oldPositions newPositions width height prevHeight with hmp1
  have hwf := buildAdj_wf oldPositions newPositions width height prevHeight
  refine ⟨fun k => (phase1Partial_inv adj excluded newPositions.length hwf k).1, ?_, ?_⟩
  · obtain ⟨hinv1, hvalid1, hNAP1⟩ :=
      phase1State_spec oldPositions newPositions width height prevHeight
    have hmax1 : ∀ M, IsGraphMatching adj excluded M →
        M.length ≤ countMatched newPositions.length mp1.mN :=
      fun M hM => cover_counting adj excluded newPositions.length hwf mp1.mN
        hvalid1 hNAP1 M hM
    intro st hst
    exact (p2Reached_inv adj adjStay excluded fuel oldPositions.length
      newPositions.length hwf
      (fun i => adjStay_sub_adj oldPositions newPositions width height prevHeight i)
      (fun i h => excludeMarks_spec adjStay (oldPositions.length - newPositions.length) i h)
      ⟨mp1.mN, mp1.mO, [], false⟩ ⟨hinv1, hvalid1, hmax1⟩ st hst).1
  · exact (matcherFinalState_spec oldPositions newPositions width height prevHeight).1

/-- C6: from every state the Phase 2 refinement actually passes through, one
more swap attempt (`phase2Body`) preserves the matched-pair count, never
decreases the stay-pair count, and either restores both matching arrays
exactly to their pre-swap contents (as happens when no replacement match is
found or when the stay-pair count did not strictly increase) or strictly
increases the stay-pair count. -/
theorem phase2_swap_monotone (oldPositions newPositions : List Nat)
    (width height prevHeight : Nat) (st : P2State) (l : Nat) :
    let adj := buildAdj oldPositions newPositions width height prevHeight
    let adjStay := buildAdjStay oldPositions newPositions width height prevHeight
    let excluded := excludeMarks adjStay (oldPositions.length - newPositions.length)
    let fuel := augFuel adj newPositions.length
    let mp1 := phase1State oldPositions newPositions width height prevHeight
    P2Reached adj adjStay fuel oldPositions.length ⟨mp1.mN, mp1.mO, [], false⟩ st →
    l < oldPositions.length →
    countMatched newPositions.length
        (phase2Body adj adjStay fuel oldPositions.length st l).mN
      = countMatched newPositions.length st.mN ∧
    countStayEdges adjStay oldPositions.length st.mO
      ≤ countStayEdges adjStay oldPositions.length
          (phase2Body adj adjStay fuel oldPositions.length st l).mO ∧
    (((phase2Body adj adjStay fuel oldPositions.length st l).mN = st.mN ∧
      (phase2Body adj adjStay fuel oldPositions.length st l).mO = st.mO) ∨
      countStayEdges adjStay oldPositions.length st.mO
        < countStayEdges adjStay oldPositions.length
            (phase2Body adj adjStay fuel oldPositions.length st l).mO) := by
  intro adj adjStay excluded fuel mp1 hst hl
  have hwf := buildAdj_wf oldPositions newPositions width height prevHeight
  have hsub : ∀ i x, x ∈ adjStay.getD i [] → x ∈ adj.getD i [] :=
    fun i => adjStay_sub_adj oldPositions newPositions width height prevHeight i
  have hexc : ∀ i, excluded.getD i false = true → adjStay.getD i [] = [] :=
    fun i h => excludeMarks_spec adjStay (oldPositions.length - newPositions.length) i h
  obtain ⟨hinv1, hvalid1, hNAP1⟩ :=
    phase1State_spec oldPositions newPositions width height prevHeight
  have hmax1 : ∀ M, IsGraphMatching adj excluded M →
      M.length ≤ countMatched newPositions.length mp1.mN :=
    fun M hM => cover_counting adj excluded newPositions.length hwf mp1.mN
      hvalid1 hNAP1 M hM
  obtain ⟨hinv, hvalid, hmax⟩ := p2Reached_inv adj adjStay excluded fuel
    oldPositions.length newPositions.length hwf hsub hexc
    ⟨mp1.mN, mp1.mO, [], false⟩ ⟨hinv1, hvalid1, hmax1⟩ st hst
  obtain ⟨-, hcnt, hmono⟩ := phase2Body_inv adj adjStay excluded fuel
    oldPositions.length newPositions.length hwf hsub hexc st l hl
    ⟨hinv, hvalid, hmax⟩
  refine ⟨hcnt, hmono, ?_⟩
  rcases phase2Body_spec adj adjStay excluded fuel oldPositions.length
      newPositions.length hwf hsub hexc st l hl hinv hvalid hmax with
    ⟨hN, hO⟩ | ⟨hlt, -, -, -⟩
  · exact Or.inl ⟨hN, hO⟩
  · exact Or.inr hlt

/-- Witness for C6 at a concrete instance: the 1×1 grid with its single cell
occupied before and after, at the Phase 2 entry state, scanning old node 0. -/
theorem phase2_swap_monotone_witness :
    (let adj := buildAdj [0] [0] 1 1 1
     let adjStay := buildAdjStay [0] [0] 1 1 1
     let excluded := excludeMarks adjStay (([0] : List Nat).length - ([0] : List Nat).length)
     let fuel := augFuel adj ([0] : List Nat).length
     let mp1 := phase1State [0] [0] 1 1 1
     P2Reached adj adjStay fuel ([0] : List Nat).length ⟨mp1.mN, mp1.mO, [], false⟩
       ⟨mp1.mN, mp1.mO, [], false⟩ ∧
     0 < ([0] : List Nat).length ∧
     (countMatched ([0] : List Nat).length
         (phase2Body adj adjStay fuel ([0] : List Nat).length
           ⟨mp1.mN, mp1.mO, [], false⟩ 0).mN
       = countMatched ([0] : List Nat).length mp1.mN ∧
     countStayEdges adjStay ([0] : List Nat).length mp1.mO
       ≤ countStayEdges adjStay ([0] : List Nat).length
           (phase2Body adj adjStay fuel ([0] : List Nat).length
             ⟨mp1.mN, mp1.mO, [], false⟩ 0).mO ∧
     (((phase2Body adj adjStay fuel ([0] : List Nat).length
           ⟨mp1.mN, mp1.mO, [], false⟩ 0).mN = mp1.mN ∧
       (phase2Body adj adjStay fuel ([0] : List Nat).length
           ⟨mp1.mN, mp1.mO, [], false⟩ 0).mO = mp1.mO) ∨
       countStayEdges adjStay ([0] : List Nat).length mp1.mO
         < countStayEdges adjStay ([0] : List Nat).length
             (phase2Body adj adjStay fuel ([0] : List Nat).length
               ⟨mp1.mN, mp1.mO, [], false⟩ 0).mO))) :=
  ⟨P2Reached.entry, Nat.zero_lt_one,
    phase2_swap_monotone [0] [0] 1 1 1
      ⟨(phase1State [0] [0] 1 1 1).mN, (phase1State [0] [0] 1 1 1).mO, [], false⟩ 0
      P2Reached.entry Nat.zero_lt_one⟩

theorem extract_fold_le (objectIndex : Nat) (oldPositions newPositions : List Nat)
    (mN : Nat → Option Nat) :
    ∀ (l : List Nat) (acc : List Movement),
      (l.foldl (fun acc newIdx =>
        match mN newIdx with
        | none => acc
        | some oldIdx =>
          let oldPos := oldPositions.getD oldIdx 0
          let newPos := newPositions.getD newIdx 0
          if oldPos ≠ newPos then acc ++ [⟨objectIndex, oldPos, newPos⟩] else acc) acc).length
      ≤ acc.length + l.countP (fun j => (mN j).isSome) := by
  intro l
  induction l with
  | nil => intro acc; simp
  | cons a t ih =>
    intro acc
    rw [List.foldl_cons, List.countP_cons]
    cases hm : mN a with
    | none =>
      have h1 := ih acc
      simp only [hm, Option.isSome_none]
      simpa using Nat.le_trans h1 (by omega)
    | some oldIdx =>
      simp only [hm, Option.isSome_some]
      by_cases hne : oldPositions.getD oldIdx 0 ≠ newPositions.getD oldIdx 0
      · have h1 := ih (acc ++ [⟨objectIndex, oldPositions.getD oldIdx 0,
          newPositions.getD a 0⟩])
        simp only [List.length_append, List.length_singleton] at h1
        by_cases hne2 : oldPositions.getD oldIdx 0 ≠ newPositions.getD a 0
        · simp only [if_pos hne2]
          simpa using Nat.le_trans h1 (by omega)
        · simp only [if_neg hne2]
          have h2 := ih acc
          simpa using Nat.le_trans h2 (by omega)
      · by_cases hne2 : oldPositions.getD oldIdx 0 ≠ newPositions.getD a 0
        · have h1 := ih (acc ++ [⟨objectIndex, oldPositions.getD oldIdx 0,
            newPositions.getD a 0⟩])
          simp only [List.length_append, List.length_singleton] at h1
          simp only [if_pos hne2]
          simpa using Nat.le_trans h1 (by omega)
        · simp only [if_neg hne2]
          have h2 := ih acc
          simpa using Nat.le_trans h2 (by omega)

theorem extractMovements_length_le (objectIndex : Nat)
    (oldPositions newPositions : List Nat) (mN : Nat → Option Nat) :
    (extractMovements objectIndex oldPositions newPositions mN).length
      ≤ countMatched newPositions.length mN := by
  have h := extract_fold_le objectIndex oldPositions newPositions mN
    (List.range newPositions.length) []
  unfold extractMovements countMatched
  rw [← List.countP_eq_length_filter]
  simpa using h

theorem countMatched_le_nNew (nNew : Nat) (mN : Nat → Option Nat) :
    countMatched nNew mN ≤ nNew := by
  unfold countMatched
  calc ((List.range nNew).filter (fun j => (mN j).isSome)).length
      ≤ (List.range nNew).length := List.length_filter_le _ _
    _ = nNew := List.length_range nNew

theorem countMatched_le_nOld (adj : List (List Nat)) (excluded : List Bool)
    (nOld nNew : Nat) (hlen : adj.length = nOld) (mN mO : Nat → Option Nat)
    (hinv : ∀ i j, mO i = some j ↔ mN j = some i)
    (hvalid : ∀ j i, mN j = some i → j ∈ adj.getD i [] ∧ excluded.getD i false = false) :
    countMatched nNew mN ≤ nOld := by
  rw [← matchingPairs_length]
  obtain ⟨-, hfst, -⟩ := matchingPairs_isGraphMatching adj excluded nNew mN hvalid
    (inverse_inj hinv)
  have hsub : (matchingPairs nNew mN).map Prod.fst ⊆ List.range nOld := by
    intro i hi
    obtain ⟨pr, hpr, rfl⟩ := List.mem_map.1 hi
    obtain ⟨-, hm⟩ := (matchingPairs_mem nNew mN pr).1 hpr
    have hj := (hvalid _ _ hm).1
    rcases Nat.lt_or_ge pr.1 adj.length with h | h
    · exact List.mem_range.2 (hlen ▸ h)
    · rw [List.getD_eq_default _ _ h] at hj
      cases hj
  have hsp := hfst.subperm hsub
  have := hsp.length_le
  simpa using this

/-- C1 amended: on the bipartite-matcher path the conservation bound does hold
— for every object type, the matcher emits at most
`min(|old positions|, |new positions|)` movement records.  (The push-walk path
can exceed the bound, as the counterexample shows.) -/
theorem matcherMovements_le_min (objectIndex : Nat)
    (oldPositions newPositions : List Nat) (width height prevHeight : Nat) :
    (matcherMovements objectIndex oldPositions newPositions
        width height prevHeight).length
      ≤ min oldPositions.length newPositions.length := by
  obtain ⟨hinvF, hvalidF, -, -, -⟩ :=
    matcherFinalState_spec oldPositions newPositions width height prevHeight
  have hlen : (buildAdj oldPositions newPositions width height prevHeight).length
      = oldPositions.length := by
    unfold buildAdj
    rw [List.length_map]
  have h1 := extractMovements_length_le objectIndex oldPositions newPositions
    (matcherFinalState oldPositions newPositions width height prevHeight).mN
  have h2 := countMatched_le_nNew newPositions.length
    (matcherFinalState oldPositions newPositions width height prevHeight).mN
  have h3 := countMatched_le_nOld
    (buildAdj oldPositions newPositions width height prevHeight)
    (excludeMarks (buildAdjStay oldPositions newPositions width height prevHeight)
      (oldPositions.length - newPositions.length))
    oldPositions.length newPositions.length hlen
    (matcherFinalState oldPositions newPositions width height prevHeight).mN
    (matcherFinalState oldPositions newPositions width height prevHeight).mO
    hinvF hvalidF
  have hmv : matcherMovements objectIndex oldPositions newPositions width height prevHeight
      = extractMovements objectIndex oldPositions newPositions
        (matcherFinalState oldPositions newPositions width height prevHeight).mN := rfl
  rw [hmv]
  exact Nat.le_min.2 ⟨Nat.le_trans h1 h3, Nat.le_trans h1 h2⟩

/-- C2 amended: the number of matched pairs the matcher returns equals the true
maximum matching size of the stay/4-neighbour graph restricted to the old nodes
that survive the Phase 0 pre-exclusion: it is an upper bound on every matching
of that graph, and an actual matching of that graph attains it.  (On the
unrestricted graph of the spec the equality fails, as the counterexample
shows.) -/
theorem matcher_count_eq_max_nonexcluded (oldPositions newPositions : List Nat)
    (width height prevHeight : Nat) :
    (∀ M, IsGraphMatching (buildAdj oldPositions newPositions width height prevHeight)
        (excludeMarks (buildAdjStay oldPositions newPositions width height prevHeight)
          (oldPositions.length - newPositions.length)) M →
      M.length ≤ matcherMatchedCount oldPositions newPositions width height prevHeight) ∧
    (∃ M, IsGraphMatching (buildAdj oldPositions newPositions width height prevHeight)
        (excludeMarks (buildAdjStay oldPositions newPositions width height prevHeight)
          (oldPositions.length - newPositions.length)) M ∧
      M.length = matcherMatchedCount oldPositions newPositions width height prevHeight) := by
  set adj := buildAdj oldPositions newPositions width height prevHeight with hadj
  set excluded := excludeMarks
    (buildAdjStay oldPositions newPositions width height prevHeight)
    (oldPositions.length - newPositions.length) with hexcluded
  obtain ⟨hinvF, hvalidF, -, -, hmaxF⟩ :=
    matcherFinalState_spec oldPositions newPositions width height prevHeight
  have hcount : countMatched newPositions.length
      (matcherFinalState oldPositions newPositions width height prevHeight).mN
      = matcherMatchedCount oldPositions newPositions width height prevHeight := rfl
  constructor
  · intro M hM
    rw [← hcount]
    exact hmaxF M hM
  · refine ⟨matchingPairs newPositions.length
      (matcherFinalState oldPositions newPositions width height prevHeight).mN,
      matchingPairs_isGraphMatching adj excluded newPositions.length _
        hvalidF (inverse_inj hinvF), ?_⟩
    rw [matchingPairs_length, hcount]


theorem hasPos_toNat_mem (l : List Nat) (z : Int) (h : hasPos l z = true) :
    z.toNat ∈ l ∧ 0 ≤ z := by
  unfold hasPos at h
  obtain ⟨p, hp, he⟩ := List.any_eq_true.1 h
  have hz : (p : Int) = z := by exact_mod_cast of_decide_eq_true he
  constructor
  · rw [← hz]
    simpa using hp
  · rw [← hz]
    exact Int.ofNat_nonneg p

/-- The shape of a push direction: exactly one axis moves, by one cell. -/
def IsUnitDir (u : Int × Int) : Prop :=
  (u.1 = 0 ∧ (u.2 = 1 ∨ u.2 = -1)) ∨ (u.2 = 0 ∧ (u.1 = 1 ∨ u.1 = -1))

theorem unitOf_shape (d : Int) (hd : d ≠ 0) : unitOf d = 1 ∨ unitOf d = -1 := by
  unfold unitOf
  rw [if_neg hd]
  by_cases hpos : d > 0
  · rw [if_pos hpos]; exact Or.inl rfl
  · rw [if_neg hpos]; exact Or.inr rfl

theorem pairUnit_isUnitDir (height : Nat) (pr : Nat × Nat) (u : Int × Int)
    (h : pairUnit height pr = some u) : IsUnitDir u := by
  unfold pairUnit at h
  set dx : Int := (pr.2 / height : Nat) - (pr.1 / height : Nat) with hdx
  set dy : Int := (pr.2 % height : Nat) - (pr.1 % height : Nat) with hdy
  by_cases hcond : (dx = 0) = (dy = 0)
  · rw [if_pos hcond] at h
    cases h
  · rw [if_neg hcond] at h
    injection h with h
    by_cases hdx0 : dx = 0
    · have hdy0 : ¬ dy = 0 := fun hy => hcond (by simp [hdx0, hy])
      rw [← h]
      refine Or.inl ⟨by simp [unitOf, hdx0], unitOf_shape dy hdy0⟩
    · have hdy0 : dy = 0 := by
        by_contra hy
        exact hcond (by simp [hdx0, hy])
      rw [← h]
      exact Or.inr ⟨by simp [unitOf, hdy0], unitOf_shape dx hdx0⟩

theorem commonPushDir_isUnitDir (height : Nat) (prs : List (Nat × Nat))
    (u : Int × Int) (h : commonPushDir height prs = some u) : IsUnitDir u := by
  cases prs with
  | nil => cases h
  | cons p rest =>
    simp only [commonPushDir] at h
    cases hp : pairUnit height p with
    | none => rw [hp] at h; cases h
    | some u0 =>
      rw [hp] at h
      dsimp only at h
      by_cases hall : rest.all (fun q => decide (pairUnit height q = some u0)) = true
      · rw [if_pos hall] at h
        injection h with h
        rw [← h]
        exact pairUnit_isUnitDir height p u0 hp
      · rw [if_neg hall] at h
        cases h

/-- Every record the push walk emits joins an occupied old cell to an occupied
new cell, keeps the scanned object type, and (for a genuine unit direction on a
positive-height grid) moves to a different cell. -/
theorem pushWalk_records (objectIndex height : Nat) (oldPosSet newPosSet : List Nat)
    (ux uy : Int) (endX endY : Int) (hu : IsUnitDir (ux, uy)) (hh : 0 < height) :
    ∀ (fuel : Nat) (x y : Int) (mv : Movement),
      mv ∈ pushWalk objectIndex height oldPosSet newPosSet ux uy endX endY fuel x y →
      mv.objectIndex = objectIndex ∧ mv.fromPosIndex ≠ mv.toPosIndex ∧
      mv.fromPosIndex ∈ oldPosSet ∧ mv.toPosIndex ∈ newPosSet := by
  intro fuel
  induction fuel with
  | zero => intro x y mv hmv; cases hmv
  | succ fuel ih =>
    intro x y mv hmv
    unfold pushWalk at hmv
    by_cases hend : x = endX ∧ y = endY
    · rw [if_pos hend] at hmv
      cases hmv
    · rw [if_neg hend] at hmv
      by_cases hocc : hasPos oldPosSet (y + x * (height : Int)) = true ∧
          hasPos newPosSet ((y + uy) + (x + ux) * (height : Int)) = true
      · rw [if_pos hocc] at hmv
        rcases List.mem_cons.1 hmv with rfl | hrest
        · obtain ⟨hmemo, hnn0⟩ := hasPos_toNat_mem _ _ hocc.1
          obtain ⟨hmemn, hnn1⟩ := hasPos_toNat_mem _ _ hocc.2
          refine ⟨rfl, ?_, hmemo, hmemn⟩
          intro he
          have he2 : y + x * (height : Int) = (y + uy) + (x + ux) * (height : Int) := by
            have e1 : (y + x * (height : Int)).toNat
                = ((y + uy) + (x + ux) * (height : Int)).toNat := he
            have e2 := congrArg (fun n : Nat => (n : Int)) e1
            simp only at e2
            rwa [Int.toNat_of_nonneg hnn0, Int.toNat_of_nonneg hnn1] at e2
          rcases hu with ⟨hx0, hy1⟩ | ⟨hy0, hx1⟩
          · simp only at hx0 hy1
            rcases hy1 with hy1 | hy1 <;> rw [hx0, hy1] at he2 <;>
              simp only [add_zero] at he2 <;> omega
          · simp only at hy0 hx1
            have hhz : (1 : Int) ≤ (height : Int) := by exact_mod_cast hh
            rcases hx1 with hx1 | hx1 <;> rw [hy0, hx1] at he2 <;> nlinarith
        · exact ih _ _ mv hrest
      · rw [if_neg hocc] at hmv
        exact ih _ _ mv hmv

theorem pushEmitPair_records (objectIndex height : Nat)
    (oldPosSet newPosSet : List Nat) (ux uy : Int) (pr : Nat × Nat)
    (hu : IsUnitDir (ux, uy)) (hh : 0 < height) (mv : Movement)
    (hmv : mv ∈ pushEmitPair objectIndex height oldPosSet newPosSet ux uy pr) :
    mv.objectIndex = objectIndex ∧ mv.fromPosIndex ≠ mv.toPosIndex ∧
    mv.fromPosIndex ∈ oldPosSet ∧ mv.toPosIndex ∈ newPosSet := by
  unfold pushEmitPair at hmv
  exact pushWalk_records objectIndex height oldPosSet newPosSet ux uy _ _ hu hh
    _ _ _ mv hmv

theorem mem_foldl_append {α β : Type} (g : β → List α) :
    ∀ (l : List β) (acc : List α) (x : α),
      x ∈ l.foldl (fun a pr => a ++ g pr) acc → x ∈ acc ∨ ∃ pr ∈ l, x ∈ g pr := by
  intro l
  induction l with
  | nil => intro acc x h; exact Or.inl h
  | cons b t ih =>
    intro acc x h
    rw [List.foldl_cons] at h
    rcases ih (acc ++ g b) x h with hacc | ⟨pr, hpr, hx⟩
    · rcases List.mem_append.1 hacc with h1 | h2
      · exact Or.inl h1
      · exact Or.inr ⟨b, List.mem_cons_self b t, h2⟩
    · exact Or.inr ⟨pr, List.mem_cons_of_mem b hpr, hx⟩

theorem extract_fold_mem (objectIndex : Nat) (oldPositions newPositions : List Nat)
    (mN : Nat → Option Nat) :
    ∀ (l : List Nat) (acc : List Movement) (mv : Movement),
      mv ∈ l.foldl (fun acc newIdx =>
        match mN newIdx with
        | none => acc
        | some oldIdx =>
          let oldPos := oldPositions.getD oldIdx 0
          let newPos := newPositions.getD newIdx 0
          if oldPos ≠ newPos then acc ++ [⟨objectIndex, oldPos, newPos⟩] else acc) acc →
      mv ∈ acc ∨ ∃ j ∈ l, ∃ i, mN j = some i ∧
        oldPositions.getD i 0 ≠ newPositions.getD j 0 ∧
        mv = ⟨objectIndex, oldPositions.getD i 0, newPositions.getD j 0⟩ := by
  intro l
  induction l with
  | nil => intro acc mv h; exact Or.inl h
  | cons a t ih =>
    intro acc mv h
    rw [List.foldl_cons] at h
    cases hm : mN a with
    | none =>
      rw [hm] at h
      rcases ih acc mv h with hacc | ⟨j, hj, i, hmi, hne, he⟩
      · exact Or.inl hacc
      · exact Or.inr ⟨j, List.mem_cons_of_mem a hj, i, hmi, hne, he⟩
    | some oldIdx =>
      rw [hm] at h
      by_cases hne : oldPositions.getD oldIdx 0 ≠ newPositions.getD a 0
      · simp only [if_pos hne] at h
        rcases ih _ mv h with hacc | ⟨j, hj, i, hmi, hne2, he⟩
        · rcases List.mem_append.1 hacc with h1 | h2
          · exact Or.inl h1
          · rcases List.mem_singleton.1 h2 with rfl
            exact Or.inr ⟨a, List.mem_cons_self a t, oldIdx, hm, hne, rfl⟩
        · exact Or.inr ⟨j, List.mem_cons_of_mem a hj, i, hmi, hne2, he⟩
      · simp only [if_neg hne] at h
        rcases ih acc mv h with hacc | ⟨j, hj, i, hmi, hne2, he⟩
        · exact Or.inl hacc
        · exact Or.inr ⟨j, List.mem_cons_of_mem a hj, i, hmi, hne2, he⟩

theorem extractMovements_mem (objectIndex : Nat) (oldPositions newPositions : List Nat)
    (mN : Nat → Option Nat) (mv : Movement)
    (hmv : mv ∈ extractMovements objectIndex oldPositions newPositions mN) :
    ∃ j, j < newPositions.length ∧ ∃ i, mN j = some i ∧
      oldPositions.getD i 0 ≠ newPositions.getD j 0 ∧
      mv = ⟨objectIndex, oldPositions.getD i 0, newPositions.getD j 0⟩ := by
  unfold extractMovements at hmv
  rcases extract_fold_mem objectIndex oldPositions newPositions mN
      (List.range newPositions.length) [] mv hmv with hc | ⟨j, hj, i, hmi, hne, he⟩
  · cases hc
  · exact ⟨j, List.mem_range.1 hj, i, hmi, hne, he⟩

/-- Every record the matcher path emits joins a real old position to a real
new position of the scanned type, and they differ. -/
theorem matcherMovements_records (objectIndex : Nat)
    (oldPositions newPositions : List Nat) (width height prevHeight : Nat)
    (mv : Movement)
    (hmv : mv ∈ matcherMovements objectIndex oldPositions newPositions
      width height prevHeight) :
    mv.objectIndex = objectIndex ∧ mv.fromPosIndex ≠ mv.toPosIndex ∧
    mv.fromPosIndex ∈ oldPositions ∧ mv.toPosIndex ∈ newPositions := by
  obtain ⟨hinvF, hvalidF, -, -, -⟩ :=
    matcherFinalState_spec oldPositions newPositions width height prevHeight
  obtain ⟨j, hjlt, i, hmi, hne, he⟩ := extractMovements_mem objectIndex
    oldPositions newPositions
    (matcherFinalState oldPositions newPositions width height prevHeight).mN mv hmv
  have hrow := (hvalidF j i hmi).1
  have hlen : (buildAdj oldPositions newPositions width height prevHeight).length
      = oldPositions.length := by
    unfold buildAdj
    rw [List.length_map]
  have hilt : i < oldPositions.length := by
    rcases Nat.lt_or_ge i (buildAdj oldPositions newPositions width height
      prevHeight).length with h | h
    · rwa [hlen] at h
    · rw [List.getD_eq_default _ _ h] at hrow
      cases hrow
  subst he
  refine ⟨rfl, hne, ?_, ?_⟩
  · show oldPositions.getD i 0 ∈ oldPositions
    rw [List.getD_eq_getElem _ _ hilt]
    exact List.getElem_mem _
  · show newPositions.getD j 0 ∈ newPositions
    rw [List.getD_eq_getElem _ _ hjlt]
    exact List.getElem_mem _

/-- Per-type record validity: the scanned type is kept, and the record joins a
real (distinct) old/new position pair, on both the push and matcher paths. -/
theorem detectMovementsForType_records (objectIndex : Nat)
    (oldPositions newPositions : List Nat) (width height prevHeight : Nat)
    (hh : 0 < height) (mv : Movement)
    (hmv : mv ∈ detectMovementsForType objectIndex oldPositions newPositions
      width height prevHeight) :
    mv.objectIndex = objectIndex ∧ mv.fromPosIndex ≠ mv.toPosIndex ∧
    mv.fromPosIndex ∈ oldPositions ∧ mv.toPosIndex ∈ newPositions := by
  cases hdir : (if 0 < (oldPositions.filter (fun p => !newPositions.contains p)).length ∧
      (oldPositions.filter (fun p => !newPositions.contains p)).length
        = (newPositions.filter (fun p => !oldPositions.contains p)).length then
      commonPushDir height
        (((oldPositions.filter (fun p => !newPositions.contains p)).insertionSort (· ≤ ·)).zip
          ((newPositions.filter (fun p => !oldPositions.contains p)).insertionSort (· ≤ ·)))
    else none) with
  | none =>
    have heq : detectMovementsForType objectIndex oldPositions newPositions
        width height prevHeight
        = matcherMovements objectIndex oldPositions newPositions width height prevHeight := by
      unfold detectMovementsForType
      dsimp only
      rw [hdir]
    rw [heq] at hmv
    exact matcherMovements_records objectIndex oldPositions newPositions
      width height prevHeight mv hmv
  | some u =>
    have hu : IsUnitDir u := by
      by_cases hc : 0 < (oldPositions.filter (fun p => !newPositions.contains p)).length ∧
          (oldPositions.filter (fun p => !newPositions.contains p)).length
            = (newPositions.filter (fun p => !oldPositions.contains p)).length
      · rw [if_pos hc] at hdir
        exact commonPushDir_isUnitDir height _ u hdir
      · rw [if_neg hc] at hdir
        cases hdir
    have heq : detectMovementsForType objectIndex oldPositions newPositions
        width height prevHeight
        = (((oldPositions.filter (fun p => !newPositions.contains p)).insertionSort (· ≤ ·)).zip
            ((newPositions.filter (fun p => !oldPositions.contains p)).insertionSort (· ≤ ·))).foldl
            (fun acc pr =>
              acc ++ pushEmitPair objectIndex height oldPositions newPositions u.1 u.2 pr)
            [] := by
      unfold detectMovementsForType
      dsimp only
      rw [hdir]
    rw [heq] at hmv
    rcases mem_foldl_append
        (fun pr => pushEmitPair objectIndex height oldPositions newPositions u.1 u.2 pr)
        _ [] mv hmv with hc | ⟨pr, hpr, hx⟩
    · cases hc
    · exact pushEmitPair_records objectIndex height oldPositions newPositions
        u.1 u.2 pr hu hh mv hx

/-- C7: every movement record `detectMovements` emits — on the push path and on
the matcher path alike — has `fromPosIndex ≠ toPosIndex`, its `fromPosIndex` is
a position occupied by its object type in the old snapshot, and its
`toPosIndex` is a position occupied by that type in the new snapshot. -/
theorem detectMovements_record_valid (stride : Nat) (p cur : LevelState)
    (mv : Movement) (hmv : mv ∈ detectMovements stride (some p) cur) :
    mv.fromPosIndex ≠ mv.toPosIndex ∧
    mv.fromPosIndex ∈ buildObjectPositionMap stride p.objects p.width p.height
      mv.objectIndex ∧
    mv.toPosIndex ∈ buildObjectPositionMap stride cur.objects cur.width cur.height
      mv.objectIndex := by
  have hstart : detectMovements stride (some p) cur
      = (List.range (stride * 32)).foldl
        (fun acc objectIndex =>
          if (buildObjectPositionMap stride cur.objects cur.width cur.height
              objectIndex).isEmpty then acc
          else if (buildObjectPositionMap stride p.objects p.width p.height
              objectIndex).isEmpty then acc
          else
            acc ++ detectMovementsForType objectIndex
              (buildObjectPositionMap stride p.objects p.width p.height objectIndex)
              (buildObjectPositionMap stride cur.objects cur.width cur.height objectIndex)
              cur.width cur.height p.height)
        [] := rfl
  rw [hstart] at hmv
  have hfold : ∀ (l : List Nat) (acc : List Movement),
      l.foldl
        (fun acc objectIndex =>
          if (buildObjectPositionMap stride cur.objects cur.width cur.height
              objectIndex).isEmpty then acc
          else if (buildObjectPositionMap stride p.objects p.width p.height
              objectIndex).isEmpty then acc
          else
            acc ++ detectMovementsForType objectIndex
              (buildObjectPositionMap stride p.objects p.width p.height objectIndex)
              (buildObjectPositionMap stride cur.objects cur.width cur.height objectIndex)
              cur.width cur.height p.height)
        acc
      = l.foldl
        (fun acc objectIndex => acc ++
          (if (buildObjectPositionMap stride cur.objects cur.width cur.height
              objectIndex).isEmpty then []
          else if (buildObjectPositionMap stride p.objects p.width p.height
              objectIndex).isEmpty then []
          else
            detectMovementsForType objectIndex
              (buildObjectPositionMap stride p.objects p.width p.height objectIndex)
              (buildObjectPositionMap stride cur.objects cur.width cur.height objectIndex)
              cur.width cur.height p.height))
        acc := by
    intro l
    induction l with
    | nil => intro acc; rfl
    | cons a t ih =>
      intro acc
      rw [List.foldl_cons, List.foldl_cons, ih]
      congr 1
      by_cases h1 : (buildObjectPositionMap stride cur.objects cur.width cur.height
          a).isEmpty
      · rw [if_pos h1, if_pos h1, List.append_nil]
      · rw [if_neg h1, if_neg h1]
        by_cases h2 : (buildObjectPositionMap stride p.objects p.width p.height
            a).isEmpty
        · rw [if_pos h2, if_pos h2, List.append_nil]
        · rw [if_neg h2, if_neg h2]
  rw [hfold] at hmv
  rcases mem_foldl_append _ _ [] mv hmv with hc | ⟨o, ho, hx⟩
  · cases hc
  · by_cases h1 : (buildObjectPositionMap stride cur.objects cur.width cur.height
        o).isEmpty
    · rw [if_pos h1] at hx
      cases hx
    · rw [if_neg h1] at hx
      by_cases h2 : (buildObjectPositionMap stride p.objects p.width p.height
          o).isEmpty
      · rw [if_pos h2] at hx
        cases hx
      · rw [if_neg h2] at hx
        have hh : 0 < cur.height := by
          by_contra hz
          have hzz : cur.height = 0 := by omega
          have hempty : buildObjectPositionMap stride cur.objects cur.width
              cur.height o = [] := by
            rw [buildObjectPositionMap_eq_filter, hzz]
            simp
          rw [hempty] at h1
          exact h1 rfl
        obtain ⟨ho1, ho2, ho3, ho4⟩ := detectMovementsForType_records o
          (buildObjectPositionMap stride p.objects p.width p.height o)
          (buildObjectPositionMap stride cur.objects cur.width cur.height o)
          cur.width cur.height p.height hh mv hx
        refine ⟨ho2, ?_, ?_⟩
        · rw [ho1]
          exact ho3
        · rw [ho1]
          exact ho4

set_option maxRecDepth 10000 in
/-- Witness for C7 at the chained-push instance: the record `14 → 20` of type 0
is among the emitted records, and the theorem's conclusions hold for it. -/
theorem detectMovements_record_valid_witness :
    (⟨0, 14, 20⟩ : Movement) ∈ detectMovements 1 (some chainOld) chainNew ∧
    ((⟨0, 14, 20⟩ : Movement).fromPosIndex ≠ (⟨0, 14, 20⟩ : Movement).toPosIndex ∧
    (⟨0, 14, 20⟩ : Movement).fromPosIndex ∈ buildObjectPositionMap 1 chainOld.objects
      chainOld.width chainOld.height (⟨0, 14, 20⟩ : Movement).objectIndex ∧
    (⟨0, 14, 20⟩ : Movement).toPosIndex ∈ buildObjectPositionMap 1 chainNew.objects
      chainNew.width chainNew.height (⟨0, 14, 20⟩ : Movement).objectIndex) :=
  ⟨by decide,
   detectMovements_record_valid 1 chainOld chainNew ⟨0, 14, 20⟩ (by decide)⟩


theorem posToIdx_fold_some (p : Nat) :
    ∀ (es : List (Nat × Nat)) (acc : Option Nat),
      ((∃ pr ∈ es, pr.2 = p) ∨ acc.isSome) →
      (es.foldl (fun acc pr => if pr.2 = p then some pr.1 else acc) acc).isSome := by
  intro es
  induction es with
  | nil =>
    intro acc h
    rcases h with ⟨pr, hpr, -⟩ | hs
    · cases hpr
    · exact hs
  | cons e t ih =>
    intro acc h
    rw [List.foldl_cons]
    by_cases he : e.2 = p
    · rw [if_pos he]
      exact ih _ (Or.inr rfl)
    · rw [if_neg he]
      rcases h with ⟨pr, hpr, hp2⟩ | hs
      · rcases List.mem_cons.1 hpr with rfl | hmem
        · exact absurd hp2 he
        · exact ih _ (Or.inl ⟨pr, hmem, hp2⟩)
      · exact ih _ (Or.inr hs)

/-- On a duplicate-free list, `posToIdx` maps the `i`-th element back to `i`. -/
theorem posToIdx_getD (l : List Nat) (hnd : l.Nodup) (i : Nat) (hi : i < l.length) :
    posToIdx l (l.getD i 0) = some i := by
  have hmem : (i, l.getD i 0) ∈ l.enum := by
    rw [List.mem_enum_iff_getElem?]
    rw [List.getD_eq_getElem _ _ hi]
    exact List.getElem?_eq_some.2 ⟨hi, rfl⟩
  have hsome : (posToIdx l (l.getD i 0)).isSome := by
    unfold posToIdx
    exact posToIdx_fold_some _ l.enum none (Or.inl ⟨_, hmem, rfl⟩)
  obtain ⟨idx, hidx⟩ := Option.isSome_iff_exists.1 hsome
  have hidx2 := hidx
  unfold posToIdx at hidx2
  rcases posToIdx_fold_chara _ l.enum none idx hidx2 with hacc | ⟨pr, hm, h1, h2⟩
  · cases hacc
  · have hget := List.mem_enum_iff_getElem?.1 hm
    obtain ⟨hlt, hval⟩ := List.getElem?_eq_some.1 hget
    rw [hidx]
    congr 1
    have hl1 : l[pr.1] = l.getD i 0 := by rw [hval, h2]
    rw [List.getD_eq_getElem _ _ hi] at hl1
    rw [← h1]
    exact (@List.Nodup.getElem_inj_iff _ l hnd pr.1 hlt i hi).1 hl1

theorem buildAdjStay_getD (oldPositions newPositions : List Nat)
    (width height prevHeight : Nat) (i : Nat) (hi : i < oldPositions.length) :
    (buildAdjStay oldPositions newPositions width height prevHeight).getD i []
      = (adjOfOldPos newPositions width height prevHeight (oldPositions.getD i 0)).1 := by
  unfold buildAdjStay
  rw [List.getD_eq_getElem _ _ (by rw [List.length_map]; exact hi)]
  rw [List.getElem_map]
  rw [List.getD_eq_getElem _ _ hi]

theorem buildAdj_getD (oldPositions newPositions : List Nat)
    (width height prevHeight : Nat) (i : Nat) (hi : i < oldPositions.length) :
    (buildAdj oldPositions newPositions width height prevHeight).getD i []
      = (adjOfOldPos newPositions width height prevHeight (oldPositions.getD i 0)).2 := by
  unfold buildAdj
  rw [List.getD_eq_getElem _ _ (by rw [List.length_map]; exact hi)]
  rw [List.getElem_map]
  rw [List.getD_eq_getElem _ _ hi]

/-- On identical old/new position lists, the stay component of node `i` is `[i]`. -/
theorem adjOfOldPos_self_stay (l : List Nat) (width height prevHeight : Nat)
    (hnd : l.Nodup) (i : Nat) (hi : i < l.length) :
    (adjOfOldPos l width height prevHeight (l.getD i 0)).1 = [i] := by
  unfold adjOfOldPos
  have hcont : l.contains (l.getD i 0) = true := by
    rw [List.contains_eq_any_beq]
    refine List.any_eq_true.2 ⟨l.getD i 0, ?_, by simp⟩
    rw [List.getD_eq_getElem _ _ hi]
    exact List.getElem_mem _
  rw [if_pos hcont, posToIdx_getD l hnd i hi]

theorem excludeMarks_zero :
    ∀ (rows : List (List Nat)) (i : Nat), (excludeMarks rows 0).getD i false = false := by
  intro rows
  induction rows with
  | nil => intro i; rfl
  | cons row t ih =>
    intro i
    show (false :: excludeMarks t 0).getD i false = false
    match i with
    | 0 => rfl
    | i + 1 =>
      rw [List.getD_cons_succ]
      exact ih i

/-- The identity matching on the first `k` indices. -/
def idMatch (k : Nat) : Nat → Option Nat :=
  fun j => if j < k then some j else none

theorem upd_idMatch (k : Nat) :
    upd (idMatch k) k (some k) = idMatch (k + 1) := by
  funext j
  by_cases hj : j = k
  · subst hj
    rw [upd_same]
    show _ = if j < j + 1 then some j else none
    rw [if_pos (Nat.lt_succ_self j)]
  · rw [upd_other _ _ _ _ hj]
    show (if j < k then some j else none) = if j < k + 1 then some j else none
    by_cases hjk : j < k
    · rw [if_pos hjk, if_pos (Nat.lt_succ_of_lt hjk)]
    · rw [if_neg hjk, if_neg (by omega)]

/-- When every old node's adjacency row starts with its own stay edge and
nothing is excluded, Phase 1 builds the identity matching. -/
theorem p1fold_identity (adj : List (List Nat)) (excluded : List Bool) (f : Nat)
    (hexcl : ∀ i, excluded.getD i false = false) :
    ∀ k, (∀ r, r < k → ∃ rest, adj.getD r [] = r :: rest) →
      (List.range k).foldl (p1step adj excluded (f + 1))
        ⟨fun _ => none, fun _ => none⟩
      = ⟨idMatch k, idMatch k⟩ := by
  intro k
  induction k with
  | zero =>
    intro _
    show (⟨fun _ => none, fun _ => none⟩ : MatchPair) = _
    have h1 : (fun _ => none : Nat → Option Nat) = idMatch 0 := by
      funext j
      show none = if j < 0 then some j else none
      rw [if_neg (Nat.not_lt_zero j)]
    rw [h1]
  | succ k ih =>
    intro hrow
    rw [List.range_succ, List.foldl_append,
      ih (fun r hr => hrow r (Nat.lt_succ_of_lt hr)), List.foldl_cons, List.foldl_nil]
    obtain ⟨rest, hr⟩ := hrow k (Nat.lt_succ_self k)
    unfold p1step
    rw [hexcl k, hr]
    have hid : idMatch k k = none := by
      show (if k < k then some k else none) = none
      rw [if_neg (Nat.lt_irrefl k)]
    have htry : tryAugment adj (f + 1) (k :: rest) k
        ⟨fun _ => false, idMatch k, idMatch k⟩
        = (true, ⟨upd (fun _ => false) k true,
            upd (idMatch k) k (some k), upd (idMatch k) k (some k)⟩) := by
      simp [tryAugment, hid]
    rw [if_neg Bool.false_ne_true, htry]
    show (⟨upd (idMatch k) k (some k), upd (idMatch k) k (some k)⟩ : MatchPair) = _
    rw [upd_idMatch]

theorem foldl_fix {α β : Type} (f : α → β → α) (a : α) :
    ∀ (l : List β), (∀ b ∈ l, f a b = a) → l.foldl f a = a := by
  intro l
  induction l with
  | nil => intro _; rfl
  | cons b t ih =>
    intro h
    rw [List.foldl_cons, h b (List.mem_cons_self b t)]
    exact ih (fun x hx => h x (List.mem_cons_of_mem b hx))

/-- A scan body is a no-op on any old node already matched along its stay edge. -/
theorem phase2Body_stay_fix (adj adjStay : List (List Nat)) (fuel nOld : Nat)
    (st : P2State) (l r : Nat)
    (hhd : (adjStay.getD l []).head? = some r) (hm : st.mO l = some r) :
    phase2Body adj adjStay fuel nOld st l = st := by
  unfold phase2Body
  rw [hhd]
  dsimp only
  rw [if_pos hm]

/-- On identical old/new position lists the whole matcher returns the identity
matching: Phase 1 builds it and Phase 2 leaves it unchanged. -/
theorem matcherFinalState_identity (l : List Nat) (width height prevHeight : Nat)
    (hnd : l.Nodup) :
    matcherFinalState l l width height prevHeight
      = ⟨idMatch l.length, idMatch l.length⟩ := by
  have hexcl : ∀ i, (excludeMarks (buildAdjStay l l width height prevHeight)
      (l.length - l.length)).getD i false = false := by
    intro i
    rw [Nat.sub_self]
    exact excludeMarks_zero _ i
  have hstay : ∀ r, r < l.length →
      (buildAdjStay l l width height prevHeight).getD r [] = [r] := by
    intro r hr
    rw [buildAdjStay_getD l l width height prevHeight r hr]
    exact adjOfOldPos_self_stay l width height prevHeight hnd r hr
  have hsplit : ∀ (q : Nat), ∃ t,
      (adjOfOldPos l width height prevHeight q).2
        = (adjOfOldPos l width height prevHeight q).1 ++ t := by
    intro q
    unfold adjOfOldPos
    exact ⟨_, rfl⟩
  have hrow : ∀ r, r < l.length → ∃ rest,
      (buildAdj l l width height prevHeight).getD r [] = r :: rest := by
    intro r hr
    obtain ⟨t, ht⟩ := hsplit (l.getD r 0)
    rw [buildAdj_getD l l width height prevHeight r hr, ht,
      adjOfOldPos_self_stay l width height prevHeight hnd r hr]
    exact ⟨t, rfl⟩
  obtain ⟨f, hf⟩ : ∃ f, augFuel (buildAdj l l width height prevHeight) l.length
      = f + 1 := ⟨_, rfl⟩
  have hp1 : phase1 (buildAdj l l width height prevHeight)
      (excludeMarks (buildAdjStay l l width height prevHeight) (l.length - l.length))
      (augFuel (buildAdj l l width height prevHeight) l.length) l.length
      ⟨fun _ => none, fun _ => none⟩ = ⟨idMatch l.length, idMatch l.length⟩ := by
    rw [phase1_eq_foldl, hf]
    exact p1fold_identity _ _ f hexcl l.length hrow
  have hbody : ∀ r ∈ List.range l.length,
      phase2Body (buildAdj l l width height prevHeight)
        (buildAdjStay l l width height prevHeight)
        (augFuel (buildAdj l l width height prevHeight) l.length) l.length
        ⟨idMatch l.length, idMatch l.length, [], false⟩ r
      = ⟨idMatch l.length, idMatch l.length, [], false⟩ := by
    intro r hr
    have hrlt := List.mem_range.1 hr
    refine phase2Body_stay_fix _ _ _ _ _ r r ?_ ?_
    · rw [hstay r hrlt]
      rfl
    · show idMatch l.length r = some r
      show (if r < l.length then some r else none) = some r
      rw [if_pos hrlt]
  have hsweep : phase2Sweep (buildAdj l l width height prevHeight)
      (buildAdjStay l l width height prevHeight)
      (augFuel (buildAdj l l width height prevHeight) l.length) l.length
      ⟨idMatch l.length, idMatch l.length, [], false⟩
      = ⟨idMatch l.length, idMatch l.length, [], false⟩ := by
    unfold phase2Sweep
    exact foldl_fix _ _ _ hbody
  have hloop : ∀ sweeps, phase2Loop (buildAdj l l width height prevHeight)
      (buildAdjStay l l width height prevHeight)
      (augFuel (buildAdj l l width height prevHeight) l.length) l.length sweeps
      ⟨idMatch l.length, idMatch l.length, [], false⟩
      = ⟨idMatch l.length, idMatch l.length, [], false⟩ := by
    intro sweeps
    cases sweeps with
    | zero => rfl
    | succ s =>
      show (let st1 := phase2Sweep _ _ _ _ _;
        if st1.improved then phase2Loop _ _ _ _ s st1 else st1) = _
      rw [hsweep]
      simp
  show matcherFinalState l l width height prevHeight = _
  unfold matcherFinalState
  dsimp only
  rw [hp1]
  show (⟨(phase2Loop (buildAdj l l width height prevHeight)
      (buildAdjStay l l width height prevHeight)
      (augFuel (buildAdj l l width height prevHeight) l.length) l.length
      (l.length + 1) ⟨idMatch l.length, idMatch l.length, [], false⟩).mN,
    (phase2Loop (buildAdj l l width height prevHeight)
      (buildAdjStay l l width height prevHeight)
      (augFuel (buildAdj l l width height prevHeight) l.length) l.length
      (l.length + 1) ⟨idMatch l.length, idMatch l.length, [], false⟩).mO⟩ : MatchPair)
    = _
  rw [hloop (l.length + 1)]

theorem extractMovements_identity (objectIndex : Nat) (l : List Nat) :
    extractMovements objectIndex l l (idMatch l.length) = [] := by
  unfold extractMovements
  refine foldl_fix _ [] _ ?_
  intro j hj
  have hjlt := List.mem_range.1 hj
  have hid : idMatch l.length j = some j := by
    show (if j < l.length then some j else none) = some j
    rw [if_pos hjlt]
  show (match idMatch l.length j with
    | none => ([] : List Movement)
    | some oldIdx =>
      let oldPos := l.getD oldIdx 0
      let newPos := l.getD j 0
      if oldPos ≠ newPos then [] ++ [⟨objectIndex, oldPos, newPos⟩] else []) = []
  rw [hid]
  dsimp only
  rw [if_neg (fun hne => hne rfl)]

/-- On identical old and new position lists the per-type engine emits nothing:
the push heuristic does not fire (nothing disappeared) and the matcher returns
the identity matching, whose pairs are all skipped at extraction. -/
theorem detectMovementsForType_identity (objectIndex : Nat) (l : List Nat)
    (width height prevHeight : Nat) (hnd : l.Nodup) :
    detectMovementsForType objectIndex l l width height prevHeight = [] := by
  have hdis : l.filter (fun p => !l.contains p) = [] := by
    rw [List.filter_eq_nil_iff]
    intro a ha
    simp [ha]
  unfold detectMovementsForType
  dsimp only
  rw [hdis]
  rw [if_neg (by simp)]
  show matcherMovements objectIndex l l width height prevHeight = []
  unfold matcherMovements
  rw [matcherFinalState_identity l width height prevHeight hnd]
  exact extractMovements_identity objectIndex l

/-- C4: if the old and new snapshots are identical — same width, same height,
and the same per-cell occupancy bit for every position and object type —
`detectMovements` returns the empty movement list: every position gets a
trivial stay correspondence and stay pairs are never reported. -/
theorem detectMovements_identical (stride : Nat) (p cur : LevelState)
    (hw : p.width = cur.width) (hhgt : p.height = cur.height)
    (hocc : ∀ posIndex objectIndex,
      cellBit stride p.objects posIndex objectIndex
        = cellBit stride cur.objects posIndex objectIndex) :
    detectMovements stride (some p) cur = [] := by
  have hmaps : ∀ o, buildObjectPositionMap stride p.objects p.width p.height o
      = buildObjectPositionMap stride cur.objects cur.width cur.height o := by
    intro o
    rw [buildObjectPositionMap_eq_filter, buildObjectPositionMap_eq_filter, hw, hhgt]
    refine List.filter_congr ?_
    intro a _
    exact hocc a o
  have hstart : detectMovements stride (some p) cur
      = (List.range (stride * 32)).foldl
        (fun acc objectIndex =>
          if (buildObjectPositionMap stride cur.objects cur.width cur.height
              objectIndex).isEmpty then acc
          else if (buildObjectPositionMap stride p.objects p.width p.height
              objectIndex).isEmpty then acc
          else
            acc ++ detectMovementsForType objectIndex
              (buildObjectPositionMap stride p.objects p.width p.height objectIndex)
              (buildObjectPositionMap stride cur.objects cur.width cur.height objectIndex)
              cur.width cur.height p.height)
        [] := rfl
  rw [hstart]
  refine foldl_fix _ [] _ ?_
  intro o ho
  by_cases h1 : (buildObjectPositionMap stride cur.objects cur.width cur.height
      o).isEmpty
  · rw [if_pos h1]
  · rw [if_neg h1]
    by_cases h2 : (buildObjectPositionMap stride p.objects p.width p.height
        o).isEmpty
    · rw [if_pos h2]
    · rw [if_neg h2]
      rw [hmaps o]
      rw [detectMovementsForType_identity o
        (buildObjectPositionMap stride cur.objects cur.width cur.height o)
        cur.width cur.height p.height
        (by rw [buildObjectPositionMap_eq_filter]
            exact List.Nodup.filter _ (List.nodup_range _))]
      rfl

/-- Witness for C4 at a concrete instance: the chained-push old snapshot
compared with itself yields no movement records. -/
theorem detectMovements_identical_witness :
    (chainOld.width = chainOld.width ∧ chainOld.height = chainOld.height ∧
      ∀ posIndex objectIndex, cellBit 1 chainOld.objects posIndex objectIndex
        = cellBit 1 chainOld.objects posIndex objectIndex) ∧
    detectMovements 1 (some chainOld) chainOld = [] :=
  ⟨⟨rfl, rfl, fun _ _ => rfl⟩,
   detectMovements_identical 1 chainOld chainOld rfl rfl (fun _ _ => rfl)⟩

end PS3D
